import Mathlib

/-!
# Verification of the VLFeat randomized KD-forest core (`src/vl/kdtree.c`, `src/vl/kdtree.h`)

This file gives a shallow embedding of the KD-forest build and query engine of
`kdtree.c` and settles the frozen specification claims against it.

Modelling conventions:

* Machine scalars (`double`, and the `float`/`double` data elements, which the C code
  immediately widens to `double` before any arithmetic) are modelled as exact rationals `ℚ`.
* The bound fields and the working bounds array of the bounds pass hold IEEE `±INFINITY`
  besides finite values.  A node's `lowerBound` is modelled as `Option ℚ` with `none = -∞`
  and its `upperBound` as `Option ℚ` with `none = +∞`; the only operations `kdtree.c`
  performs on possibly-infinite values are the comparisons `x <= x1` and `x > x3`, which
  are modelled by `lbLe` and `ubLt` below following IEEE comparison semantics.
* `vl_uindex`/`vl_size` are modelled as `ℕ`; the one place where unsigned wrap-around is
  reachable (`splitIndex -= 1` in `vl_kdtree_build_recursively`) is modelled explicitly
  modulo `2^64`.  `vl_index` (signed) is modelled as `ℤ`.
* Unbounded loops/recursions (the builder, the bounds pass, the query recursion and the
  branch-and-bound loop) take an explicit fuel argument and return `none` on exhaustion.
* `heap-def.h`, `mathop.h` and `random.h` are not part of the repository snapshot under
  `src/`; the indexed binary heaps, the L1/L2 vector-comparison primitives and the random
  stream are modelled from the spec (§4.1, §2.A, §2) and marked as such.
-/

/-! ## List helpers -/

/-- The contiguous sub-slice `[b, e)` of a list (the C slice `l + b .. l + e`). -/
def lslice {α : Type} (l : List α) (b e : ℕ) : List α := (l.drop b).take (e - b)

/-- Replace the contiguous sub-slice `[b, e)` of a list by `s`. -/
def splice {α : Type} (l : List α) (b e : ℕ) (s : List α) : List α :=
  l.take b ++ s ++ l.drop e

/-- Swap the entries at positions `i` and `j` (used by the heap routines). -/
def lswap {α : Type} [Inhabited α] (l : List α) (i j : ℕ) : List α :=
  (l.set i (l.getD j default)).set j (l.getD i default)

@[simp] theorem length_lswap {α : Type} [Inhabited α] (l : List α) (i j : ℕ) :
    (lswap l i j).length = l.length := by
  simp [lswap]

/-! ## Indexed binary heaps

Modelled from the spec (§4.1): `heap-def.h` is not under `src/`.  The spec describes
array-based binary heaps with `push` (place at position `count`, sift up, increment),
`pop` (swap position `0` with position `count-1`, decrement, sift down from `0`, return
the popped slot) and `update` (re-sift after the record at a position changed).  The
heaps are min-heaps with respect to a strict comparison `lt` (the sign of the C
`VL_HEAP_cmp` subtraction); each instantiation below chooses `lt` to match the
corresponding `VL_HEAP_cmp` macro of `kdtree.c`. -/

/-- Modelled from the spec: sift the entry at position `j` up towards the root. -/
def siftUp {α : Type} [Inhabited α] (lt : α → α → Bool) (l : List α) (j : ℕ) : List α :=
  if h : j = 0 then l
  else
    if lt (l.getD j default) (l.getD ((j - 1) / 2) default) then
      siftUp lt (lswap l j ((j - 1) / 2)) ((j - 1) / 2)
    else l
termination_by j
decreasing_by
  have := Nat.div_le_self (j - 1) 2
  omega

/-- Modelled from the spec: sift the entry at position `j` down, within `l.length`. -/
def siftDown {α : Type} [Inhabited α] (lt : α → α → Bool) (l : List α) (j : ℕ) : List α :=
  if h1 : 2 * j + 1 < l.length then
    if h2 : 2 * j + 2 < l.length ∧ lt (l.getD (2 * j + 2) default) (l.getD (2 * j + 1) default) then
      (if lt (l.getD (2 * j + 2) default) (l.getD j default) then
        siftDown lt (lswap l j (2 * j + 2)) (2 * j + 2) else l)
    else
      (if lt (l.getD (2 * j + 1) default) (l.getD j default) then
        siftDown lt (lswap l j (2 * j + 1)) (2 * j + 1) else l)
  else l
termination_by l.length - j
decreasing_by
  · simp only [length_lswap]; omega
  · simp only [length_lswap]; omega

/-- Modelled from the spec: heap push — the new record is placed at position `count`
(the end of the live region) and sifted up. -/
def heapPush {α : Type} [Inhabited α] (lt : α → α → Bool) (l : List α) (x : α) : List α :=
  siftUp lt (l ++ [x]) l.length

/-- Modelled from the spec: the live region after a heap pop — the root is swapped with
the last live entry, the count decremented, and the new root sifted down.  The popped
record itself is the old root `l.getD 0 default`. -/
def heapPopRest {α : Type} [Inhabited α] (lt : α → α → Bool) (l : List α) : List α :=
  siftDown lt ((lswap l 0 (l.length - 1)).take (l.length - 1)) 0

/-- Modelled from the spec: re-sift after the record at position `j` changed
(`vl_heap_update`): sift up if it now precedes its parent, otherwise sift down. -/
def heapUpdate {α : Type} [Inhabited α] (lt : α → α → Bool) (l : List α) (j : ℕ) : List α :=
  if 0 < j ∧ lt (l.getD j default) (l.getD ((j - 1) / 2) default) then siftUp lt l j
  else siftDown lt l j

@[simp] theorem length_siftUp {α : Type} [Inhabited α] (lt : α → α → Bool) (l : List α) (j : ℕ) :
    (siftUp lt l j).length = l.length := by
  induction l, j using siftUp.induct lt with
  | case1 l => rw [siftUp, dif_pos rfl]
  | case2 l j h hlt ih => rw [siftUp, dif_neg h, if_pos hlt, ih, length_lswap]
  | case3 l j h hlt => rw [siftUp, dif_neg h, if_neg hlt]

@[simp] theorem length_siftDown {α : Type} [Inhabited α] (lt : α → α → Bool) (l : List α) (j : ℕ) :
    (siftDown lt l j).length = l.length := by
  induction l, j using siftDown.induct lt with
  | case1 l j h1 h2 hlt ih =>
      rw [siftDown, dif_pos h1, dif_pos h2, if_pos hlt, ih, length_lswap]
  | case2 l j h1 h2 hlt => rw [siftDown, dif_pos h1, dif_pos h2, if_neg hlt]
  | case3 l j h1 h2 hlt ih =>
      rw [siftDown, dif_pos h1, dif_neg h2, if_pos hlt, ih, length_lswap]
  | case4 l j h1 h2 hlt => rw [siftDown, dif_pos h1, dif_neg h2, if_neg hlt]
  | case5 l j h1 => rw [siftDown, dif_neg h1]

@[simp] theorem length_heapPush {α : Type} [Inhabited α] (lt : α → α → Bool)
    (l : List α) (x : α) : (heapPush lt l x).length = l.length + 1 := by
  simp [heapPush]

@[simp] theorem length_heapPopRest {α : Type} [Inhabited α] (lt : α → α → Bool) (l : List α) :
    (heapPopRest lt l).length = l.length - 1 := by
  simp [heapPopRest]

/-- Modelled from the spec: draining pops until the live region is empty; since each pop
moves the current root just past the live region, the buffer region `[0, count)` ends up
ordered by repeated pops from the far end — returned here as the resulting list. -/
def heapDrain {α : Type} [Inhabited α] (lt : α → α → Bool) (l : List α) : List α :=
  if _h : l.length = 0 then []
  else heapDrain lt (heapPopRest lt l) ++ [l.getD 0 default]
termination_by l.length
decreasing_by
  simp only [length_heapPopRest]; omega

@[simp] theorem length_heapDrain {α : Type} [Inhabited α] (lt : α → α → Bool) (l : List α) :
    (heapDrain lt l).length = l.length := by
  induction l using heapDrain.induct lt with
  | case1 l h => rw [heapDrain, dif_pos h, h]; rfl
  | case2 l h ih =>
      rw [heapDrain]; rw [dif_neg h]
      simp only [List.length_append, ih, length_heapPopRest, List.length_singleton]
      omega

/-! ## Data model (`kdtree.h`) -/

/-- `vl_type` restricted to the values `kdtree.c` accepts (`VL_TYPE_FLOAT`,
`VL_TYPE_DOUBLE`).  Scalars of either type are modelled as exact rationals, so the
two `switch (dataType)` branches of the C code coincide in this model. -/
inductive VlType where
  | float : VlType
  | double : VlType
deriving DecidableEq, Repr, Inhabited

/-- `VlVectorComparisonType` restricted to the distances the spec covers. -/
inductive VlVectorComparisonType where
  | distanceL1 : VlVectorComparisonType
  | distanceL2 : VlVectorComparisonType
deriving DecidableEq, Repr, Inhabited

/-- `VlKDTreeThresholdingMethod`. -/
inductive VlKDTreeThresholdingMethod where
  | median : VlKDTreeThresholdingMethod
  | mean : VlKDTreeThresholdingMethod
deriving DecidableEq, Repr, Inhabited

/-- `VlKDTreeNode`.  `lowerChild`/`upperChild` are signed (`vl_index`): negative values
encode a leaf point-range.  `lowerBound` is `none` for `-VL_INFINITY_F`, `upperBound`
is `none` for `+VL_INFINITY_F` (the only non-finite values the code ever stores). -/
structure VlKDTreeNode where
  parent : ℕ
  lowerChild : ℤ
  upperChild : ℤ
  splitDimension : ℕ
  splitThreshold : ℚ
  lowerBound : Option ℚ
  upperBound : Option ℚ
deriving DecidableEq, Repr, Inhabited

/-- `VlKDTreeDataIndexEntry`: a data index and the transient sort key. -/
structure VlKDTreeDataIndexEntry where
  index : ℕ
  value : ℚ
deriving DecidableEq, Repr, Inhabited

/-- `VlKDTreeSplitDimension`. -/
structure VlKDTreeSplitDimension where
  dimension : ℕ
  mean : ℚ
  variance : ℚ
deriving DecidableEq, Repr, Inhabited

/-- `VlKDTree`: the node arena (`numUsedNodes = nodes.length` in this model), the
permutation of data indices, and the observed depth. -/
structure VlKDTree where
  nodes : List VlKDTreeNode
  dataIndex : List VlKDTreeDataIndexEntry
  depth : ℕ
deriving DecidableEq, Repr, Inhabited

/-- `VlKDForestSearchState`: a frontier entry.  The C code stores a pointer to the
tree; the model stores the tree's position in the forest's tree list. -/
structure VlKDForestSearchState where
  treeIndex : ℕ
  nodeIndex : ℕ
  distanceLowerBound : ℚ
deriving DecidableEq, Repr, Inhabited

/-- `VlKDForestNeighbor` as used during the search: `index` is a data index and
`distance` the (finite) distance to the query. -/
structure VlKDForestNeighbor where
  index : ℕ
  distance : ℚ
deriving DecidableEq, Repr, Inhabited

/-- A slot of the caller's neighbor buffer after `vl_kdforest_query` returns.
`index` is signed to represent the `-1` sentinel the code writes into unused slots
(the C field is `vl_uindex`, so `-1` is stored as its two's-complement image);
`distance = none` represents the IEEE `NaN` (`VL_NAN_F`) sentinel. -/
structure VlKDForestNeighborOut where
  index : ℤ
  distance : Option ℚ
deriving DecidableEq, Repr, Inhabited

/-- The immutable part of a built forest that the query traverses: the configuration
of `VlKDForest` together with the borrowed flat data buffer (row-major, `dimension`
scalars per point) and the built trees. -/
structure VlKDForest where
  dimension : ℕ
  dataType : VlType
  data : List ℚ
  numData : ℕ
  distance : VlVectorComparisonType
  numTrees : ℕ
  trees : List VlKDTree
  thresholdingMethod : VlKDTreeThresholdingMethod
  splitHeapSize : ℕ
  maxNumNodes : ℕ
  numSearchers : ℕ
  searchMaxNumComparisons : ℕ
deriving DecidableEq, Repr, Inhabited

/-- `data[di * dimension + d]`: coordinate `d` of point `di`. -/
def datum (forest : VlKDForest) (di d : ℕ) : ℚ :=
  forest.data.getD (di * forest.dimension + d) 0

/-- Modelled from the spec: the vector-comparison primitives selected by
`vl_get_vector_comparison_function_f/_d` (`mathop.h` is not under `src/`).  Per the
spec (§2.A and scenario 1), the L2 primitive returns the sum of squared coordinate
differences (no square root) and the L1 primitive the sum of absolute differences. -/
def vlDistanceFunction (distance : VlVectorComparisonType) (dimension : ℕ)
    (x y : ℕ → ℚ) : ℚ :=
  match distance with
  | .distanceL1 => (List.range dimension).foldl (fun acc i => acc + |x i - y i|) 0
  | .distanceL2 => (List.range dimension).foldl (fun acc i => acc + (x i - y i) ^ 2) 0

/-- `VL_KDTREE_SPLIT_HEAP_SIZE`. -/
def VL_KDTREE_SPLIT_HEAP_SIZE : ℕ := 5

/-- `2^64`, the modulus of `vl_uindex` arithmetic. -/
def U64 : ℕ := 2 ^ 64

/-! ## `vl_kdforest_new` (kdtree.c:303-341)

The C function `vl_malloc`s the forest struct and then assigns every field **except**
`searchMaxNumComparisons`, which keeps whatever bytes `malloc` returned.  The model
makes this explicit: the unassigned field's value is a parameter `uninitMem`
standing for the indeterminate contents of the freshly allocated memory. -/

/-- `vl_kdforest_new dataType dimension numTrees distance`, with `uninitMem` the
indeterminate value of the never-assigned `searchMaxNumComparisons` field. -/
def vl_kdforest_new (dataType : VlType) (dimension numTrees : ℕ)
    (distance : VlVectorComparisonType) (uninitMem : ℕ) : VlKDForest :=
  { dimension := dimension
    dataType := dataType
    data := []
    numData := 0
    distance := distance
    numTrees := numTrees
    trees := []
    thresholdingMethod := .median
    splitHeapSize := min numTrees VL_KDTREE_SPLIT_HEAP_SIZE
    maxNumNodes := 0
    numSearchers := 0
    searchMaxNumComparisons := uninitMem }

/-! ## Builder (`vl_kdtree_node_new`, `vl_kdtree_build_recursively`, kdtree.c:114-292) -/

/-- `vl_kdtree_node_new`: bump-allocate a node, initialize `parent`, zero the children
and split data, and return the new node index.  The C code leaves `lowerBound` and
`upperBound` uninitialized; the bounds pass overwrites them before any read, and the
model initializes them to the `±∞` encoding. -/
def vl_kdtree_node_new (tree : VlKDTree) (parentIndex : ℕ) : VlKDTree × ℕ :=
  ({ tree with
      nodes := tree.nodes ++
        [{ parent := parentIndex, lowerChild := 0, upperChild := 0,
           splitDimension := 0, splitThreshold := 0,
           lowerBound := none, upperBound := none }] },
    tree.nodes.length)

/-- The strict comparison of the split-dimension heap
(`VL_HEAP_cmp(v,x,y) = v[x].variance - v[y].variance`, a min-heap on variance). -/
def splitLt (a b : VlKDTreeSplitDimension) : Bool := a.variance < b.variance

/-- The per-dimension statistics loop of `vl_kdtree_build_recursively`
(kdtree.c:180-224): for each dimension compute the slice's mean and variance
(`E[x²] − E[x]²`) and keep the most varying dimensions in the split heap, replacing
the heap's top (smallest kept variance) when full. -/
def splitHeapScan (forest : VlKDForest) (tree : VlKDTree) (b e : ℕ) :
    List VlKDTreeSplitDimension :=
  (List.range forest.dimension).foldl
    (fun heap d =>
      let entries := lslice tree.dataIndex b e
      let mean := (entries.foldl (fun acc en => acc + datum forest en.index d) 0) / (e - b : ℚ)
      let secondMoment :=
        (entries.foldl (fun acc en => acc + datum forest en.index d * datum forest en.index d) 0) /
          (e - b : ℚ)
      let variance := secondMoment - mean * mean
      if variance = 0 then heap
      else if heap.length < forest.splitHeapSize then
        heapPush splitLt heap { dimension := d, mean := mean, variance := variance }
      else if (heap.getD 0 default).variance < variance then
        heapUpdate splitLt
          (heap.set 0 { dimension := d, mean := mean, variance := variance }) 0
      else heap)
    []

/-- The split threshold and split index selection of `vl_kdtree_build_recursively`
(kdtree.c:261-284), operating on the tree's `dataIndex` after the slice `[b, e)` has
been sorted by `value`.  Returns `(splitIndex, splitThreshold)`.

In `VL_KDTREE_MEAN` mode the threshold is the sample mean `meanValue`; `splitIndex`
is the scan position after the leading run of values `≤ threshold`, **decremented by
one in `vl_uindex` arithmetic** (so the decrement wraps around to `2^64 − 1` when the
run is empty and `b = 0`).  If the guard `dataBegin ≤ splitIndex ∧ splitIndex + 1 <
dataEnd` fails, control falls through to the `VL_KDTREE_MEDIAN` case. -/
def vl_kdtree_split_select (method : VlKDTreeThresholdingMethod) (meanValue : ℚ)
    (dataIndex : List VlKDTreeDataIndexEntry) (b e : ℕ) : ℕ × ℚ :=
  match method with
  | .mean =>
    let run := ((lslice dataIndex b e).takeWhile (fun en => en.value ≤ meanValue)).length
    let splitIndex := (b + run + (U64 - 1)) % U64
    if b ≤ splitIndex ∧ (splitIndex + 1) % U64 < e then (splitIndex, meanValue)
    else
      let medianIndex := (b + e - 1) / 2
      (medianIndex, (dataIndex.getD medianIndex default).value)
  | .median =>
    let medianIndex := (b + e - 1) / 2
    (medianIndex, (dataIndex.getD medianIndex default).value)

/-- The sort relation of `vl_kdtree_compare_index_entries`: order index entries by
their `value` field (the C `qsort` is modelled by a stable insertion sort, one of the
permitted `qsort` behaviours). -/
def entryLe (a b : VlKDTreeDataIndexEntry) : Prop := a.value ≤ b.value

instance : DecidableRel entryLe := fun a b => inferInstanceAs (Decidable (a.value ≤ b.value))

/-- `vl_kdtree_build_recursively` (kdtree.c:160-292).  The state is the tree under
construction together with the position in the injected random stream `rands`
(`vl_rand_uint32`); `fuel` bounds the recursion depth and the result is `none` if it
runs out. -/
def vl_kdtree_build_recursively (forest : VlKDForest) (rands : ℕ → ℕ) :
    ℕ → VlKDTree × ℕ → ℕ → ℕ → ℕ → ℕ → Option (VlKDTree × ℕ)
  | 0, _, _, _, _, _ => none
  | fuel + 1, (tree, rpos), nodeIndex, dataBegin, dataEnd, depth =>
    -- base case: there is only one data point
    if dataEnd - dataBegin ≤ 1 then
      some ({ tree with
                depth := if tree.depth < depth then depth else tree.depth,
                nodes := tree.nodes.set nodeIndex
                  { (tree.nodes.getD nodeIndex default) with
                      lowerChild := -(dataBegin : ℤ) - 1,
                      upperChild := -(dataEnd : ℤ) - 1 } },
            rpos)
    else
      let heap := splitHeapScan forest tree dataBegin dataEnd
      -- additional base case: the maximum variance is 0 (overlapping points)
      if heap.length = 0 then
        some ({ tree with
                  nodes := tree.nodes.set nodeIndex
                    { (tree.nodes.getD nodeIndex default) with
                        lowerChild := -(dataBegin : ℤ) - 1,
                        upperChild := -(dataEnd : ℤ) - 1 } },
              rpos)
      else
        -- toss a dice to decide the splitting dimension
        let splitDimension :=
          heap.getD (rands rpos % min forest.splitHeapSize heap.length) default
        let rpos := rpos + 1
        let tree :=
          { tree with
              nodes := tree.nodes.set nodeIndex
                { (tree.nodes.getD nodeIndex default) with
                    splitDimension := splitDimension.dimension } }
        -- copy the chosen coordinate into the value fields and sort the slice
        let tree :=
          { tree with
              dataIndex :=
                splice tree.dataIndex dataBegin dataEnd
                  (List.insertionSort entryLe
                    ((lslice tree.dataIndex dataBegin dataEnd).map
                      (fun (en : VlKDTreeDataIndexEntry) => { en with
                        value := datum forest en.index splitDimension.dimension }))) }
        -- determine the split threshold
        let st := vl_kdtree_split_select forest.thresholdingMethod splitDimension.mean
                    tree.dataIndex dataBegin dataEnd
        let tree :=
          { tree with
              nodes := tree.nodes.set nodeIndex
                { (tree.nodes.getD nodeIndex default) with splitThreshold := st.2 } }
        let m := (st.1 + 1) % U64
        -- divide subparts
        let tn := vl_kdtree_node_new tree nodeIndex
        let tree :=
          { tn.1 with
              nodes := tn.1.nodes.set nodeIndex
                { (tn.1.nodes.getD nodeIndex default) with lowerChild := (tn.2 : ℤ) } }
        match vl_kdtree_build_recursively forest rands fuel (tree, rpos) tn.2
                dataBegin m (depth + 1) with
        | none => none
        | some (tree, rpos) =>
          let tn2 := vl_kdtree_node_new tree nodeIndex
          let tree :=
            { tn2.1 with
                nodes := tn2.1.nodes.set nodeIndex
                  { (tn2.1.nodes.getD nodeIndex default) with upperChild := (tn2.2 : ℤ) } }
          vl_kdtree_build_recursively forest rands fuel (tree, rpos) tn2.2
            m dataEnd (depth + 1)

/-! ## Bounds pass (`vl_kdtree_calc_bounds_recursively`, kdtree.c:493-516) -/

/-- `vl_kdtree_calc_bounds_recursively`.  `searchBounds` is the working `2 × dimension`
array: slot `2*i` is the current lower bound of dimension `i` (`none = -∞`), slot
`2*i + 1` the current upper bound (`none = +∞`).  The node records the current bounds
along its own split dimension; for each child present (child index `> 0`, the C
guard) the corresponding slot is narrowed to the split threshold, the child is
processed, and the slot is restored from the node's stored bound. -/
def vl_kdtree_calc_bounds_recursively :
    ℕ → VlKDTree → ℕ → List (Option ℚ) → Option (VlKDTree × List (Option ℚ))
  | 0, _, _, _ => none
  | fuel + 1, tree, nodeIndex, searchBounds =>
    let node := tree.nodes.getD nodeIndex default
    let i := node.splitDimension
    let t := node.splitThreshold
    let tree :=
      { tree with
          nodes := tree.nodes.set nodeIndex
            { node with
                lowerBound := searchBounds.getD (2 * i) none,
                upperBound := searchBounds.getD (2 * i + 1) none } }
    let stepLower :=
      if 0 < node.lowerChild then
        match vl_kdtree_calc_bounds_recursively fuel tree node.lowerChild.toNat
                (searchBounds.set (2 * i + 1) (some t)) with
        | none => none
        | some (tree1, sb1) =>
          some (tree1, sb1.set (2 * i + 1) ((tree1.nodes.getD nodeIndex default).upperBound))
      else some (tree, searchBounds)
    match stepLower with
    | none => none
    | some (tree2, sb2) =>
      let node2 := tree2.nodes.getD nodeIndex default
      if 0 < node2.upperChild then
        match vl_kdtree_calc_bounds_recursively fuel tree2 node2.upperChild.toNat
                (sb2.set (2 * i) (some t)) with
        | none => none
        | some (tree3, sb3) =>
          some (tree3, sb3.set (2 * i) ((tree3.nodes.getD nodeIndex default).lowerBound))
      else some (tree2, sb2)

/-! ## `vl_kdforest_build` (kdtree.c:530-575) -/

/-- The initial `searchBounds` array: `dimension` pairs `(-∞, +∞)`. -/
def initialSearchBounds (dimension : ℕ) : List (Option ℚ) :=
  List.replicate (2 * dimension) none

/-- Build one tree: fresh identity permutation, fresh arena with the root allocated
(`vl_kdtree_node_new(tree, 0)`), then the recursive builder on the full range. -/
def vl_kdforest_build_tree (forest : VlKDForest) (rands : ℕ → ℕ) (fuel : ℕ)
    (numData : ℕ) (rpos : ℕ) : Option (VlKDTree × ℕ) :=
  let tree0 : VlKDTree :=
    { nodes := [],
      dataIndex := (List.range numData).map (fun di => { index := di, value := 0 }),
      depth := 0 }
  let tn := vl_kdtree_node_new tree0 0
  vl_kdtree_build_recursively forest rands fuel (tn.1, rpos) tn.2 0 numData 0

/-- Fold of `vl_kdforest_build_tree` over the tree list, threading the random stream
position and accumulating `maxNumNodes` (the sum of `numUsedNodes`). -/
def vl_kdforest_build_trees (forest : VlKDForest) (rands : ℕ → ℕ) (fuel : ℕ)
    (numData : ℕ) : ℕ → ℕ → Option (List VlKDTree × ℕ)
  | 0, _ => some ([], 0)
  | numTrees + 1, rpos =>
    match vl_kdforest_build_tree forest rands fuel numData rpos with
    | none => none
    | some (tree, rpos1) =>
      match vl_kdforest_build_trees forest rands fuel numData numTrees rpos1 with
      | none => none
      | some (trees, maxNumNodes) => some (tree :: trees, tree.nodes.length + maxNumNodes)

/-- The bounds pass of `vl_kdforest_build`: for each tree, re-initialize the working
bounds to `(-∞, +∞)` and run `vl_kdtree_calc_bounds_recursively` from the root. -/
def vl_kdforest_calc_bounds (dimension fuel : ℕ) : List VlKDTree → Option (List VlKDTree)
  | [] => some []
  | tree :: rest =>
    match vl_kdtree_calc_bounds_recursively fuel tree 0 (initialSearchBounds dimension) with
    | none => none
    | some (tree1, _) =>
      match vl_kdforest_calc_bounds dimension fuel rest with
      | none => none
      | some rest1 => some (tree1 :: rest1)

/-- `vl_kdforest_build self numData data`: attach the borrowed data, build all trees,
run the bounds pass, and record `maxNumNodes`. -/
def vl_kdforest_build (forest : VlKDForest) (rands : ℕ → ℕ) (fuel : ℕ)
    (numData : ℕ) (data : List ℚ) : Option VlKDForest :=
  let forest := { forest with data := data, numData := numData }
  match vl_kdforest_build_trees forest rands fuel numData forest.numTrees 0 with
  | none => none
  | some (trees, maxNumNodes) =>
    match vl_kdforest_calc_bounds forest.dimension fuel trees with
    | none => none
    | some trees1 =>
      some { forest with trees := trees1, maxNumNodes := maxNumNodes }

/-! ## Searcher state and query (`vl_kdforest_query_recursively`, `vl_kdforest_query`,
kdtree.c:582-815) -/

/-- `VlKDForestSearcher`: the per-searcher mutable state.  `comparedLog` is a ghost
field recording, in order, the data indices passed to the distance primitive during
the current query (the C code has no such field; it is used to state the
deduplication and counting claims). -/
structure VlKDForestSearcher where
  searchIdBook : List ℕ
  searchId : ℕ
  searchNumComparisons : ℕ
  searchNumRecursions : ℕ
  searchNumSimplifications : ℕ
  searchHeap : List VlKDForestSearchState
  comparedLog : List ℕ
deriving DecidableEq, Repr, Inhabited

/-- `vl_kdforest_new_searcher` (kdtree.c:358-395), restricted to the fields the query
reads: zeroed counters and `searchId`, a zeroed (`vl_calloc`) visited book of size
`numData`, an empty frontier. -/
def vl_kdforest_new_searcher (forest : VlKDForest) : VlKDForestSearcher :=
  { searchIdBook := List.replicate forest.numData 0
    searchId := 0
    searchNumComparisons := 0
    searchNumRecursions := 0
    searchNumSimplifications := 0
    searchHeap := []
    comparedLog := [] }

/-- The strict comparison of the frontier heap
(`VL_HEAP_cmp(v,x,y) = v[x].distanceLowerBound - v[y].distanceLowerBound`,
a min-heap on the lower bound). -/
def searchStateLt (a b : VlKDForestSearchState) : Bool :=
  a.distanceLowerBound < b.distanceLowerBound

/-- The strict comparison of the neighbor heap
(`VL_HEAP_cmp(v,x,y) = v[y].distance - v[x].distance`, a max-heap on distance:
the root is the current worst accepted neighbor). -/
def neighborLt (a b : VlKDForestNeighbor) : Bool := b.distance < a.distance

/-- The IEEE comparison `x <= x1` where `x1` is a node's `lowerBound`
(`none = -∞`, for which the comparison is false). -/
def lbLe (x : ℚ) (x1 : Option ℚ) : Bool :=
  match x1 with
  | none => false
  | some q => x ≤ q

/-- The IEEE comparison `x > x3` where `x3` is a node's `upperBound`
(`none = +∞`, for which the comparison is false). -/
def ubLt (x : ℚ) (x3 : Option ℚ) : Bool :=
  match x3 with
  | none => false
  | some q => q < x

/-- One iteration step of the leaf loop of `vl_kdforest_query_recursively`
(kdtree.c:623-669), processing `tree.dataIndex[iter]`: dedup via the visited book,
full-vector comparison, and insertion into the neighbor max-heap (push while fewer
than `numNeighbors` were collected, else replace the root if strictly better). -/
def leafStep (forest : VlKDForest) (tree : VlKDTree) (query : List ℚ)
    (numNeighbors : ℕ) (iter : ℕ)
    (s : VlKDForestSearcher) (neighbors : List VlKDForestNeighbor) :
    VlKDForestSearcher × List VlKDForestNeighbor :=
  let di := (tree.dataIndex.getD iter default).index
  if s.searchIdBook.getD di 0 = s.searchId then (s, neighbors)
  else
    let s := { s with searchIdBook := s.searchIdBook.set di s.searchId }
    let dist := vlDistanceFunction forest.distance forest.dimension
      (fun i => query.getD i 0) (fun i => forest.data.getD (di * forest.dimension + i) 0)
    let s := { s with
                searchNumComparisons := s.searchNumComparisons + 1,
                comparedLog := s.comparedLog ++ [di] }
    if neighbors.length < numNeighbors then
      (s, heapPush neighborLt neighbors { index := di, distance := dist })
    else if dist < (neighbors.getD 0 default).distance then
      (s, heapUpdate neighborLt (neighbors.set 0 { index := di, distance := dist }) 0)
    else (s, neighbors)

/-- The leaf loop of `vl_kdforest_query_recursively`: iterate `iter` from `begin`
while `iter < end` and the comparison budget is not exhausted.  `remaining` is the
structural counter `end - iter`. -/
def leafLoop (forest : VlKDForest) (tree : VlKDTree) (query : List ℚ)
    (numNeighbors : ℕ) :
    ℕ → ℕ → VlKDForestSearcher × List VlKDForestNeighbor →
    VlKDForestSearcher × List VlKDForestNeighbor
  | 0, _, sn => sn
  | remaining + 1, iter, (s, neighbors) =>
    if forest.searchMaxNumComparisons = 0 ∨
        s.searchNumComparisons < forest.searchMaxNumComparisons then
      leafLoop forest tree query numNeighbors remaining (iter + 1)
        (leafStep forest tree query numNeighbors iter s neighbors)
    else (s, neighbors)

/-- `vl_kdforest_query_recursively` (kdtree.c:582-725).  `fuel` bounds the descent
depth; the C recursion always terminates on well-formed trees because every descent
step moves to a child node. -/
def vl_kdforest_query_recursively (forest : VlKDForest) (query : List ℚ)
    (numNeighbors : ℕ) :
    ℕ → ℕ → ℕ → ℚ → VlKDForestSearcher × List VlKDForestNeighbor →
    Option (VlKDForestSearcher × List VlKDForestNeighbor)
  | 0, _, _, _, _ => none
  | fuel + 1, treeIndex, nodeIndex, dist, (s, neighbors) =>
    let tree := forest.trees.getD treeIndex default
    let node := tree.nodes.getD nodeIndex default
    let i := node.splitDimension
    let s := { s with searchNumRecursions := s.searchNumRecursions + 1 }
    let x := query.getD i 0
    if node.lowerChild < 0 then
      -- base case: this is a leaf node
      let b := (-node.lowerChild - 1).toNat
      let e := (-node.upperChild - 1).toNat
      some (leafLoop forest tree query numNeighbors (e - b) b (s, neighbors))
    else
      let x1 := node.lowerBound
      let x2 := node.splitThreshold
      let x3 := node.upperBound
      let delta := x - x2
      let saveDist0 := dist + delta * delta
      let nc :=
        if x ≤ x2 then
          (node.lowerChild.toNat, node.upperChild.toNat,
            if lbLe x x1 then saveDist0 - (x - x1.getD 0) * (x - x1.getD 0) else saveDist0)
        else
          (node.upperChild.toNat, node.lowerChild.toNat,
            if ubLt x x3 then saveDist0 - (x - x3.getD 0) * (x - x3.getD 0) else saveDist0)
      let s :=
        if neighbors.length < numNeighbors ∨ (neighbors.getD 0 default).distance > nc.2.2 then
          { s with
              searchHeap := heapPush searchStateLt s.searchHeap
                { treeIndex := treeIndex, nodeIndex := nc.2.1, distanceLowerBound := nc.2.2 } }
        else s
      vl_kdforest_query_recursively forest query numNeighbors fuel treeIndex nc.1 dist
        (s, neighbors)

/-- The branch-and-bound loop of `vl_kdforest_query` (kdtree.c:777-802). -/
def vl_kdforest_query_loop (forest : VlKDForest) (query : List ℚ) (numNeighbors : ℕ)
    (recFuel : ℕ) :
    ℕ → VlKDForestSearcher × List VlKDForestNeighbor →
    Option (VlKDForestSearcher × List VlKDForestNeighbor)
  | 0, _ => none
  | fuel + 1, (s, neighbors) =>
    if ¬ (forest.searchMaxNumComparisons = 0 ∨
          s.searchNumComparisons < forest.searchMaxNumComparisons) then
      some (s, neighbors)
    else if s.searchHeap.length = 0 then
      -- break if search space completed
      some (s, neighbors)
    else
      let state := s.searchHeap.getD 0 default
      let s := { s with searchHeap := heapPopRest searchStateLt s.searchHeap }
      -- break if no better solution may exist
      if neighbors.length = numNeighbors ∧
          (neighbors.getD 0 default).distance < state.distanceLowerBound then
        some ({ s with searchNumSimplifications := s.searchNumSimplifications + 1 },
          neighbors)
      else
        match vl_kdforest_query_recursively forest query numNeighbors recFuel
                state.treeIndex state.nodeIndex state.distanceLowerBound (s, neighbors) with
        | none => none
        | some sn => vl_kdforest_query_loop forest query numNeighbors recFuel fuel sn

/-- Seed the frontier with each tree's root at lower bound `0` (kdtree.c:766-774). -/
def seedSearchHeap (numTrees : ℕ) : List VlKDForestSearchState :=
  (List.range numTrees).foldl
    (fun heap ti =>
      heapPush searchStateLt heap
        { treeIndex := ti, nodeIndex := 0, distanceLowerBound := 0 })
    []

/-- `vl_kdforest_query` (kdtree.c:741-815), returning the final searcher state, the
internal collected-neighbor list, the caller's buffer of `numNeighbors` slots, and the
returned value `searchNumComparisons`.  The final buffer is the drained (ascending)
region followed by the `(index = -1, distance = NaN)` sentinel slots the code writes
into positions `[numAddedNeighbors, numNeighbors)`. -/
def vl_kdforest_query_full (forest : VlKDForest) (query : List ℚ)
    (numNeighbors : ℕ) (loopFuel recFuel : ℕ) (s : VlKDForestSearcher) :
    Option (VlKDForestSearcher × List VlKDForestNeighbor × List VlKDForestNeighborOut × ℕ) :=
  let s := { s with
              searchId := s.searchId + 1,
              searchNumRecursions := 0,
              searchNumComparisons := 0,
              searchNumSimplifications := 0,
              comparedLog := [],
              searchHeap := seedSearchHeap forest.numTrees }
  match vl_kdforest_query_loop forest query numNeighbors recFuel loopFuel (s, []) with
  | none => none
  | some (s1, neighbors) =>
    let out :=
      (heapDrain neighborLt neighbors).map
        (fun nb => ({ index := (nb.index : ℤ), distance := some nb.distance } :
          VlKDForestNeighborOut)) ++
      List.replicate (numNeighbors - neighbors.length) { index := -1, distance := none }
    some (s1, neighbors, out, s1.searchNumComparisons)

/-- `vl_kdforest_query` as seen by the caller: the filled neighbor buffer and the
returned comparison count. -/
def vl_kdforest_query (forest : VlKDForest) (query : List ℚ) (numNeighbors : ℕ)
    (loopFuel recFuel : ℕ) (s : VlKDForestSearcher) :
    Option (List VlKDForestNeighborOut × ℕ) :=
  match vl_kdforest_query_full forest query numNeighbors loopFuel recFuel s with
  | none => none
  | some (_, _, out, ret) => some (out, ret)

/-! ## Claim C3 — defaults of `vl_kdforest_new` -/

/-- A general description of what `vl_kdforest_new` assigns: the thresholding method
defaults to median for every argument combination, while `searchMaxNumComparisons`
keeps the indeterminate contents of the freshly `vl_malloc`ed struct — the function
body (kdtree.c:303-341) never assigns that field. -/
theorem vl_kdforest_new_fields (dataType : VlType) (dimension numTrees : ℕ)
    (distance : VlVectorComparisonType) (uninitMem : ℕ) :
    (vl_kdforest_new dataType dimension numTrees distance uninitMem).thresholdingMethod =
        VlKDTreeThresholdingMethod.median ∧
      (vl_kdforest_new dataType dimension numTrees distance uninitMem).searchMaxNumComparisons =
        uninitMem :=
  ⟨rfl, rfl⟩

/-- C3: the claim states that `vl_kdforest_new` returns a forest whose thresholding
method defaults to median **and whose per-query comparison budget defaults to 0**.
The median default holds, but `vl_kdforest_new` (kdtree.c:303-341) never initializes
`searchMaxNumComparisons`: the field keeps whatever `vl_malloc` returned.  For a
valid argument combination (float, dimension 2 ≥ 1, 3 trees ≥ 1, L2) and a memory
content of `7`, the created forest reports a comparison budget of `7 ≠ 0`. -/
theorem C3_searchMaxNumComparisons_uninitialized :
    (vl_kdforest_new VlType.float 2 3 VlVectorComparisonType.distanceL2 7).thresholdingMethod =
        VlKDTreeThresholdingMethod.median ∧
      (vl_kdforest_new VlType.float 2 3 VlVectorComparisonType.distanceL2 7).searchMaxNumComparisons =
        7 ∧
      (7 : ℕ) ≠ 0 :=
  ⟨rfl, rfl, by decide⟩

/-! ## Claim C4 — the mean → median fallback and `vl_uindex` wrap-around -/

set_option maxRecDepth 4000 in
/-- C4: the claim states that whenever the sample-mean threshold would leave one side
of the slice empty, the builder falls back to the median rule `splitIndex =
(dataBegin + dataEnd - 1) / 2`, so that both children always receive a non-empty
subslice.  This fails when `dataBegin = 0` and every value of the slice exceeds the
threshold (the code's own comment, kdtree.c:268-273, notes the computed mean can come
out "smaller, equal, or larger than all points" under floating-point rounding):
`splitIndex -= 1` underflows the `vl_uindex` to `2^64 - 1`, the fallback guard
`dataBegin <= splitIndex && splitIndex + 1 < dataEnd` then **passes**
(`0 ≤ 2^64 - 1` and `(2^64 - 1) + 1` wraps to `0 < dataEnd`), so no median fallback
happens: the mean split is kept, the lower child receives the empty range `[0, 0)`
and the upper child the whole slice `[0, dataEnd)` — the builder then re-enters the
same slice (until the node-pool assertion aborts the process), contradicting the
claimed "both children always receive a non-empty subslice".  Concretely, for the
sorted slice `[0, 2)` with values `1, 2` and threshold `1/2`: -/
theorem C4_mean_fallback_defeated_by_wraparound :
    vl_kdtree_split_select VlKDTreeThresholdingMethod.mean (1 / 2)
        [{ index := 0, value := 1 }, { index := 1, value := 2 }] 0 2 = (U64 - 1, 1 / 2) ∧
      ((U64 - 1) + 1) % U64 = 0 ∧
      vl_kdtree_split_select VlKDTreeThresholdingMethod.median (1 / 2)
        [{ index := 0, value := 1 }, { index := 1, value := 2 }] 0 2 = (0, 1) ∧
      (U64 - 1 : ℕ) ≠ 0 := by
  refine ⟨by with_unfolding_all decide, by decide, by with_unfolding_all decide, by decide⟩

/-! ## Claim C1 — exact-mode queries and the configured metric -/

set_option maxRecDepth 100000 in
/-- C1: the claim states that in exact mode (`searchMaxNumComparisons = 0`)
`vl_kdforest_query` returns the true k nearest neighbors **under the configured
metric (L1 or L2)**.  This fails for L1: `vl_kdforest_query_recursively`
(kdtree.c:689-706) accumulates the frontier lower bound with the *squared* axis
offsets `(x - x2)²` regardless of the configured metric, while the leaf comparisons
use the L1 primitive.  For coordinate offsets larger than 1 the squared frontier key
*overestimates* the true L1 distance to the pruned subtree, so the early-termination
test of `vl_kdforest_query` (kdtree.c:789-793) can discard a partition that still
contains the true nearest neighbor.

Concrete failing input: dimension 1, data points `0` and `10`, one tree, median
thresholding, L1 distance, exact mode, query `4`, `k = 1`.  The root split threshold
is `0`; descending into the upper child the sibling (which holds point `0`) is pushed
with key `(4 - 0)² = 16`; the leaf comparison against point `10` yields L1 distance
`6`; the next loop iteration pops the sibling's key `16 > 6` and stops.  The query
returns point `1` at distance `6`, although the unreturned point `0` is at L1
distance `4 < 6` — violating `dist(q, query) ≤ dist(p, query)`. -/
theorem C1_exact_l1_query_returns_wrong_neighbor :
    (vl_kdforest_build (vl_kdforest_new VlType.float 1 1 VlVectorComparisonType.distanceL1 0)
        (fun _ => 0) 10 2 [0, 10]).map
        (fun f => vl_kdforest_query f [4] 1 20 20 (vl_kdforest_new_searcher f)) =
      some (some ([{ index := 1, distance := some 6 }], 1)) ∧
    vlDistanceFunction VlVectorComparisonType.distanceL1 1 (fun i => [(4 : ℚ)].getD i 0)
        (fun i => [(0 : ℚ), 10].getD (0 * 1 + i) 0) = 4 ∧
    ¬ ((6 : ℚ) ≤ 4) := by
  refine ⟨by with_unfolding_all decide, by with_unfolding_all decide,
    by with_unfolding_all decide⟩

/-! ## Claim C2 — what the bounds pass actually stores -/

set_option maxRecDepth 100000 in
/-- C2 (counterexample): the claim states that after `vl_kdforest_build` every node's
`[lowerBound, upperBound]` **tightly** contains the split-dimension coordinates of the
points reachable through it — in particular that the root's bounds equal the global
minimum and maximum of that coordinate.  The code stores something else:
`vl_kdforest_build` initializes the working bounds to `(-VL_INFINITY_F,
+VL_INFINITY_F)` (kdtree.c:562-570) and `vl_kdtree_calc_bounds_recursively` records
the *ancestor-threshold region* bounds, so the root's stored interval is always
`(-∞, +∞)` (`(none, none)` in this model), never the data min/max.

Concrete input: dimension 1, data points `0` and `10` (global min `0`, max `10`),
one tree, median thresholding.  After the build the root node stores
`lowerBound = -∞` and `upperBound = +∞`, not `0` and `10`. -/
theorem C2_root_bounds_are_infinite_not_tight :
    (vl_kdforest_build (vl_kdforest_new VlType.float 1 1 VlVectorComparisonType.distanceL2 0)
        (fun _ => 0) 10 2 [0, 10]).map
        (fun f =>
          (((f.trees.getD 0 default).nodes.getD 0 default).lowerBound,
           ((f.trees.getD 0 default).nodes.getD 0 default).upperBound)) =
      some ((none : Option ℚ), (none : Option ℚ)) ∧
    (none : Option ℚ) ≠ some 0 ∧ (none : Option ℚ) ≠ some 10 := by
  refine ⟨by with_unfolding_all decide, by decide, by decide⟩

/-! ## Claim C5 — the sibling partition's frontier key -/

/-- The sibling partition's frontier key exactly as the spec (§4.6) words it:
`saveDist = dist + (x − x2)²` where `dist` is the lower-bound distance inherited from
the caller; when descending into the lower child (`x ≤ x2`) with `x ≤ x1`, subtract
`(x − x1)²`; when descending into the upper child with `x > x3`, subtract `(x − x3)²`.
`x1`/`x3` are the node's interval ends (`none` encodes `-∞`/`+∞`, against which the
comparisons are false). -/
def specSiblingBound (dist x x2 : ℚ) (x1 x3 : Option ℚ) : ℚ :=
  if x ≤ x2 then
    match x1 with
    | some q => if x ≤ q then dist + (x - x2) ^ 2 - (x - q) ^ 2 else dist + (x - x2) ^ 2
    | none => dist + (x - x2) ^ 2
  else
    match x3 with
    | some q => if q < x then dist + (x - x2) ^ 2 - (x - q) ^ 2 else dist + (x - x2) ^ 2
    | none => dist + (x - x2) ^ 2

/-- C5: at an internal node (`lowerChild ≥ 0`) with split axis `i`, query coordinate
`x = query[i]`, interval `[x1, x3] = [lowerBound, upperBound]` and threshold `x2`,
one step of `vl_kdforest_query_recursively` (kdtree.c:689-724) descends into the
lower child when `x ≤ x2` and into the upper child otherwise, **with the inherited
`dist` unchanged**, after conditionally pushing the sibling onto the frontier with
key `saveDist = dist + (x - x2)²`, reduced by `(x - x1)²` when descending into the
lower child with `x ≤ x1` and by `(x - x3)²` when descending into the upper child
with `x > x3` — i.e. with key `specSiblingBound dist x x2 x1 x3`. -/
theorem C5_internal_step_pushes_spec_sibling_key (forest : VlKDForest) (query : List ℚ)
    (numNeighbors fuel treeIndex nodeIndex : ℕ) (dist : ℚ)
    (s : VlKDForestSearcher) (neighbors : List VlKDForestNeighbor)
    (hInternal :
      ¬ ((forest.trees.getD treeIndex default).nodes.getD nodeIndex default).lowerChild < 0) :
    vl_kdforest_query_recursively forest query numNeighbors (fuel + 1) treeIndex nodeIndex
        dist (s, neighbors) =
      vl_kdforest_query_recursively forest query numNeighbors fuel treeIndex
        (if query.getD ((forest.trees.getD treeIndex default).nodes.getD nodeIndex
              default).splitDimension 0 ≤
            ((forest.trees.getD treeIndex default).nodes.getD nodeIndex default).splitThreshold
          then ((forest.trees.getD treeIndex default).nodes.getD nodeIndex
            default).lowerChild.toNat
          else ((forest.trees.getD treeIndex default).nodes.getD nodeIndex
            default).upperChild.toNat)
        dist
        (if neighbors.length < numNeighbors ∨
            (neighbors.getD 0 default).distance >
              specSiblingBound dist
                (query.getD ((forest.trees.getD treeIndex default).nodes.getD nodeIndex
                  default).splitDimension 0)
                ((forest.trees.getD treeIndex default).nodes.getD nodeIndex
                  default).splitThreshold
                ((forest.trees.getD treeIndex default).nodes.getD nodeIndex
                  default).lowerBound
                ((forest.trees.getD treeIndex default).nodes.getD nodeIndex
                  default).upperBound then
          ({ s with
              searchNumRecursions := s.searchNumRecursions + 1,
              searchHeap := heapPush searchStateLt s.searchHeap
                { treeIndex := treeIndex,
                  nodeIndex :=
                    (if query.getD ((forest.trees.getD treeIndex default).nodes.getD nodeIndex
                          default).splitDimension 0 ≤
                        ((forest.trees.getD treeIndex default).nodes.getD nodeIndex
                          default).splitThreshold
                      then ((forest.trees.getD treeIndex default).nodes.getD nodeIndex
                        default).upperChild.toNat
                      else ((forest.trees.getD treeIndex default).nodes.getD nodeIndex
                        default).lowerChild.toNat),
                  distanceLowerBound :=
                    specSiblingBound dist
                      (query.getD ((forest.trees.getD treeIndex default).nodes.getD nodeIndex
                        default).splitDimension 0)
                      ((forest.trees.getD treeIndex default).nodes.getD nodeIndex
                        default).splitThreshold
                      ((forest.trees.getD treeIndex default).nodes.getD nodeIndex
                        default).lowerBound
                      ((forest.trees.getD treeIndex default).nodes.getD nodeIndex
                        default).upperBound } }, neighbors)
        else ({ s with searchNumRecursions := s.searchNumRecursions + 1 }, neighbors)) := by
  have hkey :
      ∀ (node : VlKDTreeNode) (x : ℚ),
        (if x ≤ node.splitThreshold then
            (node.lowerChild.toNat, node.upperChild.toNat,
              if lbLe x node.lowerBound then
                dist + (x - node.splitThreshold) * (x - node.splitThreshold) -
                  (x - node.lowerBound.getD 0) * (x - node.lowerBound.getD 0)
              else dist + (x - node.splitThreshold) * (x - node.splitThreshold))
          else
            (node.upperChild.toNat, node.lowerChild.toNat,
              if ubLt x node.upperBound then
                dist + (x - node.splitThreshold) * (x - node.splitThreshold) -
                  (x - node.upperBound.getD 0) * (x - node.upperBound.getD 0)
              else dist + (x - node.splitThreshold) * (x - node.splitThreshold))) =
          (if x ≤ node.splitThreshold then node.lowerChild.toNat else node.upperChild.toNat,
            if x ≤ node.splitThreshold then node.upperChild.toNat else node.lowerChild.toNat,
            specSiblingBound dist x node.splitThreshold node.lowerBound node.upperBound) := by
    intro node x
    rcases hb1 : node.lowerBound with _ | q1 <;> rcases hb3 : node.upperBound with _ | q3 <;>
      by_cases hx : x ≤ node.splitThreshold <;>
      simp [specSiblingBound, lbLe, ubLt, hx, hb1, hb3, Prod.ext_iff] <;>
      ring_nf
  rw [vl_kdforest_query_recursively]
  simp only [if_neg hInternal]
  rw [hkey ((forest.trees.getD treeIndex default).nodes.getD nodeIndex default)
    (query.getD ((forest.trees.getD treeIndex default).nodes.getD nodeIndex
      default).splitDimension 0)]
  by_cases hx :
      query.getD ((forest.trees.getD treeIndex default).nodes.getD nodeIndex
          default).splitDimension 0 ≤
        ((forest.trees.getD treeIndex default).nodes.getD nodeIndex default).splitThreshold
  · simp only [if_pos hx]
    split_ifs <;> rfl
  · simp only [if_neg hx]
    split_ifs <;> rfl


/-- A concrete built forest (the output of `vl_kdforest_build` on dimension 1, data
`{0, 10}`, one tree, median thresholding, L1) whose root node is internal; used to
instantiate theorems with hypotheses. -/
def sampleForest : VlKDForest :=
  { dimension := 1
    dataType := VlType.float
    data := [0, 10]
    numData := 2
    distance := VlVectorComparisonType.distanceL1
    numTrees := 1
    trees := [{ nodes :=
                  [{ parent := 0, lowerChild := 1, upperChild := 2, splitDimension := 0,
                     splitThreshold := 0, lowerBound := none, upperBound := none },
                   { parent := 0, lowerChild := -1, upperChild := -2, splitDimension := 0,
                     splitThreshold := 0, lowerBound := none, upperBound := some 0 },
                   { parent := 0, lowerChild := -2, upperChild := -3, splitDimension := 0,
                     splitThreshold := 0, lowerBound := some 0, upperBound := none }],
                dataIndex := [{ index := 0, value := 0 }, { index := 1, value := 10 }],
                depth := 1 }]
    thresholdingMethod := VlKDTreeThresholdingMethod.median
    splitHeapSize := 1
    maxNumNodes := 3
    numSearchers := 0
    searchMaxNumComparisons := 0 }

/-- A fresh searcher on `sampleForest`. -/
def sampleSearcher : VlKDForestSearcher := vl_kdforest_new_searcher sampleForest

/-- Witness for `C5_internal_step_pushes_spec_sibling_key`: the root of `sampleForest`
is internal, and the theorem applies to it with query `[4]`, `k = 1`, `dist = 0`. -/
theorem C5_internal_step_witness :
    (¬ ((sampleForest.trees.getD 0 default).nodes.getD 0 default).lowerChild < 0) ∧
    (
    vl_kdforest_query_recursively sampleForest ([(4 : ℚ)]) 1 (1 + 1) 0 0
        (0 : ℚ) (sampleSearcher, ([] : List VlKDForestNeighbor)) =
      vl_kdforest_query_recursively sampleForest ([(4 : ℚ)]) 1 1 0
        (if ([(4 : ℚ)]).getD ((sampleForest.trees.getD 0 default).nodes.getD 0
              default).splitDimension 0 ≤
            ((sampleForest.trees.getD 0 default).nodes.getD 0 default).splitThreshold
          then ((sampleForest.trees.getD 0 default).nodes.getD 0
            default).lowerChild.toNat
          else ((sampleForest.trees.getD 0 default).nodes.getD 0
            default).upperChild.toNat)
        (0 : ℚ)
        (if ([] : List VlKDForestNeighbor).length < 1 ∨
            (([] : List VlKDForestNeighbor).getD 0 default).distance >
              specSiblingBound (0 : ℚ)
                (([(4 : ℚ)]).getD ((sampleForest.trees.getD 0 default).nodes.getD 0
                  default).splitDimension 0)
                ((sampleForest.trees.getD 0 default).nodes.getD 0
                  default).splitThreshold
                ((sampleForest.trees.getD 0 default).nodes.getD 0
                  default).lowerBound
                ((sampleForest.trees.getD 0 default).nodes.getD 0
                  default).upperBound then
          ({ sampleSearcher with
              searchNumRecursions := sampleSearcher.searchNumRecursions + 1,
              searchHeap := heapPush searchStateLt sampleSearcher.searchHeap
                { treeIndex := 0,
                  nodeIndex :=
                    (if ([(4 : ℚ)]).getD ((sampleForest.trees.getD 0 default).nodes.getD 0
                          default).splitDimension 0 ≤
                        ((sampleForest.trees.getD 0 default).nodes.getD 0
                          default).splitThreshold
                      then ((sampleForest.trees.getD 0 default).nodes.getD 0
                        default).upperChild.toNat
                      else ((sampleForest.trees.getD 0 default).nodes.getD 0
                        default).lowerChild.toNat),
                  distanceLowerBound :=
                    specSiblingBound (0 : ℚ)
                      (([(4 : ℚ)]).getD ((sampleForest.trees.getD 0 default).nodes.getD 0
                        default).splitDimension 0)
                      ((sampleForest.trees.getD 0 default).nodes.getD 0
                        default).splitThreshold
                      ((sampleForest.trees.getD 0 default).nodes.getD 0
                        default).lowerBound
                      ((sampleForest.trees.getD 0 default).nodes.getD 0
                        default).upperBound } }, ([] : List VlKDForestNeighbor))
        else ({ sampleSearcher with searchNumRecursions := sampleSearcher.searchNumRecursions + 1 }, ([] : List VlKDForestNeighbor)))) :=
  ⟨by decide,
    C5_internal_step_pushes_spec_sibling_key sampleForest [(4 : ℚ)] 1 1 0 0 (0 : ℚ)
      sampleSearcher [] (by decide)⟩

/-! ## Claim C10 — the bounds pass restores its working array -/

theorem getD_set_ne {α : Type} (l : List α) (i j : ℕ) (a d : α) (h : i ≠ j) :
    (l.set i a).getD j d = l.getD j d := by
  simp [List.getD_eq_getElem?_getD, List.getElem?_set, h]

theorem getD_set_lt {α : Type} (l : List α) (i : ℕ) (a d : α) (h : i < l.length) :
    (l.set i a).getD i d = a := by
  simp [List.getD_eq_getElem?_getD, List.getElem?_set, h]

theorem set_getD_self {α : Type} (l : List α) (i : ℕ) (d : α) :
    l.set i (l.getD i d) = l := by
  by_cases h : i < l.length
  · apply List.ext_getElem?
    intro n
    simp only [List.getElem?_set, List.getD_eq_getElem?_getD]
    by_cases hn : i = n
    · subst hn
      simp [h, List.getElem?_eq_getElem h]
    · simp [hn]
  · exact List.set_eq_of_length_le (by omega)

/-- The per-node child indices strictly increase along child links (true of every
tree produced by `vl_kdtree_build_recursively`, whose `vl_kdtree_node_new` allocates
children after their parent). -/
def ChildMono (tree : VlKDTree) : Prop :=
  ∀ j : ℕ,
    (0 < (tree.nodes.getD j default).lowerChild →
      (j : ℤ) < (tree.nodes.getD j default).lowerChild) ∧
    (0 < (tree.nodes.getD j default).upperChild →
      (j : ℤ) < (tree.nodes.getD j default).upperChild)

/-- Two trees with the same arena shape and identical non-bound node fields
(the bounds pass only writes `lowerBound`/`upperBound`). -/
def SameStructure (tree tree' : VlKDTree) : Prop :=
  tree'.nodes.length = tree.nodes.length ∧
  ∀ j : ℕ,
    (tree'.nodes.getD j default).parent = (tree.nodes.getD j default).parent ∧
    (tree'.nodes.getD j default).lowerChild = (tree.nodes.getD j default).lowerChild ∧
    (tree'.nodes.getD j default).upperChild = (tree.nodes.getD j default).upperChild ∧
    (tree'.nodes.getD j default).splitDimension = (tree.nodes.getD j default).splitDimension ∧
    (tree'.nodes.getD j default).splitThreshold = (tree.nodes.getD j default).splitThreshold

theorem sameStructure_refl (tree : VlKDTree) : SameStructure tree tree :=
  ⟨rfl, fun _ => ⟨rfl, rfl, rfl, rfl, rfl⟩⟩

theorem sameStructure_trans {t1 t2 t3 : VlKDTree} (h12 : SameStructure t1 t2)
    (h23 : SameStructure t2 t3) : SameStructure t1 t3 := by
  refine ⟨h23.1.trans h12.1, fun j => ?_⟩
  obtain ⟨a1, a2, a3, a4, a5⟩ := h12.2 j
  obtain ⟨b1, b2, b3, b4, b5⟩ := h23.2 j
  exact ⟨b1.trans a1, b2.trans a2, b3.trans a3, b4.trans a4, b5.trans a5⟩

/-- Writing only the bound fields of one node preserves the structure. -/
theorem sameStructure_setBounds (tree : VlKDTree) (n : ℕ) (lb ub : Option ℚ) :
    SameStructure tree
      { tree with
          nodes := tree.nodes.set n
            { tree.nodes.getD n default with lowerBound := lb, upperBound := ub } } := by
  refine ⟨by simp, fun j => ?_⟩
  dsimp only
  by_cases hj : n = j
  · subst hj
    by_cases hn : n < tree.nodes.length
    · rw [getD_set_lt _ _ _ _ hn]
      exact ⟨rfl, rfl, rfl, rfl, rfl⟩
    · rw [List.set_eq_of_length_le (by omega)]
      exact ⟨rfl, rfl, rfl, rfl, rfl⟩
  · rw [getD_set_ne _ _ _ _ _ hj]
    exact ⟨rfl, rfl, rfl, rfl, rfl⟩

theorem childMono_of_sameStructure {t1 t2 : VlKDTree} (h : SameStructure t1 t2)
    (hm : ChildMono t1) : ChildMono t2 := by
  intro j
  obtain ⟨_, hl, hu, _, _⟩ := h.2 j
  constructor
  · rw [hl]; exact (hm j).1
  · rw [hu]; exact (hm j).2

/-- `l.getD n d = d` beyond the end of the list. -/
theorem getD_of_length_le {α : Type} (l : List α) (n : ℕ) (d : α) (h : l.length ≤ n) :
    l.getD n d = d := by
  simp [List.getD_eq_getElem?_getD, List.getElem?_eq_none h]

/-- The combined induction for `vl_kdtree_calc_bounds_recursively`: on a tree whose
child links strictly increase, a successful pass (a) only rewrites bound fields,
(b) leaves every node with index below the visited root untouched, and (c) returns
the working bounds array exactly as it received it. -/
theorem calc_bounds_spec (fuel : ℕ) :
    ∀ (tree : VlKDTree) (n : ℕ) (sb : List (Option ℚ)) (tree' : VlKDTree)
      (sb' : List (Option ℚ)),
      ChildMono tree →
      vl_kdtree_calc_bounds_recursively fuel tree n sb = some (tree', sb') →
      SameStructure tree tree' ∧
        (∀ j, j < n → tree'.nodes.getD j default = tree.nodes.getD j default) ∧
        sb' = sb := by
  induction fuel with
  | zero =>
    intro tree n sb tree' sb' _ h
    exact absurd h (by simp [vl_kdtree_calc_bounds_recursively])
  | succ fuel ih =>
    intro tree n sb tree' sb' hmono h
    simp only [vl_kdtree_calc_bounds_recursively] at h
    set node := tree.nodes.getD n default with hnode
    set treeA : VlKDTree :=
      { tree with
          nodes := tree.nodes.set n
            { node with
                lowerBound := sb.getD (2 * node.splitDimension) none,
                upperBound := sb.getD (2 * node.splitDimension + 1) none } } with htreeA
    have hstructA : SameStructure tree treeA := sameStructure_setBounds tree n _ _
    have hmonoA : ChildMono treeA := childMono_of_sameStructure hstructA hmono
    have hAn : n < tree.nodes.length → treeA.nodes.getD n default =
        { node with
            lowerBound := sb.getD (2 * node.splitDimension) none,
            upperBound := sb.getD (2 * node.splitDimension + 1) none } := by
      intro hlen
      simp only [htreeA]
      exact getD_set_lt _ _ _ _ hlen
    have hframeA : ∀ j, j ≠ n → treeA.nodes.getD j default = tree.nodes.getD j default := by
      intro j hj
      simp only [htreeA]
      exact getD_set_ne _ _ _ _ _ (fun hc => hj hc.symm)
    -- analyse the lower-child phase
    have hstep :
        ∃ (t2 : VlKDTree) (s2 : List (Option ℚ)),
          (if 0 < node.lowerChild then
              match vl_kdtree_calc_bounds_recursively fuel treeA node.lowerChild.toNat
                  (sb.set (2 * node.splitDimension + 1) (some node.splitThreshold)) with
              | none => none
              | some (t1, s1) =>
                some (t1,
                  s1.set (2 * node.splitDimension + 1) ((t1.nodes.getD n default).upperBound))
            else some (treeA, sb)) = some (t2, s2) ∧
          SameStructure tree t2 ∧
          (∀ j, j ≤ n ∨ j < node.lowerChild.toNat →
            t2.nodes.getD j default = treeA.nodes.getD j default) ∧
          s2 = sb := by
      by_cases hlc : 0 < node.lowerChild
      · have hlen : n < tree.nodes.length := by
          by_contra hc
          have hdef : node = default := by
            rw [hnode, getD_of_length_le _ _ _ (by omega)]
          rw [hdef] at hlc
          exact absurd hlc (by decide)
        have hnc : n < node.lowerChild.toNat := by
          have hmn := (hmono n).1
          rw [← hnode] at hmn
          have := hmn hlc
          omega
        set L := vl_kdtree_calc_bounds_recursively fuel treeA node.lowerChild.toNat
            (sb.set (2 * node.splitDimension + 1) (some node.splitThreshold)) with hLdef
        clear_value L
        rcases L with _ | ⟨t1, s1⟩
        · rw [if_pos hlc] at h
          exact absurd h (by simp)
        · obtain ⟨hstruct1, hframe1, hsb1⟩ :=
            ih treeA node.lowerChild.toNat _ t1 s1 hmonoA hLdef.symm
          have ht1n : t1.nodes.getD n default = treeA.nodes.getD n default := hframe1 n hnc
          refine ⟨t1, _, by rw [if_pos hlc], sameStructure_trans hstructA hstruct1,
            ?_, ?_⟩
          · intro j hj
            rcases hj with hj | hj
            · exact hframe1 j (by omega)
            · exact hframe1 j hj
          · rw [hsb1, ht1n, hAn hlen]
            rw [List.set_set]
            exact set_getD_self _ _ _
      · exact ⟨treeA, sb, by rw [if_neg hlc], hstructA, fun j _ => rfl, rfl⟩
    obtain ⟨t2, s2, hstepEq, hstruct2, hframe2, hs2⟩ := hstep
    rw [hstepEq] at h
    dsimp only at h
    -- analyse the upper-child phase
    have hchild2 : (t2.nodes.getD n default).upperChild = node.upperChild := by
      rw [hnode]
      exact ((hstruct2.2 n).2.2.1)
    by_cases huc : 0 < (t2.nodes.getD n default).upperChild
    · have hucn : 0 < node.upperChild := by rw [← hchild2]; exact huc
      have hlen : n < tree.nodes.length := by
        by_contra hc
        have hdef : node = default := by
          rw [hnode, getD_of_length_le _ _ _ (by omega)]
        rw [hdef] at hucn
        exact absurd hucn (by decide)
      have hnc2 : n < (t2.nodes.getD n default).upperChild.toNat := by
        have hmn := (hmono n).2
        rw [← hnode] at hmn
        have := hmn hucn
        rw [hchild2]
        omega
      rw [if_pos huc] at h
      set L2 := vl_kdtree_calc_bounds_recursively fuel t2
          (t2.nodes.getD n default).upperChild.toNat
          (s2.set (2 * node.splitDimension) (some node.splitThreshold)) with hUdef
      clear_value L2
      rcases L2 with _ | ⟨t3, s3⟩
      · exact absurd h (by simp)
      · dsimp only at h
        obtain ⟨hstruct3, hframe3, hsb3⟩ :=
          ih t2 (t2.nodes.getD n default).upperChild.toNat _ t3 s3
            (childMono_of_sameStructure hstruct2 hmono) hUdef.symm
        have ht3n : t3.nodes.getD n default = t2.nodes.getD n default := hframe3 n hnc2
        have ht2n : t2.nodes.getD n default = treeA.nodes.getD n default :=
          hframe2 n (Or.inl (le_refl n))
        cases h
        refine ⟨sameStructure_trans hstruct2 hstruct3, ?_, ?_⟩
        · intro j hj
          rw [hframe3 j (by omega), hframe2 j (Or.inl (by omega)), hframeA j (by omega)]
        · rw [hsb3, hs2, ht3n, ht2n, hAn hlen]
          rw [List.set_set]
          exact set_getD_self _ _ _
    · rw [if_neg huc] at h
      cases h
      refine ⟨hstruct2, ?_, hs2⟩
      intro j hj
      rw [hframe2 j (Or.inl (by omega)), hframeA j (by omega)]

/-- `ChildMono` follows from its restriction to the allocated arena (beyond the arena
`getD` yields the default node, whose child fields are `0`). -/
theorem childMono_of_forall_lt (tree : VlKDTree)
    (h : ∀ j, j < tree.nodes.length →
      (0 < (tree.nodes.getD j default).lowerChild →
        (j : ℤ) < (tree.nodes.getD j default).lowerChild) ∧
      (0 < (tree.nodes.getD j default).upperChild →
        (j : ℤ) < (tree.nodes.getD j default).upperChild)) :
    ChildMono tree := by
  intro j
  by_cases hj : j < tree.nodes.length
  · exact h j hj
  · rw [getD_of_length_le _ _ _ (by omega)]
    exact ⟨fun hc => absurd hc (by decide), fun hc => absurd hc (by decide)⟩

/-- C10: `vl_kdtree_calc_bounds_recursively` restores its working bounds array — for
every node it is called on (with the child-monotonicity that
`vl_kdtree_build_recursively`'s bump allocation guarantees for every built tree),
when the call returns, every entry of `searchBounds` equals the value it held at
entry: the temporary narrowing of slot `2*i+1` (resp. `2*i`) to the node's
`splitThreshold` before the lower (resp. upper) child recursion is undone afterwards
by restoring the slot from the node's stored bound (kdtree.c:506-515). -/
theorem C10_calc_bounds_restores_searchBounds (fuel : ℕ) (tree : VlKDTree)
    (nodeIndex : ℕ) (searchBounds : List (Option ℚ)) (tree' : VlKDTree)
    (searchBounds' : List (Option ℚ)) (hmono : ChildMono tree)
    (h : vl_kdtree_calc_bounds_recursively fuel tree nodeIndex searchBounds =
      some (tree', searchBounds')) :
    searchBounds' = searchBounds :=
  (calc_bounds_spec fuel tree nodeIndex searchBounds tree' searchBounds' hmono h).2.2

/-- Witness for `C10_calc_bounds_restores_searchBounds`: running the bounds pass on
the concrete built tree of `sampleForest` returns the working array
`initialSearchBounds 1` it was given. -/
theorem C10_calc_bounds_restores_witness :
    ChildMono (sampleForest.trees.getD 0 default) ∧
    (vl_kdtree_calc_bounds_recursively 5 (sampleForest.trees.getD 0 default) 0
        (initialSearchBounds 1)).map Prod.snd = some (initialSearchBounds 1) := by
  have hm : ChildMono (sampleForest.trees.getD 0 default) :=
    childMono_of_forall_lt _ (by decide)
  refine ⟨hm, ?_⟩
  rcases hrun : vl_kdtree_calc_bounds_recursively 5 (sampleForest.trees.getD 0 default) 0
      (initialSearchBounds 1) with _ | ts
  · have hs : (vl_kdtree_calc_bounds_recursively 5 (sampleForest.trees.getD 0 default) 0
        (initialSearchBounds 1)).isSome = true := by with_unfolding_all decide
    rw [hrun] at hs
    cases hs
  · obtain ⟨t', sb'⟩ := ts
    rw [Option.map_some']
    rw [C10_calc_bounds_restores_searchBounds 5 (sampleForest.trees.getD 0 default) 0
      (initialSearchBounds 1) t' sb' hm hrun]

/-! ## Positional lemmas about `lslice` and `splice` -/

theorem length_lslice {α : Type} (l : List α) (b e : ℕ) :
    (lslice l b e).length = min (e - b) (l.length - b) := by
  simp [lslice]

theorem length_lslice_of_le {α : Type} (l : List α) (b e : ℕ) (hbe : b ≤ e)
    (he : e ≤ l.length) : (lslice l b e).length = e - b := by
  rw [length_lslice]
  omega

theorem lslice_getElem? {α : Type} (l : List α) (b e k : ℕ) :
    (lslice l b e)[k]? = if k < e - b then l[b + k]? else none := by
  simp only [lslice, List.getElem?_take, List.getElem?_drop]

theorem length_splice {α : Type} (l s : List α) (b e : ℕ) (hs : s.length = e - b)
    (hbe : b ≤ e) (he : e ≤ l.length) : (splice l b e s).length = l.length := by
  simp [splice, hs]
  omega

theorem splice_getElem?_inner {α : Type} (l s : List α) (b e p : ℕ) (hs : s.length = e - b)
    (hbe : b ≤ e) (he : e ≤ l.length) (hb : b ≤ p) (hp : p < e) :
    (splice l b e s)[p]? = s[p - b]? := by
  have hb' : (l.take b).length = b := by simp; omega
  have hlen2 : (l.take b ++ s).length = e := by simp; omega
  rw [splice, List.getElem?_append_left (by rw [hlen2]; omega)]
  rw [List.getElem?_append_right (by rw [hb']; omega)]
  rw [hb']

theorem splice_getElem?_outer {α : Type} (l s : List α) (b e p : ℕ) (hs : s.length = e - b)
    (hbe : b ≤ e) (he : e ≤ l.length) (hp : p < b ∨ e ≤ p) :
    (splice l b e s)[p]? = l[p]? := by
  have hb' : (l.take b).length = b := by simp; omega
  have hlen2 : (l.take b ++ s).length = e := by simp; omega
  rcases hp with hp | hp
  · rw [splice, List.getElem?_append_left (by rw [hlen2]; omega),
      List.getElem?_append_left (by rw [hb']; omega), List.getElem?_take]
    simp [hp]
  · rw [splice, List.getElem?_append_right (by rw [hlen2]; omega), hlen2,
      List.getElem?_drop]
    congr 1
    omega

theorem getD_eq_of_getElem?_eq {α : Type} {l l' : List α} {p q : ℕ} (d : α)
    (h : l'[p]? = l[q]?) : l'.getD p d = l.getD q d := by
  simp [List.getD_eq_getElem?_getD, h]

/-- Positional characterisation of `takeWhile`: every position before its length
satisfies the predicate, and the first position after it (if any) does not. -/
theorem takeWhile_spec {α : Type} (p : α → Bool) (l : List α) (d : α) :
    (∀ k, k < (l.takeWhile p).length → p (l.getD k d)) ∧
      ((l.takeWhile p).length < l.length → ¬ p (l.getD (l.takeWhile p).length d)) := by
  induction l with
  | nil => exact ⟨fun k hk => absurd hk (by simp), fun hk => absurd hk (by simp)⟩
  | cons a t ih =>
    by_cases ha : p a
    · rw [List.takeWhile_cons_of_pos ha]
      refine ⟨fun k hk => ?_, fun hk => ?_⟩
      · match k with
        | 0 => simpa using ha
        | k + 1 =>
          simp only [List.length_cons] at hk
          simpa using ih.1 k (by omega)
      · simp only [List.length_cons] at hk
        simpa using ih.2 (by omega)
    · rw [List.takeWhile_cons_of_neg ha]
      exact ⟨fun k hk => absurd hk (by simp), fun _ => by simpa using ha⟩

theorem takeWhile_length_le {α : Type} (p : α → Bool) (l : List α) :
    (l.takeWhile p).length ≤ l.length :=
  (List.takeWhile_sublist p).length_le

/-- Positional monotonicity of a `Sorted entryLe` list of index entries. -/
theorem sorted_value_mono {s : List VlKDTreeDataIndexEntry}
    (hs : List.Sorted entryLe s) {i j : ℕ} (hij : i ≤ j) (hj : j < s.length) :
    (s.getD i default).value ≤ (s.getD j default).value := by
  rcases eq_or_lt_of_le hij with h | h
  · subst h; exact le_refl _
  · have := (List.pairwise_iff_getElem.mp hs) i j (by omega) hj h
    simp only [List.getD_eq_getElem?_getD, List.getElem?_eq_getElem (by omega : i < s.length),
      List.getElem?_eq_getElem hj, Option.getD_some]
    exact this

/-! ## The sorted slice produced by the builder's value-write + sort step -/

instance : IsTotal VlKDTreeDataIndexEntry entryLe :=
  ⟨fun a b => le_total a.value b.value⟩

instance : IsTrans VlKDTreeDataIndexEntry entryLe :=
  ⟨fun _ _ _ hab hbc => le_trans hab hbc⟩

/-- The index list of the slice `[b, e)` of a tree's permutation. -/
def sliceIndices (t : VlKDTree) (b e : ℕ) : List ℕ :=
  (lslice t.dataIndex b e).map VlKDTreeDataIndexEntry.index

theorem mem_lslice_iff {α : Type} [Inhabited α] {l : List α} {b e : ℕ} {x : α} :
    x ∈ lslice l b e ↔ ∃ p, b ≤ p ∧ p < e ∧ p < l.length ∧ l[p]? = some x := by
  constructor
  · intro hx
    obtain ⟨k, hk⟩ := List.getElem?_of_mem hx
    have := lslice_getElem? l b e k
    rw [hk] at this
    by_cases hke : k < e - b
    · rw [if_pos hke] at this
      refine ⟨b + k, by omega, by omega, ?_, this.symm⟩
      have := List.getElem?_eq_some_iff.mp this.symm
      obtain ⟨hlt, _⟩ := this
      omega
    · rw [if_neg hke] at this
      cases this
  · rintro ⟨p, hbp, hpe, hpl, hp⟩
    have : (lslice l b e)[p - b]? = some x := by
      rw [lslice_getElem?, if_pos (by omega)]
      rw [show b + (p - b) = p by omega]
      exact hp
    exact List.getElem?_mem this

theorem mem_sliceIndices_iff {t : VlKDTree} {b e : ℕ} {idx : ℕ} :
    idx ∈ sliceIndices t b e ↔
      ∃ p, b ≤ p ∧ p < e ∧ p < t.dataIndex.length ∧
        (t.dataIndex.getD p default).index = idx := by
  rw [sliceIndices, List.mem_map]
  constructor
  · rintro ⟨en, hen, rfl⟩
    obtain ⟨p, h1, h2, h3, h4⟩ := mem_lslice_iff.mp hen
    exact ⟨p, h1, h2, h3, by simp [List.getD_eq_getElem?_getD, h4]⟩
  · rintro ⟨p, h1, h2, h3, h4⟩
    refine ⟨t.dataIndex.getD p default, ?_, h4⟩
    apply mem_lslice_iff.mpr
    exact ⟨p, h1, h2, h3, by simp [List.getD_eq_getElem?_getD, List.getElem?_eq_getElem h3]⟩

/-- Agreement of two lists on the positions of a slice gives equal slices. -/
theorem lslice_eq_of_agree {α : Type} {l l' : List α} {b e : ℕ}
    (h : ∀ p, b ≤ p → p < e → l'[p]? = l[p]?) : lslice l' b e = lslice l b e := by
  apply List.ext_getElem?
  intro k
  rw [lslice_getElem?, lslice_getElem?]
  by_cases hk : k < e - b
  · rw [if_pos hk, if_pos hk]
    exact h (b + k) (by omega) (by omega)
  · rw [if_neg hk, if_neg hk]

theorem lslice_splice {α : Type} (l s : List α) (b e : ℕ) (hs : s.length = e - b)
    (hbe : b ≤ e) (he : e ≤ l.length) : lslice (splice l b e s) b e = s := by
  apply List.ext_getElem?
  intro k
  rw [lslice_getElem?]
  by_cases hk : k < e - b
  · rw [if_pos hk, splice_getElem?_inner l s b e (b + k) hs hbe he (by omega) (by omega)]
    congr 1
    omega
  · rw [if_neg hk, eq_comm, List.getElem?_eq_none_iff]
    omega

/-- What the `VL_KDTREE_MEDIAN` case of `vl_kdtree_split_select` yields on a sorted
slice: the split position is the lower median and the threshold is the value there;
each position up to the split has value `≤` the threshold and each position after it
has value `≥` the threshold. -/
theorem median_select_facts (l s : List VlKDTreeDataIndexEntry) (b e : ℕ)
    (hs : s.length = e - b) (hbe2 : 2 ≤ e - b) (he : e ≤ l.length)
    (hsorted : List.Sorted entryLe s) :
    b ≤ (b + e - 1) / 2 + 1 ∧ (b + e - 1) / 2 + 1 ≤ e ∧
      (∀ k, k < (b + e - 1) / 2 + 1 - b →
        (s.getD k default).value ≤ ((splice l b e s).getD ((b + e - 1) / 2) default).value) ∧
      (∀ k, (b + e - 1) / 2 + 1 - b ≤ k → k < s.length →
        ((splice l b e s).getD ((b + e - 1) / 2) default).value ≤ (s.getD k default).value) := by
  have hmi1 : b ≤ (b + e - 1) / 2 := by omega
  have hmi2 : (b + e - 1) / 2 + 1 ≤ e - 1 := by omega
  have hthr : (splice l b e s).getD ((b + e - 1) / 2) default =
      s.getD ((b + e - 1) / 2 - b) default :=
    getD_eq_of_getElem?_eq _
      (splice_getElem?_inner l s b e _ hs (by omega) he hmi1 (by omega))
  refine ⟨by omega, by omega, ?_, ?_⟩
  · intro k hk
    rw [hthr]
    exact sorted_value_mono hsorted (by omega) (by omega)
  · intro k hk1 hk2
    rw [hthr]
    exact sorted_value_mono hsorted (by omega) hk2

/-- The split selected by `vl_kdtree_split_select` on a sorted slice partitions it:
writing `m` for the first position of the upper part (`(splitIndex + 1) % 2^64`),
`b ≤ m ≤ e`, every slice position before `m` has value `≤` the returned threshold
and every position from `m` on has value `≥` it.  This covers the median mode, the
accepted mean mode, the mean → median fallback, **and** the `b = 0` wrap-around of
the mean mode (where `m = b = 0`: the lower part is empty and every value exceeds
the threshold). -/
theorem split_select_spec (method : VlKDTreeThresholdingMethod) (meanValue : ℚ)
    (l s : List VlKDTreeDataIndexEntry) (b e : ℕ)
    (hs : s.length = e - b) (hbe2 : 2 ≤ e - b) (he : e ≤ l.length) (hU : e < U64)
    (hsorted : List.Sorted entryLe s) :
    b ≤ ((vl_kdtree_split_select method meanValue (splice l b e s) b e).1 + 1) % U64 ∧
      ((vl_kdtree_split_select method meanValue (splice l b e s) b e).1 + 1) % U64 ≤ e ∧
      (∀ k, k < ((vl_kdtree_split_select method meanValue (splice l b e s) b e).1 + 1) % U64 - b →
        (s.getD k default).value ≤
          (vl_kdtree_split_select method meanValue (splice l b e s) b e).2) ∧
      (∀ k, ((vl_kdtree_split_select method meanValue (splice l b e s) b e).1 + 1) % U64 - b ≤ k →
        k < s.length →
        (vl_kdtree_split_select method meanValue (splice l b e s) b e).2 ≤
          (s.getD k default).value) := by
  have hU64pos : 0 < U64 := by decide
  obtain ⟨hm1, hm2, hm3, hm4⟩ := median_select_facts l s b e hs hbe2 he hsorted
  cases method with
  | median =>
    simp only [vl_kdtree_split_select]
    rw [Nat.mod_eq_of_lt (by omega)]
    exact ⟨by omega, by omega, hm3, hm4⟩
  | mean =>
    simp only [vl_kdtree_split_select, lslice_splice l s b e hs (by omega) he]
    set r := (s.takeWhile (fun en => decide (en.value ≤ meanValue))).length with hr
    have hrle : r ≤ s.length := takeWhile_length_le _ _
    have hT1 : ∀ k, k < r → (s.getD k default).value ≤ meanValue := by
      intro k hk
      have := (takeWhile_spec (fun en => decide (en.value ≤ meanValue)) s default).1 k hk
      simpa using this
    have hT2 : r < s.length → meanValue < (s.getD r default).value := by
      intro hrlt
      have := (takeWhile_spec (fun en => decide (en.value ≤ meanValue)) s default).2 hrlt
      simpa using this
    by_cases hbr : b + r = 0
    · -- wrap-around: b = 0 and the leading run is empty
      have hb0 : b = 0 := by omega
      have hr0 : r = 0 := by omega
      have hsi : (b + r + (U64 - 1)) % U64 = U64 - 1 := by
        rw [hbr]
        exact Nat.mod_eq_of_lt (by omega)
      rw [hsi]
      rw [if_pos ⟨by omega, by
        rw [show U64 - 1 + 1 = U64 by omega, Nat.mod_self]
        omega⟩]
      rw [show U64 - 1 + 1 = U64 by omega, Nat.mod_self]
      refine ⟨by omega, by omega, fun k hk => by omega, fun k hk1 hk2 => ?_⟩
      have h0 := hT2 (by omega)
      have := sorted_value_mono hsorted (Nat.zero_le k) hk2
      rw [hr0] at h0
      exact le_trans (le_of_lt h0) this
    · have hsi : (b + r + (U64 - 1)) % U64 = b + r - 1 := by
        rw [show b + r + (U64 - 1) = (b + r - 1) + U64 by omega, Nat.add_mod_right]
        exact Nat.mod_eq_of_lt (by omega)
      rw [hsi]
      by_cases hr1 : 1 ≤ r
      · have hsi1 : (b + r - 1 + 1) % U64 = b + r := by
          rw [show b + r - 1 + 1 = b + r by omega]
          exact Nat.mod_eq_of_lt (by omega)
        by_cases hbre : b + r < e
        · rw [if_pos ⟨by omega, by rw [hsi1]; omega⟩, hsi1]
          refine ⟨by omega, by omega, fun k hk => hT1 k (by omega), fun k hk1 hk2 => ?_⟩
          have h0 := hT2 (by omega)
          have := sorted_value_mono hsorted (show r ≤ k by omega) hk2
          exact le_trans (le_of_lt h0) this
        · rw [if_neg (by rw [hsi1]; omega)]
          rw [Nat.mod_eq_of_lt (by omega)]
          exact ⟨by omega, by omega, hm3, hm4⟩
      · rw [if_neg (by omega)]
        rw [Nat.mod_eq_of_lt (by omega)]
        exact ⟨by omega, by omega, hm3, hm4⟩

/-- The slice the builder sorts: its length, sortedness, the value fields it carries
(the coordinate of its entry's point along the chosen dimension), and the provenance
of its indices. -/
theorem sorted_slice_facts (forest : VlKDForest) (l : List VlKDTreeDataIndexEntry)
    (b e dim : ℕ) :
    (List.insertionSort entryLe
        ((lslice l b e).map
          (fun (en : VlKDTreeDataIndexEntry) =>
            { en with value := datum forest en.index dim }))).length = (lslice l b e).length ∧
    List.Sorted entryLe
      (List.insertionSort entryLe
        ((lslice l b e).map
          (fun (en : VlKDTreeDataIndexEntry) =>
            { en with value := datum forest en.index dim }))) ∧
    (∀ en ∈ List.insertionSort entryLe
        ((lslice l b e).map
          (fun (en : VlKDTreeDataIndexEntry) =>
            { en with value := datum forest en.index dim })),
      en.value = datum forest en.index dim ∧
        en.index ∈ (lslice l b e).map VlKDTreeDataIndexEntry.index) := by
  refine ⟨?_, List.sorted_insertionSort entryLe _, ?_⟩
  · rw [(List.perm_insertionSort entryLe _).length_eq, List.length_map]
  · intro en hen
    have : en ∈ (lslice l b e).map
        (fun (en : VlKDTreeDataIndexEntry) =>
          { en with value := datum forest en.index dim }) :=
      (List.perm_insertionSort entryLe _).mem_iff.mp hen
    obtain ⟨en0, hen0, rfl⟩ := List.mem_map.mp this
    exact ⟨rfl, List.mem_map.mpr ⟨en0, hen0, rfl⟩⟩

/-! ## Leaves and the claim-C7/C8 invariants -/

/-- A node whose `lowerChild` is negative encodes a leaf. -/
def IsLeafNode (t : VlKDTree) (j : ℕ) : Prop := (t.nodes.getD j default).lowerChild < 0

instance (t : VlKDTree) (j : ℕ) : Decidable (IsLeafNode t j) :=
  inferInstanceAs (Decidable (_ < _))

/-- `begin = -lowerChild - 1` of a leaf's point range. -/
def leafBegin (t : VlKDTree) (j : ℕ) : ℕ := (-(t.nodes.getD j default).lowerChild - 1).toNat

/-- `end = -upperChild - 1` of a leaf's point range. -/
def leafEnd (t : VlKDTree) (j : ℕ) : ℕ := (-(t.nodes.getD j default).upperChild - 1).toNat

/-- The leaves among arena nodes `[n, t.nodes.length)` tile the slice `[b, e)`:
each leaf's decoded range is a contiguous subinterval of `[b, e)`, every slice
position is covered by such a leaf, and distinct leaves' ranges are disjoint. -/
def LeafTiling (t : VlKDTree) (n b e : ℕ) : Prop :=
  (∀ j, n ≤ j → j < t.nodes.length → IsLeafNode t j →
      b ≤ leafBegin t j ∧ leafBegin t j ≤ leafEnd t j ∧ leafEnd t j ≤ e) ∧
  (∀ i, b ≤ i → i < e → ∃ j, n ≤ j ∧ j < t.nodes.length ∧ IsLeafNode t j ∧
      leafBegin t j ≤ i ∧ i < leafEnd t j) ∧
  (∀ j j', n ≤ j → j < t.nodes.length → n ≤ j' → j' < t.nodes.length →
      IsLeafNode t j → IsLeafNode t j' → j ≠ j' →
      leafEnd t j ≤ leafBegin t j' ∨ leafEnd t j' ≤ leafBegin t j)

/-- The split invariant of a built subtree (claim C7): node `n` covers slice
`[b, e)`; an internal node records its two children, the lower child covering
`[b, m)` and the upper child `[m, e)`, and **every point whose index lies in the
lower (resp. upper) child's range has coordinate `≤` (resp. `≥`) the node's
`splitThreshold` along its `splitDimension`**. -/
inductive Covers (forest : VlKDForest) (tree : VlKDTree) : ℕ → ℕ → ℕ → ℕ → Prop where
  | leaf (n b e hi : ℕ) :
      n < tree.nodes.length →
      n < hi →
      (tree.nodes.getD n default).lowerChild = -(b : ℤ) - 1 →
      (tree.nodes.getD n default).upperChild = -(e : ℤ) - 1 →
      b ≤ e →
      Covers forest tree n b e hi
  | node (n b m e cl cu hi : ℕ) :
      n < tree.nodes.length →
      n < cl → n < cu →
      (tree.nodes.getD n default).lowerChild = (cl : ℤ) →
      (tree.nodes.getD n default).upperChild = (cu : ℤ) →
      b ≤ m → m ≤ e →
      (∀ idx ∈ sliceIndices tree b m,
        datum forest idx (tree.nodes.getD n default).splitDimension ≤
          (tree.nodes.getD n default).splitThreshold) →
      (∀ idx ∈ sliceIndices tree m e,
        (tree.nodes.getD n default).splitThreshold ≤
          datum forest idx (tree.nodes.getD n default).splitDimension) →
      Covers forest tree cl b m cu →
      Covers forest tree cu m e hi →
      Covers forest tree n b e hi

/-- The root index of a `Covers` derivation lies below its arena bound. -/
theorem covers_lt {forest : VlKDForest} {tree : VlKDTree} :
    ∀ {n b e hi : ℕ}, Covers forest tree n b e hi → n < hi := by
  intro n b e hi h
  induction h with
  | leaf n b e hi _ hhi _ _ _ => exact hhi
  | node n b m e cl cu hi _ hncl hncu _ _ _ _ _ _ _ _ ihl ihu => omega

/-- `Covers` is stable under changes that leave the subtree's arena segment
`[n, hi)` and the slice positions `[b, e)` untouched. -/
theorem covers_stable (forest : VlKDForest) :
    ∀ {tree tree' : VlKDTree} {n b e hi : ℕ},
      Covers forest tree n b e hi →
      tree.nodes.length ≤ tree'.nodes.length →
      (∀ j, n ≤ j → j < hi →
        tree'.nodes.getD j default = tree.nodes.getD j default) →
      (∀ p, b ≤ p → p < e → tree'.dataIndex[p]? = tree.dataIndex[p]?) →
      Covers forest tree' n b e hi := by
  intro tree tree' n b e hi hc
  induction hc with
  | leaf n b e hi hn hhi hl hu hbe =>
    intro hlen hnodes _
    exact Covers.leaf n b e hi (by omega) hhi (by rw [hnodes n (le_refl n) hhi]; exact hl)
      (by rw [hnodes n (le_refl n) hhi]; exact hu) hbe
  | node n b m e cl cu hi hn hncl hncu hl hu hbm hme hlow hup hcl hcu ihl ihu =>
    intro hlen hnodes hdata
    have hcult : cu < hi := covers_lt hcu
    have hcllt : cl < cu := covers_lt hcl
    have hsl : sliceIndices tree' b m = sliceIndices tree b m := by
      unfold sliceIndices
      rw [lslice_eq_of_agree (fun p h1 h2 => hdata p h1 (by omega))]
    have hsu : sliceIndices tree' m e = sliceIndices tree m e := by
      unfold sliceIndices
      rw [lslice_eq_of_agree (fun p h1 h2 => hdata p (by omega) h2)]
    have hnn := hnodes n (le_refl n) (by omega)
    refine Covers.node n b m e cl cu hi (by omega) hncl hncu (by rw [hnn]; exact hl)
      (by rw [hnn]; exact hu) hbm hme ?_ ?_ ?_ ?_
    · rw [hsl, hnn]; exact hlow
    · rw [hsu, hnn]; exact hup
    · exact ihl hlen (fun j h1 h2 => hnodes j (by omega) (by omega))
        (fun p h1 h2 => hdata p h1 (by omega))
    · exact ihu hlen (fun j h1 h2 => hnodes j (by omega) h2)
        (fun p h1 h2 => hdata p (by omega) h2)

theorem getD_append_lt {α : Type} (l : List α) (x : α) (j : ℕ) (d : α) (h : j < l.length) :
    (l ++ [x]).getD j d = l.getD j d := by
  simp [List.getD_eq_getElem?_getD, List.getElem?_append_left h]

theorem getD_append_self {α : Type} (l : List α) (x : α) (d : α) :
    (l ++ [x]).getD l.length d = x := by
  simp [List.getD_eq_getElem?_getD]

/-- The post-condition of a successful `vl_kdtree_build_recursively` call on node `n`
(freshly allocated last, covering slice `[b, e)`): the arena only grows and nodes
below `n` are untouched; the permutation keeps its length and is only rearranged
within `[b, e)`; the slice's data indices after the call all come from the slice
before the call; the subtree satisfies the split invariant `Covers`; and the
subtree's leaves tile `[b, e)`. -/
def BuildPost (forest : VlKDForest) (tree tree' : VlKDTree) (n b e : ℕ) : Prop :=
  tree.nodes.length ≤ tree'.nodes.length ∧
  (∀ j, j < n → tree'.nodes.getD j default = tree.nodes.getD j default) ∧
  tree'.dataIndex.length = tree.dataIndex.length ∧
  (∀ p, p < b ∨ e ≤ p → tree'.dataIndex[p]? = tree.dataIndex[p]?) ∧
  (∀ idx, idx ∈ sliceIndices tree' b e → idx ∈ sliceIndices tree b e) ∧
  Covers forest tree' n b e tree'.nodes.length ∧
  LeafTiling tree' n b e ∧
  (∀ j, n ≤ j → j < tree'.nodes.length →
    (0 < (tree'.nodes.getD j default).lowerChild →
      (j : ℤ) < (tree'.nodes.getD j default).lowerChild) ∧
    (0 < (tree'.nodes.getD j default).upperChild →
      (j : ℤ) < (tree'.nodes.getD j default).upperChild))

/-- `BuildPost` for the two leaf base cases of the builder, which write the range
encoding into node `n` and touch nothing else. -/
theorem buildPost_leaf (forest : VlKDForest) (tree : VlKDTree) (n b e : ℕ) (dep : ℕ)
    (hn : n + 1 = tree.nodes.length) (hbe : b ≤ e) :
    BuildPost forest tree
      { tree with
          depth := dep,
          nodes := tree.nodes.set n
            { (tree.nodes.getD n default) with
                lowerChild := -(b : ℤ) - 1,
                upperChild := -(e : ℤ) - 1 } } n b e := by
  set LF : VlKDTreeNode :=
    { (tree.nodes.getD n default) with
        lowerChild := -(b : ℤ) - 1,
        upperChild := -(e : ℤ) - 1 } with hLF
  have hgd : (tree.nodes.set n LF).getD n default = LF := getD_set_lt _ _ _ _ (by omega)
  have hlc : ((tree.nodes.set n LF).getD n default).lowerChild = -(b : ℤ) - 1 := by rw [hgd]
  have huc : ((tree.nodes.set n LF).getD n default).upperChild = -(e : ℤ) - 1 := by rw [hgd]
  refine ⟨by simp, fun j hj => getD_set_ne _ _ _ _ _ (by omega), rfl, fun p _ => rfl,
    fun idx hidx => hidx, ?_, ⟨?_, ?_, ?_⟩, ?_⟩
  · exact Covers.leaf n b e _ (by simp; omega) (by simp; omega) hlc huc hbe
  · intro j h1 h2 _
    simp only [List.length_set] at h2
    have hj : j = n := by omega
    subst hj
    unfold leafBegin leafEnd
    dsimp only
    rw [hlc, huc]
    omega
  · intro i h1 h2
    refine ⟨n, le_refl n, by simp; omega, ?_, ?_, ?_⟩
    · unfold IsLeafNode
      dsimp only
      rw [hlc]
      omega
    · unfold leafBegin
      dsimp only
      rw [hlc]
      omega
    · unfold leafEnd
      dsimp only
      rw [huc]
      omega
  · intro j j' h1 h2 h1' h2' _ _ hne
    simp only [List.length_set] at h2 h2'
    omega
  · intro j h1 h2
    simp only [List.length_set] at h2
    have hj : j = n := by omega
    subst hj
    rw [hlc, huc]
    exact ⟨fun hc => absurd hc (by omega), fun hc => absurd hc (by omega)⟩

/-- Unfolding of the splitting case of `vl_kdtree_build_recursively` (slice larger
than one point, at least one dimension of positive variance): choose the split
dimension, write it into node `n`, sort the slice by that coordinate, select the
split threshold, write it, then allocate and build the two children. -/
theorem build_rec_split_unfold (forest : VlKDForest) (rands : ℕ → ℕ) (fuel : ℕ)
    (tree : VlKDTree) (rpos n b e depth : ℕ)
    (sd : VlKDTreeSplitDimension) (t2 t3 t5 : VlKDTree) (st : ℕ × ℚ) (m cl : ℕ)
    (h1 : ¬ (e - b ≤ 1)) (h2 : ¬ ((splitHeapScan forest tree b e).length = 0))
    (hsd : sd = (splitHeapScan forest tree b e).getD
      (rands rpos % min forest.splitHeapSize (splitHeapScan forest tree b e).length) default)
    (ht2 : t2 = { tree with
        nodes := tree.nodes.set n
          { (tree.nodes.getD n default) with splitDimension := sd.dimension },
        dataIndex := splice tree.dataIndex b e
          (List.insertionSort entryLe ((lslice tree.dataIndex b e).map
            (fun (en : VlKDTreeDataIndexEntry) =>
              { en with value := datum forest en.index sd.dimension }))) })
    (hst : st = vl_kdtree_split_select forest.thresholdingMethod sd.mean t2.dataIndex b e)
    (ht3 : t3 = { t2 with
        nodes := t2.nodes.set n
          { (t2.nodes.getD n default) with splitThreshold := st.2 } })
    (hm : m = (st.1 + 1) % U64)
    (hcl : cl = (vl_kdtree_node_new t3 n).2)
    (ht5 : t5 = { (vl_kdtree_node_new t3 n).1 with
        nodes := (vl_kdtree_node_new t3 n).1.nodes.set n
          { ((vl_kdtree_node_new t3 n).1.nodes.getD n default) with
              lowerChild := (cl : ℤ) } }) :
    vl_kdtree_build_recursively forest rands (fuel + 1) (tree, rpos) n b e depth =
      match vl_kdtree_build_recursively forest rands fuel (t5, rpos + 1) cl b m (depth + 1) with
      | none => none
      | some (t6, rpos2) =>
        vl_kdtree_build_recursively forest rands fuel
          ({ (vl_kdtree_node_new t6 n).1 with
              nodes := (vl_kdtree_node_new t6 n).1.nodes.set n
                { ((vl_kdtree_node_new t6 n).1.nodes.getD n default) with
                    upperChild := ((vl_kdtree_node_new t6 n).2 : ℤ) } }, rpos2)
          (vl_kdtree_node_new t6 n).2 m e (depth + 1) := by
  subst hsd ht2 hst ht3 hm hcl ht5
  rw [vl_kdtree_build_recursively]
  dsimp only
  rw [if_neg h1, if_neg h2]

/-- Leaf decoding only depends on the node record. -/
theorem leaf_decode_transfer {t t' : VlKDTree} {j : ℕ}
    (h : t'.nodes.getD j default = t.nodes.getD j default) :
    (IsLeafNode t' j ↔ IsLeafNode t j) ∧ leafBegin t' j = leafBegin t j ∧
      leafEnd t' j = leafEnd t j := by
  unfold IsLeafNode leafBegin leafEnd
  rw [h]
  exact ⟨Iff.rfl, rfl, rfl⟩

theorem getD_mem_of_lt {α : Type} [Inhabited α] (l : List α) (n : ℕ) (h : n < l.length) :
    l.getD n default ∈ l := by
  have hsome : l[n]? = some (l.getD n default) := by
    rw [List.getD_eq_getElem?_getD, List.getElem?_eq_getElem h, Option.getD_some]
  exact List.getElem?_mem hsome

/-- The node record `vl_kdtree_node_new` appends. -/
def freshNode (p : ℕ) : VlKDTreeNode :=
  { parent := p, lowerChild := 0, upperChild := 0, splitDimension := 0,
    splitThreshold := 0, lowerBound := none, upperBound := none }

/-- The main induction on `vl_kdtree_build_recursively`: a successful build of node
`n` (the last allocated node) over slice `[b, e)` satisfies `BuildPost`. -/
theorem build_rec_spec (forest : VlKDForest) (rands : ℕ → ℕ) :
    ∀ (fuel : ℕ) (tree : VlKDTree) (rpos n b e depth : ℕ) (tree' : VlKDTree) (rpos' : ℕ),
      n + 1 = tree.nodes.length → b ≤ e → e ≤ tree.dataIndex.length → e < U64 →
      vl_kdtree_build_recursively forest rands fuel (tree, rpos) n b e depth =
        some (tree', rpos') →
      BuildPost forest tree tree' n b e := by
  intro fuel
  induction fuel with
  | zero =>
    intro tree rpos n b e depth tree' rpos' _ _ _ _ h
    exact absurd h (by simp [vl_kdtree_build_recursively])
  | succ fuel ih =>
    intro tree rpos n b e depth tree' rpos' hn hbe he hU h
    by_cases hsize : e - b ≤ 1
    · rw [vl_kdtree_build_recursively] at h
      rw [if_pos hsize] at h
      simp only [Option.some.injEq, Prod.mk.injEq] at h
      obtain ⟨h1, _⟩ := h
      subst h1
      exact buildPost_leaf forest tree n b e _ hn hbe
    · by_cases hheap : (splitHeapScan forest tree b e).length = 0
      · rw [vl_kdtree_build_recursively] at h
        dsimp only at h
        rw [if_neg hsize, if_pos hheap] at h
        simp only [Option.some.injEq, Prod.mk.injEq] at h
        obtain ⟨h1, _⟩ := h
        subst h1
        exact buildPost_leaf forest tree n b e tree.depth hn hbe
      · rw [build_rec_split_unfold forest rands fuel tree rpos n b e depth _ _ _ _ _ _ _
          hsize hheap rfl rfl rfl rfl rfl rfl rfl] at h
        set sd := (splitHeapScan forest tree b e).getD
          (rands rpos % min forest.splitHeapSize (splitHeapScan forest tree b e).length)
          default with hsd
        set s := List.insertionSort entryLe ((lslice tree.dataIndex b e).map
          (fun (en : VlKDTreeDataIndexEntry) =>
            { en with value := datum forest en.index sd.dimension })) with hsdef
        set t2 : VlKDTree := { tree with
          nodes := tree.nodes.set n
            { (tree.nodes.getD n default) with splitDimension := sd.dimension },
          dataIndex := splice tree.dataIndex b e s } with ht2
        set st := vl_kdtree_split_select forest.thresholdingMethod sd.mean t2.dataIndex b e
          with hst
        set t3 : VlKDTree := { t2 with
          nodes := t2.nodes.set n
            { (t2.nodes.getD n default) with splitThreshold := st.2 } } with ht3
        set m := (st.1 + 1) % U64 with hm
        set cl := (vl_kdtree_node_new t3 n).2 with hcl
        set t5 : VlKDTree := { (vl_kdtree_node_new t3 n).1 with
          nodes := (vl_kdtree_node_new t3 n).1.nodes.set n
            { ((vl_kdtree_node_new t3 n).1.nodes.getD n default) with
                lowerChild := (cl : ℤ) } } with ht5
        -- facts about the sorted slice
        have hfacts := sorted_slice_facts forest tree.dataIndex b e sd.dimension
        rw [← hsdef] at hfacts
        obtain ⟨hslen0, hsorted, hprov⟩ := hfacts
        have hslen : s.length = e - b := by
          rw [hslen0, length_lslice_of_le tree.dataIndex b e hbe he]
        -- facts about the intermediate trees
        have ht2d : t2.dataIndex = splice tree.dataIndex b e s := by rw [ht2]
        have ht2n : t2.nodes = tree.nodes.set n
            { (tree.nodes.getD n default) with splitDimension := sd.dimension } := by
          rw [ht2]
        have ht3n : t3.nodes = t2.nodes.set n
            { (t2.nodes.getD n default) with splitThreshold := st.2 } := by
          rw [ht3]
        have ht3d : t3.dataIndex = t2.dataIndex := by rw [ht3]
        have ht3len2 : t3.nodes.length = tree.nodes.length := by
          rw [ht3n, List.length_set, ht2n, List.length_set]
        have hclv : cl = t3.nodes.length := by
          rw [hcl]
          rfl
        have hclv' : cl = n + 1 := by
          rw [hclv, ht3len2]
          omega
        have hfresh : (vl_kdtree_node_new t3 n).1.nodes = t3.nodes ++ [freshNode n] := rfl
        have ht5nodes : t5.nodes = ((vl_kdtree_node_new t3 n).1.nodes).set n
            { ((vl_kdtree_node_new t3 n).1.nodes.getD n default) with
                lowerChild := (cl : ℤ) } := by
          rw [ht5]
        have hfp : (vl_kdtree_node_new t3 n).1.nodes.length = n + 2 := by
          rw [hfresh]
          simp [ht3len2]
          omega
        have ht5len : t5.nodes.length = n + 2 := by
          rw [ht5nodes, List.length_set, hfp]
        have hnlt : n < tree.nodes.length := by omega
        have ht2gd : t2.nodes.getD n default =
            { (tree.nodes.getD n default) with splitDimension := sd.dimension } := by
          rw [ht2n]
          exact getD_set_lt _ _ _ _ hnlt
        have ht3gd : t3.nodes.getD n default =
            { (t2.nodes.getD n default) with splitThreshold := st.2 } := by
          rw [ht3n]
          exact getD_set_lt _ _ _ _ (by rw [ht2n, List.length_set]; omega)
        have hfgd : (vl_kdtree_node_new t3 n).1.nodes.getD n default =
            t3.nodes.getD n default := by
          rw [hfresh]
          exact getD_append_lt _ _ _ _ (by rw [ht3len2]; omega)
        have ht5gd : t5.nodes.getD n default =
            { (t3.nodes.getD n default) with lowerChild := (cl : ℤ) } := by
          rw [ht5nodes]
          have h1 : n < (vl_kdtree_node_new t3 n).1.nodes.length := by rw [hfp]; omega
          rw [getD_set_lt _ _ _ _ h1, hfgd]
        have ht5frame : ∀ j, j < n → t5.nodes.getD j default = tree.nodes.getD j default := by
          intro j hj
          have e1 : t5.nodes.getD j default =
              (vl_kdtree_node_new t3 n).1.nodes.getD j default := by
            rw [ht5nodes]
            exact getD_set_ne _ _ _ _ _ (by omega)
          have e2 : (vl_kdtree_node_new t3 n).1.nodes.getD j default =
              t3.nodes.getD j default := by
            rw [hfresh]
            exact getD_append_lt _ _ _ _ (by rw [ht3len2]; omega)
          have e3 : t3.nodes.getD j default = t2.nodes.getD j default := by
            rw [ht3n]
            exact getD_set_ne _ _ _ _ _ (by omega)
          have e4 : t2.nodes.getD j default = tree.nodes.getD j default := by
            rw [ht2n]
            exact getD_set_ne _ _ _ _ _ (by omega)
          rw [e1, e2, e3, e4]
        have ht5d : t5.dataIndex = splice tree.dataIndex b e s := by
          rw [ht5]
          show t3.dataIndex = splice tree.dataIndex b e s
          rw [ht3d, ht2d]
        have ht5dlen : t5.dataIndex.length = tree.dataIndex.length := by
          rw [ht5d]
          exact length_splice _ _ _ _ hslen hbe he
        -- the selected split partitions the sorted slice
        have hsplit := split_select_spec forest.thresholdingMethod sd.mean tree.dataIndex s b e
          hslen (by omega) he hU hsorted
        rw [← ht2d] at hsplit
        rw [← hst] at hsplit
        rw [← hm] at hsplit
        obtain ⟨hbm, hme, hlow, hup⟩ := hsplit
        -- split on the lower child's recursive build
        set L1 := vl_kdtree_build_recursively forest rands fuel (t5, rpos + 1) cl b m (depth + 1)
          with hL1
        clear_value L1
        rcases L1 with _ | ⟨t6, rpos2⟩
        · exact Option.noConfusion h
        · have ihl := ih t5 (rpos + 1) cl b m (depth + 1) t6 rpos2
            (by rw [ht5len, hclv'])
            hbm
            (by rw [ht5dlen]; omega)
            (by omega)
            hL1.symm
          obtain ⟨ihl1, ihl2, ihl3, ihl4, ihl5, ihl6, ihl7, ihl8⟩ := ihl
          have hdlen6 : t6.dataIndex.length = tree.dataIndex.length := by
            rw [ihl3, ht5dlen]
          have hncl6 : n < t6.nodes.length := by omega
          set cu := (vl_kdtree_node_new t6 n).2 with hcu
          set t8 : VlKDTree := { (vl_kdtree_node_new t6 n).1 with
            nodes := (vl_kdtree_node_new t6 n).1.nodes.set n
              { ((vl_kdtree_node_new t6 n).1.nodes.getD n default) with
                  upperChild := (cu : ℤ) } } with ht8
          have h' : vl_kdtree_build_recursively forest rands fuel (t8, rpos2) cu m e
              (depth + 1) = some (tree', rpos') := h
          have hcuv : cu = t6.nodes.length := by
            rw [hcu]
            rfl
          have hfresh6 : (vl_kdtree_node_new t6 n).1.nodes = t6.nodes ++ [freshNode n] := rfl
          have ht8nodes : t8.nodes = ((vl_kdtree_node_new t6 n).1.nodes).set n
              { ((vl_kdtree_node_new t6 n).1.nodes.getD n default) with
                  upperChild := (cu : ℤ) } := by
            rw [ht8]
          have hfp6 : (vl_kdtree_node_new t6 n).1.nodes.length = t6.nodes.length + 1 := by
            rw [hfresh6]
            simp
          have ht8len : t8.nodes.length = t6.nodes.length + 1 := by
            rw [ht8nodes, List.length_set, hfp6]
          have hfgd6 : (vl_kdtree_node_new t6 n).1.nodes.getD n default =
              t6.nodes.getD n default := by
            rw [hfresh6]
            exact getD_append_lt _ _ _ _ (by omega)
          have ht8gd : t8.nodes.getD n default =
              { (t6.nodes.getD n default) with upperChild := (cu : ℤ) } := by
            rw [ht8nodes]
            have h1 : n < (vl_kdtree_node_new t6 n).1.nodes.length := by rw [hfp6]; omega
            rw [getD_set_lt _ _ _ _ h1, hfgd6]
          have ht8frame : ∀ j, j < t6.nodes.length → j ≠ n →
              t8.nodes.getD j default = t6.nodes.getD j default := by
            intro j hj hjn
            have e1 : t8.nodes.getD j default =
                (vl_kdtree_node_new t6 n).1.nodes.getD j default := by
              rw [ht8nodes]
              exact getD_set_ne _ _ _ _ _ (by omega)
            have e2 : (vl_kdtree_node_new t6 n).1.nodes.getD j default =
                t6.nodes.getD j default := by
              rw [hfresh6]
              exact getD_append_lt _ _ _ _ hj
            rw [e1, e2]
          have ht8d : t8.dataIndex = t6.dataIndex := by
            rw [ht8]
            rfl
          have ihu := ih t8 rpos2 cu m e (depth + 1) tree' rpos'
            (by rw [ht8len, hcuv])
            hme
            (by rw [ht8d, hdlen6]; exact he)
            hU
            h'
          obtain ⟨ihu1, ihu2, ihu3, ihu4, ihu5, ihu6, ihu7, ihu8⟩ := ihu
          have htree'len : t6.nodes.length + 1 ≤ tree'.nodes.length := by
            rw [← ht8len]
            exact ihu1
          have hdlen' : tree'.dataIndex.length = tree.dataIndex.length := by
            rw [ihu3, ht8d, hdlen6]
          -- frame on nodes below the subtree
          have hG2 : ∀ j, j < n → tree'.nodes.getD j default = tree.nodes.getD j default := by
            intro j hj
            have e1 : tree'.nodes.getD j default = t8.nodes.getD j default :=
              ihu2 j (by omega)
            have e2 : t8.nodes.getD j default = t6.nodes.getD j default :=
              ht8frame j (by omega) (by omega)
            have e3 : t6.nodes.getD j default = t5.nodes.getD j default :=
              ihl2 j (by omega)
            rw [e1, e2, e3, ht5frame j hj]
          -- every index in the final slice came from the original slice
          have hs_mem : ∀ q, b ≤ q → q < e →
              (t5.dataIndex.getD q default).index ∈ sliceIndices tree b e := by
            intro q hq1 hq2
            have hq : t5.dataIndex[q]? = s[q - b]? := by
              rw [ht5d]
              exact splice_getElem?_inner _ _ _ _ _ hslen hbe he hq1 hq2
            have hqlt : q - b < s.length := by omega
            have hqe : t5.dataIndex.getD q default = s.getD (q - b) default :=
              getD_eq_of_getElem?_eq _ hq
            rw [hqe]
            exact (hprov _ (getD_mem_of_lt s (q - b) hqlt)).2
          -- the final node record
          have hfinal : tree'.nodes.getD n default =
              { (t6.nodes.getD n default) with upperChild := (cu : ℤ) } := by
            rw [← ht8gd]
            exact ihu2 n (by omega)
          have h6n : t6.nodes.getD n default = t5.nodes.getD n default := ihl2 n (by omega)
          have hfl : (tree'.nodes.getD n default).lowerChild = (cl : ℤ) := by
            rw [hfinal]
            dsimp only
            rw [h6n, ht5gd]
          have hfu : (tree'.nodes.getD n default).upperChild = (cu : ℤ) := by
            rw [hfinal]
          have hfdim : (tree'.nodes.getD n default).splitDimension = sd.dimension := by
            rw [hfinal]
            dsimp only
            rw [h6n, ht5gd]
            dsimp only
            rw [ht3gd]
            dsimp only
            rw [ht2gd]
          have hfthr : (tree'.nodes.getD n default).splitThreshold = st.2 := by
            rw [hfinal]
            dsimp only
            rw [h6n, ht5gd]
            dsimp only
            rw [ht3gd]
          -- coordinate facts on the two half-slices of the final tree
          have hlowAll : ∀ idx ∈ sliceIndices tree' b m,
              datum forest idx (tree'.nodes.getD n default).splitDimension ≤
                (tree'.nodes.getD n default).splitThreshold := by
            intro idx hidx
            rw [hfdim, hfthr]
            obtain ⟨p, hp1, hp2, hp3, hp4⟩ := mem_sliceIndices_iff.mp hidx
            have e1 : tree'.dataIndex[p]? = t6.dataIndex[p]? := by
              rw [← ht8d]
              exact ihu4 p (Or.inl hp2)
            have h6 : idx ∈ sliceIndices t6 b m := mem_sliceIndices_iff.mpr
              ⟨p, hp1, hp2, by omega, by rw [← getD_eq_of_getElem?_eq default e1]; exact hp4⟩
            obtain ⟨q, hq1, hq2, hq3, hq4⟩ := mem_sliceIndices_iff.mp (ihl5 idx h6)
            have hq5 : t5.dataIndex[q]? = s[q - b]? := by
              rw [ht5d]
              exact splice_getElem?_inner _ _ _ _ _ hslen hbe he hq1 (by omega)
            have hqe : t5.dataIndex.getD q default = s.getD (q - b) default :=
              getD_eq_of_getElem?_eq _ hq5
            have hqlt : q - b < s.length := by omega
            have hval := (hprov _ (getD_mem_of_lt s (q - b) hqlt)).1
            rw [hqe] at hq4
            rw [← hq4, ← hval]
            exact hlow (q - b) (by omega)
          have hupAll : ∀ idx ∈ sliceIndices tree' m e,
              (tree'.nodes.getD n default).splitThreshold ≤
                datum forest idx (tree'.nodes.getD n default).splitDimension := by
            intro idx hidx
            rw [hfdim, hfthr]
            have h8 : idx ∈ sliceIndices t8 m e := ihu5 idx hidx
            have h8d : sliceIndices t8 m e = sliceIndices t6 m e := by
              unfold sliceIndices
              rw [ht8d]
            rw [h8d] at h8
            obtain ⟨q, hq1, hq2, hq3, hq4⟩ := mem_sliceIndices_iff.mp h8
            have egd : t6.dataIndex.getD q default = t5.dataIndex.getD q default :=
              getD_eq_of_getElem?_eq _ (ihl4 q (Or.inr hq1))
            have hq5 : t5.dataIndex[q]? = s[q - b]? := by
              rw [ht5d]
              exact splice_getElem?_inner _ _ _ _ _ hslen hbe he (by omega) hq2
            have hqe : t5.dataIndex.getD q default = s.getD (q - b) default :=
              getD_eq_of_getElem?_eq _ hq5
            have hqlt : q - b < s.length := by omega
            have hval := (hprov _ (getD_mem_of_lt s (q - b) hqlt)).1
            rw [egd, hqe] at hq4
            rw [← hq4, ← hval]
            exact hup (q - b) (by omega) hqlt
          -- node records of the subtrees survive into the final tree
          have hnodeeq : ∀ j, cl ≤ j → j < t6.nodes.length →
              tree'.nodes.getD j default = t6.nodes.getD j default := by
            intro j hj1 hj2
            have e1 : tree'.nodes.getD j default = t8.nodes.getD j default :=
              ihu2 j (by omega)
            have e2 : t8.nodes.getD j default = t6.nodes.getD j default :=
              ht8frame j hj2 (by omega)
            rw [e1, e2]
          have hcovL : Covers forest tree' cl b m t6.nodes.length := by
            refine covers_stable forest ihl6 (by omega) ?_ ?_
            · intro j hj1 hj2
              exact hnodeeq j hj1 hj2
            · intro p hp1 hp2
              rw [← ht8d]
              exact ihu4 p (Or.inl hp2)
          have hcovL2 : Covers forest tree' cl b m cu := by
            rw [hcuv]
            exact hcovL
          have hG6 : Covers forest tree' n b e tree'.nodes.length :=
            Covers.node n b m e cl cu tree'.nodes.length (by omega) (by omega) (by omega)
              hfl hfu hbm hme hlowAll hupAll hcovL2 ihu6
          obtain ⟨ihl7a, ihl7b, ihl7c⟩ := ihl7
          obtain ⟨ihu7a, ihu7b, ihu7c⟩ := ihu7
          refine ⟨by omega, hG2, hdlen', ?_, ?_, hG6, ⟨?_, ?_, ?_⟩, ?_⟩
          · -- data outside [b, e) untouched
            intro p hp
            have e1 : tree'.dataIndex[p]? = t8.dataIndex[p]? := ihu4 p (by omega)
            have e2 : t8.dataIndex[p]? = t6.dataIndex[p]? := by rw [ht8d]
            have e3 : t6.dataIndex[p]? = t5.dataIndex[p]? := ihl4 p (by omega)
            have e4 : t5.dataIndex[p]? = tree.dataIndex[p]? := by
              rw [ht5d]
              exact splice_getElem?_outer _ _ _ _ _ hslen hbe he hp
            rw [e1, e2, e3, e4]
          · -- slice indices all come from the original slice
            intro idx hidx
            obtain ⟨p, hp1, hp2, hp3, hp4⟩ := mem_sliceIndices_iff.mp hidx
            rcases lt_or_le p m with hpm | hpm
            · have e1 : tree'.dataIndex[p]? = t6.dataIndex[p]? := by
                rw [← ht8d]
                exact ihu4 p (Or.inl hpm)
              have h6 : idx ∈ sliceIndices t6 b m := mem_sliceIndices_iff.mpr
                ⟨p, hp1, hpm, by omega, by rw [← getD_eq_of_getElem?_eq default e1]; exact hp4⟩
              obtain ⟨q, hq1, hq2, hq3, hq4⟩ := mem_sliceIndices_iff.mp (ihl5 idx h6)
              rw [← hq4]
              exact hs_mem q hq1 (by omega)
            · have h8 : idx ∈ sliceIndices t8 m e :=
                ihu5 idx (mem_sliceIndices_iff.mpr ⟨p, hpm, hp2, hp3, hp4⟩)
              have h8d : sliceIndices t8 m e = sliceIndices t6 m e := by
                unfold sliceIndices
                rw [ht8d]
              rw [h8d] at h8
              obtain ⟨q, hq1, hq2, hq3, hq4⟩ := mem_sliceIndices_iff.mp h8
              have egd : t6.dataIndex.getD q default = t5.dataIndex.getD q default :=
                getD_eq_of_getElem?_eq _ (ihl4 q (Or.inr hq1))
              rw [← hq4, egd]
              exact hs_mem q (by omega) hq2
          · -- tiling: every leaf range inside [b, e)
            intro j hj1 hj2 hleaf
            rcases lt_or_le j cu with hjcu | hjcu
            · rcases eq_or_lt_of_le hj1 with hjn | hjn
              · exfalso
                rw [← hjn] at hleaf
                unfold IsLeafNode at hleaf
                rw [hfl] at hleaf
                omega
              · have hcle : cl ≤ j := by omega
                have hjlt6 : j < t6.nodes.length := by omega
                obtain ⟨hiff, hbeq, heeq⟩ := leaf_decode_transfer (hnodeeq j hcle hjlt6)
                have hfacts := ihl7a j hcle hjlt6 (hiff.mp hleaf)
                rw [hbeq, heeq]
                omega
            · have hfacts := ihu7a j hjcu hj2 hleaf
              omega
          · -- tiling: every slice position covered by a leaf
            intro i hi1 hi2
            rcases lt_or_le i m with him | him
            · obtain ⟨j, hj1, hj2, hleaf, hlb, hle⟩ := ihl7b i hi1 him
              obtain ⟨hiff, hbeq, heeq⟩ := leaf_decode_transfer (hnodeeq j hj1 hj2)
              exact ⟨j, by omega, by omega, hiff.mpr hleaf, by omega, by omega⟩
            · obtain ⟨j, hj1, hj2, hleaf, hlb, hle⟩ := ihu7b i him hi2
              exact ⟨j, by omega, hj2, hleaf, hlb, hle⟩
          · -- tiling: distinct leaves have disjoint ranges
            intro j j' hj1 hj2 hj'1 hj'2 hleaf hleaf' hne
            have hjn : j ≠ n := by
              intro hEq
              rw [hEq] at hleaf
              unfold IsLeafNode at hleaf
              rw [hfl] at hleaf
              omega
            have hj'n : j' ≠ n := by
              intro hEq
              rw [hEq] at hleaf'
              unfold IsLeafNode at hleaf'
              rw [hfl] at hleaf'
              omega
            rcases lt_or_le j cu with hjcu | hjcu <;> rcases lt_or_le j' cu with hj'cu | hj'cu
            · obtain ⟨hiff1, hbeq1, heeq1⟩ :=
                leaf_decode_transfer (hnodeeq j (by omega) (by omega))
              obtain ⟨hiff2, hbeq2, heeq2⟩ :=
                leaf_decode_transfer (hnodeeq j' (by omega) (by omega))
              have hd := ihl7c j j' (by omega) (by omega) (by omega) (by omega)
                (hiff1.mp hleaf) (hiff2.mp hleaf') hne
              rcases hd with hd | hd
              · left
                omega
              · right
                omega
            · obtain ⟨hiff1, hbeq1, heeq1⟩ :=
                leaf_decode_transfer (hnodeeq j (by omega) (by omega))
              have hlt := ihl7a j (by omega) (by omega) (hiff1.mp hleaf)
              have hgt := ihu7a j' hj'cu hj'2 hleaf'
              left
              omega
            · obtain ⟨hiff2, hbeq2, heeq2⟩ :=
                leaf_decode_transfer (hnodeeq j' (by omega) (by omega))
              have hlt := ihl7a j' (by omega) (by omega) (hiff2.mp hleaf')
              have hgt := ihu7a j hjcu hj2 hleaf
              right
              omega
            · exact ihu7c j j' hjcu hj2 hj'cu hj'2 hleaf hleaf' hne
          · -- child links strictly increase on the subtree's arena segment
            intro j hj1 hj2
            rcases eq_or_lt_of_le hj1 with hjn | hjn
            · rw [← hjn, hfl, hfu]
              exact ⟨fun _ => by omega, fun _ => by omega⟩
            · rcases lt_or_le j cu with hjcu | hjcu
              · have hrec := hnodeeq j (by omega) (by omega)
                rw [hrec]
                exact ihl8 j (by omega) (by omega)
              · exact ihu8 j hjcu hj2

/-! ## From `vl_kdforest_build` to the per-tree invariants (claims C7, C8, C2) -/

/-- `vl_kdtree_calc_bounds_recursively` never touches the permutation. -/
theorem calc_bounds_dataIndex (fuel : ℕ) :
    ∀ (tree : VlKDTree) (n : ℕ) (sb : List (Option ℚ)) (tree' : VlKDTree)
      (sb' : List (Option ℚ)),
      vl_kdtree_calc_bounds_recursively fuel tree n sb = some (tree', sb') →
      tree'.dataIndex = tree.dataIndex := by
  induction fuel with
  | zero =>
    intro tree n sb tree' sb' h
    exact absurd h (by simp [vl_kdtree_calc_bounds_recursively])
  | succ fuel ih =>
    intro tree n sb tree' sb' h
    simp only [vl_kdtree_calc_bounds_recursively] at h
    set node := tree.nodes.getD n default with hnode
    set treeA : VlKDTree :=
      { tree with
          nodes := tree.nodes.set n
            { node with
                lowerBound := sb.getD (2 * node.splitDimension) none,
                upperBound := sb.getD (2 * node.splitDimension + 1) none } } with htreeA
    have hAd : treeA.dataIndex = tree.dataIndex := by rw [htreeA]
    have hstep :
        ∃ (t2 : VlKDTree) (s2 : List (Option ℚ)),
          (if 0 < node.lowerChild then
              match vl_kdtree_calc_bounds_recursively fuel treeA node.lowerChild.toNat
                  (sb.set (2 * node.splitDimension + 1) (some node.splitThreshold)) with
              | none => none
              | some (t1, s1) =>
                some (t1,
                  s1.set (2 * node.splitDimension + 1) ((t1.nodes.getD n default).upperBound))
            else some (treeA, sb)) = some (t2, s2) ∧ t2.dataIndex = tree.dataIndex := by
      by_cases hlc : 0 < node.lowerChild
      · set L := vl_kdtree_calc_bounds_recursively fuel treeA node.lowerChild.toNat
            (sb.set (2 * node.splitDimension + 1) (some node.splitThreshold)) with hLdef
        clear_value L
        rcases L with _ | ⟨t1, s1⟩
        · rw [if_pos hlc] at h
          exact absurd h (by simp)
        · have h1 := ih treeA node.lowerChild.toNat _ t1 s1 hLdef.symm
          exact ⟨t1, _, by rw [if_pos hlc], by rw [h1, hAd]⟩
      · exact ⟨treeA, sb, by rw [if_neg hlc], hAd⟩
    obtain ⟨t2, s2, hstepEq, ht2d⟩ := hstep
    rw [hstepEq] at h
    dsimp only at h
    by_cases huc : 0 < (t2.nodes.getD n default).upperChild
    · rw [if_pos huc] at h
      set L2 := vl_kdtree_calc_bounds_recursively fuel t2
          (t2.nodes.getD n default).upperChild.toNat
          (s2.set (2 * node.splitDimension) (some node.splitThreshold)) with hUdef
      clear_value L2
      rcases L2 with _ | ⟨t3, s3⟩
      · exact absurd h (by simp)
      · dsimp only at h
        have h3 := ih t2 (t2.nodes.getD n default).upperChild.toNat _ t3 s3 hUdef.symm
        cases h
        rw [h3, ht2d]
    · rw [if_neg huc] at h
      cases h
      exact ht2d

/-- `Covers` only reads the structural node fields and the permutation, so it
transfers across the bounds pass. -/
theorem covers_of_sameStructure (forest : VlKDForest) :
    ∀ {tree tree' : VlKDTree} {n b e hi : ℕ},
      Covers forest tree n b e hi →
      SameStructure tree tree' →
      tree'.dataIndex = tree.dataIndex →
      Covers forest tree' n b e hi := by
  intro tree tree' n b e hi hc hs hd
  induction hc with
  | leaf n b e hi hn hhi hl hu hbe =>
    obtain ⟨_, hlc, huc, _, _⟩ := hs.2 n
    exact Covers.leaf n b e hi (by rw [hs.1]; exact hn) hhi (by rw [hlc]; exact hl)
      (by rw [huc]; exact hu) hbe
  | node n b m e cl cu hi hn hncl hncu hl hu hbm hme hlow hup hcl hcu ihl ihu =>
    obtain ⟨_, hlc, huc, hdim, hthr⟩ := hs.2 n
    have hsl : sliceIndices tree' b m = sliceIndices tree b m := by
      unfold sliceIndices
      rw [hd]
    have hsu : sliceIndices tree' m e = sliceIndices tree m e := by
      unfold sliceIndices
      rw [hd]
    refine Covers.node n b m e cl cu hi (by rw [hs.1]; exact hn) hncl hncu
      (by rw [hlc]; exact hl) (by rw [huc]; exact hu) hbm hme ?_ ?_ ihl ihu
    · rw [hsl, hdim, hthr]
      exact hlow
    · rw [hsu, hdim, hthr]
      exact hup

/-- `LeafTiling` only reads the structural node fields, so it transfers across the
bounds pass. -/
theorem leafTiling_of_sameStructure {tree tree' : VlKDTree} {n b e : ℕ}
    (ht : LeafTiling tree n b e) (hs : SameStructure tree tree') :
    LeafTiling tree' n b e := by
  have hdec : ∀ j, (IsLeafNode tree' j ↔ IsLeafNode tree j) ∧
      leafBegin tree' j = leafBegin tree j ∧ leafEnd tree' j = leafEnd tree j := by
    intro j
    obtain ⟨_, hlc, huc, _, _⟩ := hs.2 j
    unfold IsLeafNode leafBegin leafEnd
    rw [hlc, huc]
    exact ⟨Iff.rfl, rfl, rfl⟩
  obtain ⟨h1, h2, h3⟩ := ht
  refine ⟨?_, ?_, ?_⟩
  · intro j hj1 hj2 hleaf
    obtain ⟨hiff, hbeq, heeq⟩ := hdec j
    have hfacts := h1 j hj1 (by rw [← hs.1]; exact hj2) (hiff.mp hleaf)
    omega
  · intro i hi1 hi2
    obtain ⟨j, hj1, hj2, hleaf, hlb, hle⟩ := h2 i hi1 hi2
    obtain ⟨hiff, hbeq, heeq⟩ := hdec j
    exact ⟨j, hj1, by rw [hs.1]; exact hj2, hiff.mpr hleaf, by omega, by omega⟩
  · intro j j' ha1 ha2 hb1 hb2 hleaf hleaf' hne
    obtain ⟨hiff1, hbeq1, heeq1⟩ := hdec j
    obtain ⟨hiff2, hbeq2, heeq2⟩ := hdec j'
    have hfacts := h3 j j' ha1 (by rw [← hs.1]; exact ha2) hb1 (by rw [← hs.1]; exact hb2)
      (hiff1.mp hleaf) (hiff2.mp hleaf') hne
    omega

/-- `Covers` only reads the forest through `datum`. -/
theorem covers_forest_congr {forest forest' : VlKDForest} {tree : VlKDTree}
    (hdat : ∀ di d, datum forest' di d = datum forest di d) :
    ∀ {n b e hi : ℕ}, Covers forest tree n b e hi → Covers forest' tree n b e hi := by
  intro n b e hi hc
  induction hc with
  | leaf n b e hi hn hhi hl hu hbe => exact Covers.leaf n b e hi hn hhi hl hu hbe
  | node n b m e cl cu hi hn hncl hncu hl hu hbm hme hlow hup hcl hcu ihl ihu =>
    refine Covers.node n b m e cl cu hi hn hncl hncu hl hu hbm hme ?_ ?_ ihl ihu
    · intro idx hidx
      rw [hdat]
      exact hlow idx hidx
    · intro idx hidx
      rw [hdat]
      exact hup idx hidx

/-- The tree state `vl_kdforest_build_tree` passes to the recursive builder: the root
allocated over the identity permutation. -/
def initTree (numData : ℕ) : VlKDTree :=
  { nodes := [freshNode 0],
    dataIndex := (List.range numData).map (fun di => { index := di, value := 0 }),
    depth := 0 }

/-- A successful `vl_kdforest_build_tree` satisfies `BuildPost` from the initial
tree over the full range `[0, numData)`. -/
theorem build_tree_spec (forest : VlKDForest) (rands : ℕ → ℕ) (fuel numData rpos : ℕ)
    (tree' : VlKDTree) (rpos' : ℕ) (hU : numData < U64)
    (h : vl_kdforest_build_tree forest rands fuel numData rpos = some (tree', rpos')) :
    BuildPost forest (initTree numData) tree' 0 0 numData := by
  have h' : vl_kdtree_build_recursively forest rands fuel (initTree numData, rpos) 0 0
      numData 0 = some (tree', rpos') := h
  exact build_rec_spec forest rands fuel (initTree numData) rpos 0 0 numData 0 tree' rpos'
    (by simp [initTree]) (Nat.zero_le _) (by simp [initTree]) hU h'

/-- Every tree produced by `vl_kdforest_build_trees` satisfies `BuildPost`. -/
theorem build_trees_spec (forest : VlKDForest) (rands : ℕ → ℕ) (fuel numData : ℕ)
    (hU : numData < U64) :
    ∀ (k rpos : ℕ) (trees : List VlKDTree) (mnn : ℕ),
      vl_kdforest_build_trees forest rands fuel numData k rpos = some (trees, mnn) →
      ∀ t ∈ trees, BuildPost forest (initTree numData) t 0 0 numData := by
  intro k
  induction k with
  | zero =>
    intro rpos trees mnn h t ht
    rw [vl_kdforest_build_trees] at h
    cases h
    exact absurd ht (by simp)
  | succ k ihk =>
    intro rpos trees mnn h t ht
    rw [vl_kdforest_build_trees] at h
    set B := vl_kdforest_build_tree forest rands fuel numData rpos with hB
    clear_value B
    rcases B with _ | ⟨tree1, rpos1⟩
    · exact Option.noConfusion h
    · dsimp only at h
      set R := vl_kdforest_build_trees forest rands fuel numData k rpos1 with hR
      clear_value R
      rcases R with _ | ⟨rest, mnn1⟩
      · exact Option.noConfusion h
      · dsimp only at h
        cases h
        rcases List.mem_cons.mp ht with hh | hh
        · subst hh
          exact build_tree_spec forest rands fuel numData rpos t rpos1 hU hB.symm
        · exact ihk rpos1 rest mnn1 hR.symm t hh

/-- Every tree output by the bounds pass is the result of a successful
`vl_kdtree_calc_bounds_recursively` run from the root on a tree of the input list. -/
theorem calc_bounds_list_spec (dimension fuel : ℕ) :
    ∀ (trees trees1 : List VlKDTree),
      vl_kdforest_calc_bounds dimension fuel trees = some trees1 →
      ∀ t1 ∈ trees1, ∃ t ∈ trees, ∃ sb',
        vl_kdtree_calc_bounds_recursively fuel t 0 (initialSearchBounds dimension) =
          some (t1, sb') := by
  intro trees
  induction trees with
  | nil =>
    intro trees1 h t1 ht1
    rw [vl_kdforest_calc_bounds] at h
    cases h
    exact absurd ht1 (by simp)
  | cons tree rest ihr =>
    intro trees1 h t1 ht1
    rw [vl_kdforest_calc_bounds] at h
    set B := vl_kdtree_calc_bounds_recursively fuel tree 0 (initialSearchBounds dimension)
      with hB
    clear_value B
    rcases B with _ | ⟨treeA, sbA⟩
    · exact Option.noConfusion h
    · dsimp only at h
      set R := vl_kdforest_calc_bounds dimension fuel rest with hR
      clear_value R
      rcases R with _ | rest1
      · exact Option.noConfusion h
      · dsimp only at h
        cases h
        rcases List.mem_cons.mp ht1 with hh | hh
        · subst hh
          exact ⟨tree, by simp, sbA, hB.symm⟩
        · obtain ⟨t, htmem, sb', hrun⟩ := ihr rest1 rfl t1 hh
          exact ⟨t, by simp [htmem], sb', hrun⟩

/-- What a successful `vl_kdforest_build` guarantees tree-by-tree: every tree of the
result is the output of the bounds pass on a tree satisfying `BuildPost` over
`[0, numData)`, and the result forest carries the attached data. -/
theorem forest_build_spec (forest0 : VlKDForest) (rands : ℕ → ℕ) (fuel numData : ℕ)
    (data : List ℚ) (result : VlKDForest) (hU : numData < U64)
    (h : vl_kdforest_build forest0 rands fuel numData data = some result) :
    (∀ tree ∈ result.trees,
      ∃ pre : VlKDTree,
        BuildPost { forest0 with data := data, numData := numData } (initTree numData) pre
          0 0 numData ∧
        ∃ sb', vl_kdtree_calc_bounds_recursively fuel pre 0
          (initialSearchBounds forest0.dimension) = some (tree, sb')) ∧
    result.data = data ∧ result.dimension = forest0.dimension := by
  rw [vl_kdforest_build] at h
  dsimp only at h
  set T := vl_kdforest_build_trees { forest0 with data := data, numData := numData } rands
      fuel numData forest0.numTrees 0 with hT
  clear_value T
  rcases T with _ | ⟨trees, mnn⟩
  · exact Option.noConfusion h
  · dsimp only at h
    set C := vl_kdforest_calc_bounds forest0.dimension fuel trees with hC
    clear_value C
    rcases C with _ | trees1
    · exact Option.noConfusion h
    · dsimp only at h
      cases h
      have hbp : ∀ t ∈ trees,
          BuildPost { forest0 with data := data, numData := numData } (initTree numData) t
            0 0 numData :=
        build_trees_spec { forest0 with data := data, numData := numData } rands fuel numData
          hU forest0.numTrees 0 trees mnn hT.symm
      refine ⟨?_, rfl, rfl⟩
      intro tree htree
      obtain ⟨t, htmem, sb', hrun⟩ :=
        calc_bounds_list_spec forest0.dimension fuel trees trees1 hC.symm tree htree
      exact ⟨t, hbp t htmem, sb', hrun⟩

/-- C7: after `vl_kdforest_build`, for every tree of the forest, every internal node,
and every point whose index lies in the permutation slice of the lower (resp. upper)
child's subtree, the point's `splitDimension` coordinate is `≤` (resp. `≥`) the
node's `splitThreshold` — stated as the split invariant `Covers` holding at every
tree's root over the full range `[0, numData)`. -/
theorem C7_internal_nodes_split_their_points (forest0 : VlKDForest) (rands : ℕ → ℕ)
    (fuel numData : ℕ) (data : List ℚ) (result : VlKDForest) (hU : numData < U64)
    (h : vl_kdforest_build forest0 rands fuel numData data = some result) :
    ∀ tree ∈ result.trees, Covers result tree 0 0 numData tree.nodes.length := by
  intro tree htree
  obtain ⟨hmain, hdata, hdim⟩ := forest_build_spec forest0 rands fuel numData data result hU h
  obtain ⟨pre, bp, sb', hrun⟩ := hmain tree htree
  have hmono : ChildMono pre :=
    childMono_of_forall_lt pre (fun j hj => bp.2.2.2.2.2.2.2 j (Nat.zero_le j) hj)
  have hss : SameStructure pre tree :=
    (calc_bounds_spec fuel pre 0 (initialSearchBounds forest0.dimension) tree sb'
      hmono hrun).1
  have hdd : tree.dataIndex = pre.dataIndex :=
    calc_bounds_dataIndex fuel pre 0 (initialSearchBounds forest0.dimension) tree sb' hrun
  have hcov := bp.2.2.2.2.2.1
  have hcov2 := covers_of_sameStructure _ hcov hss hdd
  rw [← hss.1] at hcov2
  have hdat : ∀ di d, datum result di d =
      datum { forest0 with data := data, numData := numData } di d := by
    intro di d
    unfold datum
    rw [hdata, hdim]
  exact covers_forest_congr hdat hcov2

/-- Witness for `C7_internal_nodes_split_their_points`: the concrete build of the
two-point forest satisfies the split invariant at the root of its tree. -/
theorem C7_internal_nodes_split_witness :
    2 < U64 ∧ Covers sampleForest (sampleForest.trees.getD 0 default) 0 0 2
      (sampleForest.trees.getD 0 default).nodes.length :=
  ⟨by decide,
    C7_internal_nodes_split_their_points
      (vl_kdforest_new VlType.float 1 1 VlVectorComparisonType.distanceL1 0)
      (fun _ => 0) 10 2 [0, 10] sampleForest (by decide) (by with_unfolding_all decide)
      (sampleForest.trees.getD 0 default) (by decide)⟩

/-- C8: after `vl_kdforest_build`, for every tree of the forest, every leaf's decoded
point range `[-lowerChild - 1, -upperChild - 1)` is a contiguous subinterval of
`[0, numData)`, the ranges of distinct leaves are pairwise disjoint, and every
position of `[0, numData)` is covered by some leaf's range (`LeafTiling` at the
root over the whole arena). -/
theorem C8_leaf_ranges_tile_the_permutation (forest0 : VlKDForest) (rands : ℕ → ℕ)
    (fuel numData : ℕ) (data : List ℚ) (result : VlKDForest) (hU : numData < U64)
    (h : vl_kdforest_build forest0 rands fuel numData data = some result) :
    ∀ tree ∈ result.trees, LeafTiling tree 0 0 numData := by
  intro tree htree
  obtain ⟨hmain, _, _⟩ := forest_build_spec forest0 rands fuel numData data result hU h
  obtain ⟨pre, bp, sb', hrun⟩ := hmain tree htree
  have hmono : ChildMono pre :=
    childMono_of_forall_lt pre (fun j hj => bp.2.2.2.2.2.2.2 j (Nat.zero_le j) hj)
  have hss : SameStructure pre tree :=
    (calc_bounds_spec fuel pre 0 (initialSearchBounds forest0.dimension) tree sb'
      hmono hrun).1
  exact leafTiling_of_sameStructure bp.2.2.2.2.2.2.1 hss

/-- Witness for `C8_leaf_ranges_tile_the_permutation`: the leaves of the concrete
two-point build tile `[0, 2)`. -/
theorem C8_leaf_ranges_tile_witness :
    2 < U64 ∧ LeafTiling (sampleForest.trees.getD 0 default) 0 0 2 :=
  ⟨by decide,
    C8_leaf_ranges_tile_the_permutation
      (vl_kdforest_new VlType.float 1 1 VlVectorComparisonType.distanceL1 0)
      (fun _ => 0) 10 2 [0, 10] sampleForest (by decide) (by with_unfolding_all decide)
      (sampleForest.trees.getD 0 default) (by decide)⟩

/-! ## Claim C2 (amended) — node bounds contain their subtree's coordinates -/

theorem getD_set_cases {α : Type} (l : List α) (p q : ℕ) (v d : α) :
    (l.set p v).getD q d = if q = p ∧ p < l.length then v else l.getD q d := by
  by_cases hq : q = p
  · subst hq
    by_cases hlen : q < l.length
    · rw [if_pos ⟨rfl, hlen⟩]
      exact getD_set_lt _ _ _ _ hlen
    · rw [if_neg (fun hc => hlen hc.2)]
      rw [List.set_eq_of_length_le (by omega)]
  · rw [if_neg (fun hc => hq hc.1)]
    exact getD_set_ne _ _ _ _ _ (fun hc => hq hc.symm)

theorem getD_replicate_none {α : Type} (k q : ℕ) :
    (List.replicate k (none : Option α)).getD q none = none := by
  rw [List.getD_eq_getElem?_getD, List.getElem?_replicate]
  by_cases h : q < k
  · rw [if_pos h]
    rfl
  · rw [if_neg h]
    rfl

theorem mem_sliceIndices_of_le {t : VlKDTree} {b1 e1 b2 e2 idx : ℕ} (hb : b2 ≤ b1)
    (he : e1 ≤ e2) (h : idx ∈ sliceIndices t b1 e1) : idx ∈ sliceIndices t b2 e2 := by
  obtain ⟨p, h1, h2, h3, h4⟩ := mem_sliceIndices_iff.mp h
  exact mem_sliceIndices_iff.mpr ⟨p, by omega, by omega, h3, h4⟩

/-- The working-bounds array `sb` is a valid region for the slice `[b, e)`: every
finite slot bounds the corresponding coordinate of every point of the slice
(`none` slots are `±∞` and constrain nothing). -/
def RegionOK (forest : VlKDForest) (tree : VlKDTree) (b e : ℕ)
    (sb : List (Option ℚ)) : Prop :=
  ∀ idx ∈ sliceIndices tree b e, ∀ d : ℕ,
    (∀ lo, sb.getD (2 * d) none = some lo → lo ≤ datum forest idx d) ∧
    (∀ hb, sb.getD (2 * d + 1) none = some hb → datum forest idx d ≤ hb)

/-- The all-`±∞` initial array is a valid region for anything. -/
theorem regionOK_initial (forest : VlKDForest) (tree : VlKDTree) (b e dimension : ℕ) :
    RegionOK forest tree b e (initialSearchBounds dimension) := by
  intro idx _ d
  constructor
  · intro lo hlo
    rw [show initialSearchBounds dimension = List.replicate (2 * dimension) none from rfl,
      getD_replicate_none] at hlo
    exact Option.noConfusion hlo
  · intro hb hhb
    rw [show initialSearchBounds dimension = List.replicate (2 * dimension) none from rfl,
      getD_replicate_none] at hhb
    exact Option.noConfusion hhb

/-- The bounds invariant of claim C2 (amended): mirrors the shape of `Covers`, and at
every subtree node requires the **stored** `lowerBound`/`upperBound` fields to contain
the `splitDimension` coordinates of every point of the node's slice (`none` = `±∞`). -/
inductive BoundsOK (forest : VlKDForest) (tree : VlKDTree) : ℕ → ℕ → ℕ → ℕ → Prop where
  | leaf (n b e hi : ℕ) :
      n < tree.nodes.length →
      n < hi →
      (tree.nodes.getD n default).lowerChild = -(b : ℤ) - 1 →
      (tree.nodes.getD n default).upperChild = -(e : ℤ) - 1 →
      (∀ idx ∈ sliceIndices tree b e,
        (∀ lo, (tree.nodes.getD n default).lowerBound = some lo →
          lo ≤ datum forest idx (tree.nodes.getD n default).splitDimension) ∧
        (∀ hb, (tree.nodes.getD n default).upperBound = some hb →
          datum forest idx (tree.nodes.getD n default).splitDimension ≤ hb)) →
      BoundsOK forest tree n b e hi
  | node (n b m e cl cu hi : ℕ) :
      n < tree.nodes.length →
      n < cl → n < cu →
      (tree.nodes.getD n default).lowerChild = (cl : ℤ) →
      (tree.nodes.getD n default).upperChild = (cu : ℤ) →
      b ≤ m → m ≤ e →
      (∀ idx ∈ sliceIndices tree b e,
        (∀ lo, (tree.nodes.getD n default).lowerBound = some lo →
          lo ≤ datum forest idx (tree.nodes.getD n default).splitDimension) ∧
        (∀ hb, (tree.nodes.getD n default).upperBound = some hb →
          datum forest idx (tree.nodes.getD n default).splitDimension ≤ hb)) →
      BoundsOK forest tree cl b m cu →
      BoundsOK forest tree cu m e hi →
      BoundsOK forest tree n b e hi

theorem boundsOK_lt {forest : VlKDForest} {tree : VlKDTree} :
    ∀ {n b e hi : ℕ}, BoundsOK forest tree n b e hi → n < hi := by
  intro n b e hi h
  induction h with
  | leaf n b e hi _ hhi _ _ _ => exact hhi
  | node n b m e cl cu hi _ hncl hncu _ _ _ _ _ _ _ ihl ihu => omega

/-- `BoundsOK` is stable under changes outside the subtree's arena segment `[n, hi)`
and outside the slice `[b, e)`. -/
theorem boundsOK_stable (forest : VlKDForest) :
    ∀ {tree tree' : VlKDTree} {n b e hi : ℕ},
      BoundsOK forest tree n b e hi →
      tree.nodes.length ≤ tree'.nodes.length →
      (∀ j, n ≤ j → j < hi → tree'.nodes.getD j default = tree.nodes.getD j default) →
      (∀ p, b ≤ p → p < e → tree'.dataIndex[p]? = tree.dataIndex[p]?) →
      BoundsOK forest tree' n b e hi := by
  intro tree tree' n b e hi hc
  induction hc with
  | leaf n b e hi hn hhi hl hu hcont =>
    intro hlen hnodes hdata
    have hnn := hnodes n (le_refl n) hhi
    have hse : sliceIndices tree' b e = sliceIndices tree b e := by
      unfold sliceIndices
      rw [lslice_eq_of_agree hdata]
    refine BoundsOK.leaf n b e hi (by omega) hhi (by rw [hnn]; exact hl)
      (by rw [hnn]; exact hu) ?_
    rw [hse, hnn]
    exact hcont
  | node n b m e cl cu hi hn hncl hncu hl hu hbm hme hcont hcl hcu ihl ihu =>
    intro hlen hnodes hdata
    have hcult : cu < hi := boundsOK_lt hcu
    have hcllt : cl < cu := boundsOK_lt hcl
    have hnn := hnodes n (le_refl n) (by omega)
    have hse : sliceIndices tree' b e = sliceIndices tree b e := by
      unfold sliceIndices
      rw [lslice_eq_of_agree hdata]
    refine BoundsOK.node n b m e cl cu hi (by omega) hncl hncu (by rw [hnn]; exact hl)
      (by rw [hnn]; exact hu) hbm hme ?_ ?_ ?_
    · rw [hse, hnn]
      exact hcont
    · exact ihl hlen (fun j h1 h2 => hnodes j (by omega) (by omega))
        (fun p h1 h2 => hdata p h1 (by omega))
    · exact ihu hlen (fun j h1 h2 => hnodes j (by omega) h2)
        (fun p h1 h2 => hdata p (by omega) h2)

/-- `BoundsOK` only reads the forest through `datum`. -/
theorem boundsOK_forest_congr {forest forest' : VlKDForest} {tree : VlKDTree}
    (hdat : ∀ di d, datum forest' di d = datum forest di d) :
    ∀ {n b e hi : ℕ}, BoundsOK forest tree n b e hi → BoundsOK forest' tree n b e hi := by
  intro n b e hi hc
  induction hc with
  | leaf n b e hi hn hhi hl hu hcont =>
    refine BoundsOK.leaf n b e hi hn hhi hl hu ?_
    intro idx hidx
    rw [hdat]
    exact hcont idx hidx
  | node n b m e cl cu hi hn hncl hncu hl hu hbm hme hcont hcl hcu ihl ihu =>
    refine BoundsOK.node n b m e cl cu hi hn hncl hncu hl hu hbm hme ?_ ihl ihu
    intro idx hidx
    rw [hdat]
    exact hcont idx hidx

/-- The bounds-pass induction: on a subtree satisfying the split invariant, called
with a valid region array, `vl_kdtree_calc_bounds_recursively` establishes the
bounds invariant `BoundsOK` and stores exactly the region slots of the visited
node's split dimension into its `lowerBound`/`upperBound` fields. -/
theorem calc_bounds_boundsOK (forest : VlKDForest) (fuel : ℕ) :
    ∀ (tree : VlKDTree) (n b e hi : ℕ) (sb : List (Option ℚ)) (tree' : VlKDTree)
      (sb' : List (Option ℚ)),
      ChildMono tree →
      Covers forest tree n b e hi →
      RegionOK forest tree b e sb →
      vl_kdtree_calc_bounds_recursively fuel tree n sb = some (tree', sb') →
      BoundsOK forest tree' n b e hi ∧
        (tree'.nodes.getD n default).lowerBound =
          sb.getD (2 * (tree.nodes.getD n default).splitDimension) none ∧
        (tree'.nodes.getD n default).upperBound =
          sb.getD (2 * (tree.nodes.getD n default).splitDimension + 1) none := by
  induction fuel with
  | zero =>
    intro tree n b e hi sb tree' sb' _ _ _ h
    exact absurd h (by simp [vl_kdtree_calc_bounds_recursively])
  | succ fuel ih =>
    intro tree n b e hi sb tree' sb' hmono hcov hreg h
    simp only [vl_kdtree_calc_bounds_recursively] at h
    cases hcov with
    | leaf n b e hi hn hhi hl hu hbe =>
      set node := tree.nodes.getD n default with hnode
      set treeA : VlKDTree :=
        { tree with
            nodes := tree.nodes.set n
              { node with
                  lowerBound := sb.getD (2 * node.splitDimension) none,
                  upperBound := sb.getD (2 * node.splitDimension + 1) none } } with htreeA
      have hAd : treeA.dataIndex = tree.dataIndex := by rw [htreeA]
      have hlenA : treeA.nodes.length = tree.nodes.length := by
        rw [htreeA]
        simp
      have hAn : treeA.nodes.getD n default =
          { node with
              lowerBound := sb.getD (2 * node.splitDimension) none,
              upperBound := sb.getD (2 * node.splitDimension + 1) none } := by
        rw [htreeA]
        exact getD_set_lt _ _ _ _ hn
      have hlcneg : ¬ 0 < node.lowerChild := by
        rw [hl]
        omega
      rw [if_neg hlcneg] at h
      dsimp only at h
      have hupneg : ¬ 0 < (treeA.nodes.getD n default).upperChild := by
        rw [hAn]
        dsimp only
        rw [hu]
        omega
      rw [if_neg hupneg] at h
      simp only [Option.some.injEq, Prod.mk.injEq] at h
      obtain ⟨hta, hsb⟩ := h
      subst hta
      subst hsb
      have hse : sliceIndices treeA b e = sliceIndices tree b e := by
        unfold sliceIndices
        rw [hAd]
      refine ⟨?_, ?_, ?_⟩
      · refine BoundsOK.leaf n b e hi (by rw [hlenA]; exact hn) hhi ?_ ?_ ?_
        · rw [hAn]
          dsimp only
          exact hl
        · rw [hAn]
          dsimp only
          exact hu
        · intro idx hidx
          rw [hse] at hidx
          rw [hAn]
          dsimp only
          exact hreg idx hidx node.splitDimension
      · rw [hAn]
      · rw [hAn]
    | node n b m e cl cu hi hn hncl hncu hl hu hbm hme hlow hup hclcov hcucov =>
      set node := tree.nodes.getD n default with hnode
      set treeA : VlKDTree :=
        { tree with
            nodes := tree.nodes.set n
              { node with
                  lowerBound := sb.getD (2 * node.splitDimension) none,
                  upperBound := sb.getD (2 * node.splitDimension + 1) none } } with htreeA
      have hstructA : SameStructure tree treeA := sameStructure_setBounds tree n _ _
      have hmonoA : ChildMono treeA := childMono_of_sameStructure hstructA hmono
      have hAd : treeA.dataIndex = tree.dataIndex := by rw [htreeA]
      have hlenA : treeA.nodes.length = tree.nodes.length := by
        rw [htreeA]
        simp
      have hAn : treeA.nodes.getD n default =
          { node with
              lowerBound := sb.getD (2 * node.splitDimension) none,
              upperBound := sb.getD (2 * node.splitDimension + 1) none } := by
        rw [htreeA]
        exact getD_set_lt _ _ _ _ hn
      have hlcpos : 0 < node.lowerChild := by
        rw [hl]
        omega
      have hcltoNat : node.lowerChild.toNat = cl := by
        rw [hl]
        simp
      rw [if_pos hlcpos] at h
      set L := vl_kdtree_calc_bounds_recursively fuel treeA node.lowerChild.toNat
          (sb.set (2 * node.splitDimension + 1) (some node.splitThreshold)) with hLdef
      clear_value L
      rcases L with _ | ⟨t1, s1⟩
      · exact absurd h (by simp)
      · dsimp only at h
        rw [hcltoNat] at hLdef
        obtain ⟨hss1, hfr1, hsb1⟩ :=
          calc_bounds_spec fuel treeA cl _ t1 s1 hmonoA hLdef.symm
        have ht1d : t1.dataIndex = tree.dataIndex := by
          rw [calc_bounds_dataIndex fuel treeA cl _ t1 s1 hLdef.symm, hAd]
        have ht1n : t1.nodes.getD n default = treeA.nodes.getD n default := hfr1 n hncl
        -- region validity for the lower-child call
        have hregL : RegionOK forest treeA b m
            (sb.set (2 * node.splitDimension + 1) (some node.splitThreshold)) := by
          intro idx hidx d
          have hseq : sliceIndices treeA b m = sliceIndices tree b m := by
            unfold sliceIndices
            rw [hAd]
          rw [hseq] at hidx
          have hidx' : idx ∈ sliceIndices tree b e :=
            mem_sliceIndices_of_le (le_refl b) hme hidx
          constructor
          · intro lo hlo
            rw [getD_set_cases] at hlo
            rw [if_neg (fun hc => by omega)] at hlo
            exact (hreg idx hidx' d).1 lo hlo
          · intro hb hhb
            rw [getD_set_cases] at hhb
            by_cases hdi : 2 * d + 1 = 2 * node.splitDimension + 1 ∧
                2 * node.splitDimension + 1 < sb.length
            · rw [if_pos hdi] at hhb
              have hd : d = node.splitDimension := by omega
              injection hhb with hbe2
              subst hbe2
              subst hd
              exact hlow idx hidx
            · rw [if_neg hdi] at hhb
              exact (hreg idx hidx' d).2 hb hhb
        have hcovL0 : Covers forest treeA cl b m cu :=
          covers_of_sameStructure forest hclcov hstructA hAd
        obtain ⟨hbokL, hlbL, hubL⟩ := ih treeA cl b m cu
          (sb.set (2 * node.splitDimension + 1) (some node.splitThreshold)) t1 s1
          hmonoA hcovL0 hregL hLdef.symm
        -- the restore step rebuilds the incoming array
        have hupt1 : (t1.nodes.getD n default).upperBound =
            sb.getD (2 * node.splitDimension + 1) none := by
          rw [ht1n, hAn]
        have hsb2 : s1.set (2 * node.splitDimension + 1)
            ((t1.nodes.getD n default).upperBound) = sb := by
          rw [hsb1, hupt1, List.set_set]
          exact set_getD_self _ _ _
        -- the upper-child phase
        have hupchild : (t1.nodes.getD n default).upperChild = (cu : ℤ) := by
          rw [ht1n, hAn]
          dsimp only
          exact hu
        have hupos : 0 < (t1.nodes.getD n default).upperChild := by
          rw [hupchild]
          omega
        have hcutoNat : (t1.nodes.getD n default).upperChild.toNat = cu := by
          rw [hupchild]
          simp
        rw [if_pos hupos] at h
        set L2 := vl_kdtree_calc_bounds_recursively fuel t1
            (t1.nodes.getD n default).upperChild.toNat
            ((s1.set (2 * node.splitDimension + 1)
                ((t1.nodes.getD n default).upperBound)).set
              (2 * node.splitDimension) (some node.splitThreshold)) with hUdef
        clear_value L2
        rcases L2 with _ | ⟨t3, s3⟩
        · exact absurd h (by simp)
        · dsimp only at h
          rw [hcutoNat, hsb2] at hUdef
          have hsstA1 : SameStructure tree t1 := sameStructure_trans hstructA hss1
          have hmono1 : ChildMono t1 := childMono_of_sameStructure hsstA1 hmono
          have hcovU1 : Covers forest t1 cu m e hi :=
            covers_of_sameStructure forest hcucov hsstA1 ht1d
          have hregU : RegionOK forest t1 m e
              (sb.set (2 * node.splitDimension) (some node.splitThreshold)) := by
            intro idx hidx d
            have hseq : sliceIndices t1 m e = sliceIndices tree m e := by
              unfold sliceIndices
              rw [ht1d]
            rw [hseq] at hidx
            have hidx' : idx ∈ sliceIndices tree b e :=
              mem_sliceIndices_of_le hbm (le_refl e) hidx
            constructor
            · intro lo hlo
              rw [getD_set_cases] at hlo
              by_cases hdi : 2 * d = 2 * node.splitDimension ∧
                  2 * node.splitDimension < sb.length
              · rw [if_pos hdi] at hlo
                have hd : d = node.splitDimension := by omega
                injection hlo with hbe2
                subst hbe2
                subst hd
                exact hup idx hidx
              · rw [if_neg hdi] at hlo
                exact (hreg idx hidx' d).1 lo hlo
            · intro hb hhb
              rw [getD_set_cases] at hhb
              rw [if_neg (fun hc => by omega)] at hhb
              exact (hreg idx hidx' d).2 hb hhb
          obtain ⟨hbokU, hlbU, hubU⟩ := ih t1 cu m e hi
            (sb.set (2 * node.splitDimension) (some node.splitThreshold)) t3 s3
            hmono1 hcovU1 hregU hUdef.symm
          obtain ⟨hss3, hfr3, hsb3⟩ :=
            calc_bounds_spec fuel t1 cu _ t3 s3 hmono1 hUdef.symm
          have ht3dU : t3.dataIndex = t1.dataIndex :=
            calc_bounds_dataIndex fuel t1 cu _ t3 s3 hUdef.symm
          have ht3d : t3.dataIndex = tree.dataIndex := by
            rw [ht3dU, ht1d]
          cases h
          have hfinn : tree'.nodes.getD n default = treeA.nodes.getD n default := by
            rw [hfr3 n (by omega), ht1n]
          have hcult : cu < hi := covers_lt hcucov
          have hcllt : cl < cu := covers_lt hclcov
          refine ⟨?_, ?_, ?_⟩
          · -- the bounds invariant at the final tree
            have hse : sliceIndices tree' b e = sliceIndices tree b e := by
              unfold sliceIndices
              rw [ht3d]
            refine BoundsOK.node n b m e cl cu hi ?_ hncl hncu ?_ ?_ hbm hme ?_ ?_ hbokU
            · rw [hss3.1, hss1.1, hlenA]
              exact hn
            · rw [hfinn, hAn]
              dsimp only
              exact hl
            · rw [hfinn, hAn]
              dsimp only
              exact hu
            · intro idx hidx
              rw [hse] at hidx
              rw [hfinn, hAn]
              dsimp only
              exact hreg idx hidx node.splitDimension
            · -- the lower child's invariant survives the upper-child phase
              refine boundsOK_stable forest hbokL (le_of_eq hss3.1.symm) ?_ ?_
              · intro j hj1 hj2
                exact hfr3 j (by omega)
              · intro p hp1 hp2
                rw [ht3dU]
          · rw [hfinn, hAn]
          · rw [hfinn, hAn]

/-- C2 (amended): after `vl_kdforest_build`, every node's `[lowerBound, upperBound]`
interval along its `splitDimension` (with `none` encoding `-∞` / `+∞`) contains —
but does not tightly bound — the `splitDimension` coordinates of all points
reachable through that node, and the root node's bounds are `-∞` and `+∞`
(the untouched slots of the initial all-infinite working array), not the global
minimum and maximum of the coordinate. -/
theorem C2_bounds_contain_reachable_coordinates (forest0 : VlKDForest) (rands : ℕ → ℕ)
    (fuel numData : ℕ) (data : List ℚ) (result : VlKDForest) (hU : numData < U64)
    (h : vl_kdforest_build forest0 rands fuel numData data = some result) :
    ∀ tree ∈ result.trees,
      BoundsOK result tree 0 0 numData tree.nodes.length ∧
      (tree.nodes.getD 0 default).lowerBound = none ∧
      (tree.nodes.getD 0 default).upperBound = none := by
  intro tree htree
  obtain ⟨hmain, hdata, hdim⟩ := forest_build_spec forest0 rands fuel numData data result hU h
  obtain ⟨pre, bp, sb', hrun⟩ := hmain tree htree
  have hmono : ChildMono pre :=
    childMono_of_forall_lt pre (fun j hj => bp.2.2.2.2.2.2.2 j (Nat.zero_le j) hj)
  have hcov := bp.2.2.2.2.2.1
  have hreg := regionOK_initial { forest0 with data := data, numData := numData } pre 0
    numData forest0.dimension
  obtain ⟨hbok, hlb, hub⟩ := calc_bounds_boundsOK
    { forest0 with data := data, numData := numData } fuel pre 0 0 numData
    pre.nodes.length (initialSearchBounds forest0.dimension) tree sb' hmono hcov hreg hrun
  have hlen : tree.nodes.length = pre.nodes.length :=
    (calc_bounds_spec fuel pre 0 (initialSearchBounds forest0.dimension) tree sb'
      hmono hrun).1.1
  have hdat : ∀ di d, datum result di d =
      datum { forest0 with data := data, numData := numData } di d := by
    intro di d
    unfold datum
    rw [hdata, hdim]
  refine ⟨?_, ?_, ?_⟩
  · rw [hlen]
    exact boundsOK_forest_congr hdat hbok
  · rw [hlb, show initialSearchBounds forest0.dimension =
      List.replicate (2 * forest0.dimension) none from rfl, getD_replicate_none]
  · rw [hub, show initialSearchBounds forest0.dimension =
      List.replicate (2 * forest0.dimension) none from rfl, getD_replicate_none]

/-- Witness for `C2_bounds_contain_reachable_coordinates`: the concrete two-point
build satisfies the amended bounds invariant, and its root's stored bounds are the
infinite ones. -/
theorem C2_bounds_contain_witness :
    2 < U64 ∧ (BoundsOK sampleForest (sampleForest.trees.getD 0 default) 0 0 2
        (sampleForest.trees.getD 0 default).nodes.length ∧
      ((sampleForest.trees.getD 0 default).nodes.getD 0 default).lowerBound = none ∧
      ((sampleForest.trees.getD 0 default).nodes.getD 0 default).upperBound = none) :=
  ⟨by decide,
    C2_bounds_contain_reachable_coordinates
      (vl_kdforest_new VlType.float 1 1 VlVectorComparisonType.distanceL1 0)
      (fun _ => 0) 10 2 [0, 10] sampleForest (by decide) (by with_unfolding_all decide)
      (sampleForest.trees.getD 0 default) (by decide)⟩

/-! ## Heap correctness (for claim C9) -/

/-- The binary min-heap property with respect to `lt`: no entry is `lt`-less than its
parent. -/
def IsHeap {α : Type} [Inhabited α] (lt : α → α → Bool) (l : List α) : Prop :=
  ∀ k, 0 < k → k < l.length →
    lt (l.getD k default) (l.getD ((k - 1) / 2) default) = false

theorem getD_lswap {α : Type} [Inhabited α] (l : List α) (i j k : ℕ)
    (hi : i < l.length) (hj : j < l.length) :
    (lswap l i j).getD k default =
      if k = i then l.getD j default
      else if k = j then l.getD i default
      else l.getD k default := by
  unfold lswap
  rw [getD_set_cases, getD_set_cases]
  simp only [List.length_set]
  by_cases hkj : k = j
  · rw [if_pos ⟨hkj, hj⟩]
    by_cases hki : k = i
    · rw [if_pos hki]
      rw [show i = j from by omega]
    · rw [if_neg hki, if_pos hkj]
  · rw [if_neg (fun hc => hkj hc.1)]
    by_cases hki : k = i
    · rw [if_pos ⟨hki, hi⟩, if_pos hki]
    · rw [if_neg (fun hc => hki hc.1), if_neg hki, if_neg hkj]

/-- `siftUp` establishes the heap property, given that the input satisfies it
everywhere except possibly on the edge from `j` to its parent, and that the children
of `j` (if any) are already no less than `j`'s parent. -/
theorem siftUp_isHeap {α : Type} [Inhabited α] (lt : α → α → Bool)
    (hasymm : ∀ a b, lt a b = true → lt b a = false)
    (htrans : ∀ a b c, lt a b = false → lt b c = false → lt a c = false)
    (htrans2 : ∀ a b c, lt a b = true → lt c b = false → lt c a = false) :
    ∀ (l : List α) (j : ℕ), j < l.length →
      (∀ k, 0 < k → k < l.length → k ≠ j →
        lt (l.getD k default) (l.getD ((k - 1) / 2) default) = false) →
      (0 < j → ∀ c, 0 < c → c < l.length → (c - 1) / 2 = j →
        lt (l.getD c default) (l.getD ((j - 1) / 2) default) = false) →
      IsHeap lt (siftUp lt l j) := by
  intro l j
  induction l, j using siftUp.induct lt with
  | case1 l =>
    intro _ h1 _
    rw [siftUp, dif_pos rfl]
    intro k hk1 hk2
    exact h1 k hk1 hk2 (by omega)
  | case2 l j hj0 hlt ih =>
    intro hjlen h1 h2
    rw [siftUp, dif_neg hj0, if_pos hlt]
    have hplen : (j - 1) / 2 < l.length := by omega
    apply ih
    · simp only [length_lswap]
      omega
    · intro k hk1 hk2 hkp
      simp only [length_lswap] at hk2
      rw [getD_lswap _ _ _ _ hjlen hplen, getD_lswap _ _ _ _ hjlen hplen]
      by_cases hkj : k = j
      · subst hkj
        rw [if_pos rfl, if_neg (by omega), if_pos rfl]
        exact hasymm _ _ hlt
      · rw [if_neg hkj]
        by_cases hparj : (k - 1) / 2 = j
        · rw [if_neg (by omega), if_pos hparj]
          exact h2 (by omega) k hk1 hk2 hparj
        · by_cases hparp : (k - 1) / 2 = (j - 1) / 2
          · rw [if_neg hkp, if_neg hparj, if_pos hparp]
            have e1 := h1 k hk1 hk2 hkj
            rw [hparp] at e1
            exact htrans2 _ _ _ hlt e1
          · rw [if_neg hkp, if_neg hparj, if_neg hparp]
            exact h1 k hk1 hk2 hkj
    · intro hp0 c hc1 hc2 hparc
      simp only [length_lswap] at hc2
      rw [getD_lswap _ _ _ _ hjlen hplen, getD_lswap _ _ _ _ hjlen hplen]
      rw [if_neg (show ¬ (((j - 1) / 2 - 1) / 2 = j) from by omega),
        if_neg (show ¬ (((j - 1) / 2 - 1) / 2 = (j - 1) / 2) from by omega)]
      by_cases hcj : c = j
      · rw [if_pos hcj]
        exact h1 ((j - 1) / 2) hp0 hplen (by omega)
      · rw [if_neg hcj, if_neg (by omega)]
        have e1 := h1 c hc1 hc2 hcj
        rw [hparc] at e1
        have e2 := h1 ((j - 1) / 2) hp0 hplen (by omega)
        exact htrans _ _ _ e1 e2
  | case3 l j hj0 hlt =>
    intro hjlen h1 h2
    rw [siftUp, dif_neg hj0, if_neg hlt]
    intro k hk1 hk2
    by_cases hkj : k = j
    · subst hkj
      simp only [Bool.not_eq_true] at hlt
      exact hlt
    · exact h1 k hk1 hk2 hkj

/-- `siftDown` establishes the heap property, given that the input satisfies it
everywhere except possibly on the edges from the children of `j` to `j`, and that
the children of `j` (if any) are already no less than `j`'s parent. -/
theorem siftDown_isHeap {α : Type} [Inhabited α] (lt : α → α → Bool)
    (hasymm : ∀ a b, lt a b = true → lt b a = false)
    (htrans : ∀ a b c, lt a b = false → lt b c = false → lt a c = false)
    (htrans2' : ∀ a b c, lt a b = true → lt a c = false → lt b c = false) :
    ∀ (l : List α) (j : ℕ),
      (∀ k, 0 < k → k < l.length → (k - 1) / 2 ≠ j →
        lt (l.getD k default) (l.getD ((k - 1) / 2) default) = false) →
      (0 < j → ∀ c, c < l.length → (c - 1) / 2 = j →
        lt (l.getD c default) (l.getD ((j - 1) / 2) default) = false) →
      IsHeap lt (siftDown lt l j) := by
  intro l j
  induction l, j using siftDown.induct lt with
  | case1 l j h1 h2 hlt ih =>
    rw [siftDown, dif_pos h1, dif_pos h2, if_pos hlt]
    intro hH1 hH2
    have hjlen : j < l.length := by omega
    have hclen : 2 * j + 2 < l.length := h2.1
    apply ih
    · intro k hk1 hk2 hkc
      simp only [length_lswap] at hk2
      rw [getD_lswap _ _ _ _ hjlen hclen, getD_lswap _ _ _ _ hjlen hclen]
      by_cases hkc2 : k = 2 * j + 2
      · subst hkc2
        rw [if_neg (by omega), if_pos rfl, if_pos (by omega)]
        exact hasymm _ _ hlt
      · by_cases hkj : k = j
        · rw [hkj]
          rw [if_pos rfl, if_neg (by omega), if_neg (by omega)]
          exact hH2 (by omega) (2 * j + 2) hclen (by omega)
        · rw [if_neg hkj, if_neg hkc2]
          by_cases hpj : (k - 1) / 2 = j
          · rw [if_pos hpj]
            have hk21 : k = 2 * j + 1 := by omega
            subst hk21
            exact hasymm _ _ h2.2
          · rw [if_neg hpj, if_neg hkc]
            exact hH1 k hk1 hk2 hpj
    · intro _ c hc2 hparc
      simp only [length_lswap] at hc2
      rw [getD_lswap _ _ _ _ hjlen hclen, getD_lswap _ _ _ _ hjlen hclen]
      rw [if_neg (by omega), if_neg (by omega), if_pos (by omega)]
      have e1 := hH1 c (by omega) hc2 (by omega)
      rw [hparc] at e1
      exact e1
  | case2 l j h1 h2 hlt =>
    rw [siftDown, dif_pos h1, dif_pos h2, if_neg hlt]
    intro hH1 hH2
    have hltf : lt (l.getD (2 * j + 2) default) (l.getD j default) = false := by
      simpa using hlt
    intro k hk1 hk2
    by_cases hpj : (k - 1) / 2 = j
    · rw [hpj]
      by_cases hk22 : k = 2 * j + 2
      · subst hk22
        exact hltf
      · have hk21 : k = 2 * j + 1 := by omega
        subst hk21
        exact htrans2' _ _ _ h2.2 hltf
    · exact hH1 k hk1 hk2 hpj
  | case3 l j h1 h2 hlt ih =>
    rw [siftDown, dif_pos h1, dif_neg h2, if_pos hlt]
    intro hH1 hH2
    have hjlen : j < l.length := by omega
    apply ih
    · intro k hk1 hk2 hkc
      simp only [length_lswap] at hk2
      rw [getD_lswap _ _ _ _ hjlen h1, getD_lswap _ _ _ _ hjlen h1]
      by_cases hkc1 : k = 2 * j + 1
      · subst hkc1
        rw [if_neg (by omega), if_pos rfl, if_pos (by omega)]
        exact hasymm _ _ hlt
      · by_cases hkj : k = j
        · rw [hkj]
          rw [if_pos rfl, if_neg (by omega), if_neg (by omega)]
          exact hH2 (by omega) (2 * j + 1) h1 (by omega)
        · rw [if_neg hkj, if_neg hkc1]
          by_cases hpj : (k - 1) / 2 = j
          · rw [if_pos hpj]
            have hk22 : k = 2 * j + 2 := by omega
            subst hk22
            have e : lt (l.getD (2 * j + 2) default) (l.getD (2 * j + 1) default) = false := by
              rcases Bool.eq_false_or_eq_true
                  (lt (l.getD (2 * j + 2) default) (l.getD (2 * j + 1) default)) with he | he
              · exact absurd ⟨hk2, he⟩ h2
              · exact he
            exact e
          · rw [if_neg hpj, if_neg hkc]
            exact hH1 k hk1 hk2 hpj
    · intro _ c hc2 hparc
      simp only [length_lswap] at hc2
      rw [getD_lswap _ _ _ _ hjlen h1, getD_lswap _ _ _ _ hjlen h1]
      rw [if_neg (by omega), if_neg (by omega), if_pos (by omega)]
      have e1 := hH1 c (by omega) hc2 (by omega)
      rw [hparc] at e1
      exact e1
  | case4 l j h1 h2 hlt =>
    rw [siftDown, dif_pos h1, dif_neg h2, if_neg hlt]
    intro hH1 hH2
    have hltf : lt (l.getD (2 * j + 1) default) (l.getD j default) = false := by
      simpa using hlt
    intro k hk1 hk2
    by_cases hpj : (k - 1) / 2 = j
    · rw [hpj]
      by_cases hk21 : k = 2 * j + 1
      · subst hk21
        exact hltf
      · have hk22 : k = 2 * j + 2 := by omega
        subst hk22
        have e : lt (l.getD (2 * j + 2) default) (l.getD (2 * j + 1) default) = false := by
          rcases Bool.eq_false_or_eq_true
              (lt (l.getD (2 * j + 2) default) (l.getD (2 * j + 1) default)) with he | he
          · exact absurd ⟨hk2, he⟩ h2
          · exact he
        exact htrans _ _ _ e hltf
    · exact hH1 k hk1 hk2 hpj
  | case5 l j h1 =>
    rw [siftDown, dif_neg h1]
    intro hH1 hH2
    intro k hk1 hk2
    by_cases hpj : (k - 1) / 2 = j
    · exact absurd hk2 (by omega)
    · exact hH1 k hk1 hk2 hpj

theorem getD_take {α : Type} [Inhabited α] (l : List α) (n k : ℕ) (h : k < n) :
    (l.take n).getD k default = l.getD k default := by
  rw [List.getD_eq_getElem?_getD, List.getD_eq_getElem?_getD, List.getElem?_take,
    if_pos h]

/-- Pushing onto a heap yields a heap. -/
theorem heapPush_isHeap {α : Type} [Inhabited α] (lt : α → α → Bool)
    (hasymm : ∀ a b, lt a b = true → lt b a = false)
    (htrans : ∀ a b c, lt a b = false → lt b c = false → lt a c = false)
    (htrans2 : ∀ a b c, lt a b = true → lt c b = false → lt c a = false)
    (l : List α) (x : α) (hheap : IsHeap lt l) : IsHeap lt (heapPush lt l x) := by
  unfold heapPush
  apply siftUp_isHeap lt hasymm htrans htrans2
  · simp
  · intro k hk1 hk2 hkj
    simp only [List.length_append, List.length_singleton] at hk2
    rw [getD_append_lt _ _ _ _ (by omega), getD_append_lt _ _ _ _ (by omega)]
    exact hheap k hk1 (by omega)
  · intro hj0 c hc1 hc2 hparc
    exfalso
    simp only [List.length_append, List.length_singleton] at hc2
    omega

/-- Popping the root off a heap leaves a heap. -/
theorem heapPopRest_isHeap {α : Type} [Inhabited α] (lt : α → α → Bool)
    (hasymm : ∀ a b, lt a b = true → lt b a = false)
    (htrans : ∀ a b c, lt a b = false → lt b c = false → lt a c = false)
    (htrans2' : ∀ a b c, lt a b = true → lt a c = false → lt b c = false)
    (l : List α) (hheap : IsHeap lt l) : IsHeap lt (heapPopRest lt l) := by
  unfold heapPopRest
  apply siftDown_isHeap lt hasymm htrans htrans2'
  · intro k hk1 hk2 hkj
    rw [List.length_take, length_lswap] at hk2
    have hk2' : k < l.length - 1 := by omega
    have hlen : 0 < l.length := by omega
    rw [getD_take _ _ _ hk2', getD_take _ _ _ (by omega),
      getD_lswap _ _ _ _ hlen (by omega), getD_lswap _ _ _ _ hlen (by omega)]
    rw [if_neg (by omega), if_neg (by omega), if_neg hkj, if_neg (by omega)]
    exact hheap k hk1 (by omega)
  · intro hj0
    exact absurd hj0 (by omega)

/-- Replacing the root of a heap and re-sifting (`vl_heap_update` at position `0`)
yields a heap. -/
theorem heapUpdate_root_isHeap {α : Type} [Inhabited α] (lt : α → α → Bool)
    (hasymm : ∀ a b, lt a b = true → lt b a = false)
    (htrans : ∀ a b c, lt a b = false → lt b c = false → lt a c = false)
    (htrans2' : ∀ a b c, lt a b = true → lt a c = false → lt b c = false)
    (l : List α) (x : α) (hheap : IsHeap lt l) :
    IsHeap lt (heapUpdate lt (l.set 0 x) 0) := by
  unfold heapUpdate
  rw [if_neg (by simp)]
  apply siftDown_isHeap lt hasymm htrans htrans2'
  · intro k hk1 hk2 hkj
    simp only [List.length_set] at hk2
    rw [getD_set_ne _ _ _ _ _ (by omega), getD_set_ne _ _ _ _ _ (by omega)]
    exact hheap k hk1 hk2
  · intro hj0
    exact absurd hj0 (by omega)

/-- The root of a heap is `lt`-minimal among all entries. -/
theorem heapRoot_min {α : Type} [Inhabited α] (lt : α → α → Bool)
    (htrans : ∀ a b c, lt a b = false → lt b c = false → lt a c = false)
    (hirrefl : ∀ a, lt a a = false)
    {l : List α} (hheap : IsHeap lt l) :
    ∀ k, k < l.length → lt (l.getD k default) (l.getD 0 default) = false := by
  intro k
  induction k using Nat.strong_induction_on with
  | _ k ih =>
    intro hk
    rcases Nat.eq_zero_or_pos k with hk0 | hk0
    · subst hk0
      exact hirrefl _
    · exact htrans _ _ _ (hheap k hk0 hk) (ih ((k - 1) / 2) (by omega) (by omega))

theorem mem_lswap {α : Type} [Inhabited α] {l : List α} {i j : ℕ}
    (hi : i < l.length) (hj : j < l.length) {x : α} (h : x ∈ lswap l i j) : x ∈ l := by
  unfold lswap at h
  rcases List.mem_or_eq_of_mem_set h with h2 | h2
  · rcases List.mem_or_eq_of_mem_set h2 with h3 | h3
    · exact h3
    · subst h3
      exact getD_mem_of_lt l j hj
  · subst h2
    exact getD_mem_of_lt l i hi

theorem mem_siftUp {α : Type} [Inhabited α] (lt : α → α → Bool) :
    ∀ (l : List α) (j : ℕ), j < l.length → ∀ x ∈ siftUp lt l j, x ∈ l := by
  intro l j
  induction l, j using siftUp.induct lt with
  | case1 l =>
    intro _ x hx
    rw [siftUp, dif_pos rfl] at hx
    exact hx
  | case2 l j hj0 hlt ih =>
    intro hjl x hx
    rw [siftUp, dif_neg hj0, if_pos hlt] at hx
    have hplen : (j - 1) / 2 < l.length := by omega
    have h2 := ih (by simp only [length_lswap]; omega) x hx
    exact mem_lswap hjl hplen h2
  | case3 l j hj0 hlt =>
    intro _ x hx
    rw [siftUp, dif_neg hj0, if_neg hlt] at hx
    exact hx

theorem mem_siftDown {α : Type} [Inhabited α] (lt : α → α → Bool) :
    ∀ (l : List α) (j : ℕ), ∀ x ∈ siftDown lt l j, x ∈ l := by
  intro l j
  induction l, j using siftDown.induct lt with
  | case1 l j h1 h2 hlt ih =>
    intro x hx
    rw [siftDown, dif_pos h1, dif_pos h2, if_pos hlt] at hx
    exact mem_lswap (by omega) h2.1 (ih x hx)
  | case2 l j h1 h2 hlt =>
    intro x hx
    rw [siftDown, dif_pos h1, dif_pos h2, if_neg hlt] at hx
    exact hx
  | case3 l j h1 h2 hlt ih =>
    intro x hx
    rw [siftDown, dif_pos h1, dif_neg h2, if_pos hlt] at hx
    exact mem_lswap (by omega) h1 (ih x hx)
  | case4 l j h1 h2 hlt =>
    intro x hx
    rw [siftDown, dif_pos h1, dif_neg h2, if_neg hlt] at hx
    exact hx
  | case5 l j h1 =>
    intro x hx
    rw [siftDown, dif_neg h1] at hx
    exact hx

theorem mem_heapPopRest {α : Type} [Inhabited α] (lt : α → α → Bool) {l : List α} {x : α}
    (h : x ∈ heapPopRest lt l) (hlen : 0 < l.length) : x ∈ l := by
  unfold heapPopRest at h
  have h2 := mem_siftDown lt _ _ x h
  have h3 := List.mem_of_mem_take h2
  exact mem_lswap (by omega) (by omega) h3

theorem mem_heapDrain {α : Type} [Inhabited α] (lt : α → α → Bool) :
    ∀ (l : List α), ∀ x ∈ heapDrain lt l, x ∈ l := by
  intro l
  induction l using heapDrain.induct lt with
  | case1 l h =>
    intro x hx
    rw [heapDrain, dif_pos h] at hx
    cases hx
  | case2 l h ih =>
    intro x hx
    rw [heapDrain, dif_neg h] at hx
    rcases List.mem_append.mp hx with hx | hx
    · exact mem_heapPopRest lt (ih x hx) (by omega)
    · rw [List.mem_singleton] at hx
      subst hx
      exact getD_mem_of_lt l 0 (by omega)

/-- Draining a heap yields a list that is ascending with respect to `lt`: no earlier
entry is `lt`-less than a later one (for the neighbor heap, whose root is the worst
accepted neighbor, this means distances come out ascending). -/
theorem heapDrain_pairwise {α : Type} [Inhabited α] (lt : α → α → Bool)
    (hasymm : ∀ a b, lt a b = true → lt b a = false)
    (htrans : ∀ a b c, lt a b = false → lt b c = false → lt a c = false)
    (htrans2' : ∀ a b c, lt a b = true → lt a c = false → lt b c = false)
    (hirrefl : ∀ a, lt a a = false) :
    ∀ (l : List α), IsHeap lt l →
      List.Pairwise (fun a b => lt a b = false) (heapDrain lt l) := by
  intro l
  induction l using heapDrain.induct lt with
  | case1 l h =>
    intro _
    rw [heapDrain, dif_pos h]
    exact List.Pairwise.nil
  | case2 l h ih =>
    intro hheap
    rw [heapDrain, dif_neg h]
    apply List.pairwise_append.mpr
    refine ⟨ih (heapPopRest_isHeap lt hasymm htrans htrans2' l hheap), by simp, ?_⟩
    intro x hx y hy
    rw [List.mem_singleton] at hy
    subst hy
    have hxl : x ∈ l := mem_heapPopRest lt (mem_heapDrain lt _ x hx) (by omega)
    obtain ⟨k, hk, hkx⟩ := List.getElem_of_mem hxl
    have hmin := heapRoot_min lt htrans hirrefl hheap k hk
    have hgd : l.getD k default = x := by
      rw [List.getD_eq_getElem?_getD, List.getElem?_eq_getElem hk, Option.getD_some, hkx]
    rw [hgd] at hmin
    exact hmin

@[simp] theorem length_heapUpdate {α : Type} [Inhabited α] (lt : α → α → Bool)
    (l : List α) (j : ℕ) : (heapUpdate lt l j).length = l.length := by
  unfold heapUpdate
  split_ifs <;> simp

theorem neighborLt_asymm : ∀ a b, neighborLt a b = true → neighborLt b a = false := by
  intro a b h
  simp only [neighborLt, decide_eq_true_eq] at h
  simp only [neighborLt, decide_eq_false_iff_not]
  linarith

theorem neighborLt_trans :
    ∀ a b c, neighborLt a b = false → neighborLt b c = false → neighborLt a c = false := by
  intro a b c h1 h2
  simp only [neighborLt, decide_eq_false_iff_not] at h1 h2 ⊢
  intro h3
  exact h1 (by linarith [le_of_not_lt h2])

theorem neighborLt_trans2 :
    ∀ a b c, neighborLt a b = true → neighborLt c b = false → neighborLt c a = false := by
  intro a b c h1 h2
  simp only [neighborLt, decide_eq_true_eq] at h1
  simp only [neighborLt, decide_eq_false_iff_not] at h2 ⊢
  intro h3
  exact h2 (by linarith)

theorem neighborLt_trans2' :
    ∀ a b c, neighborLt a b = true → neighborLt a c = false → neighborLt b c = false := by
  intro a b c h1 h2
  simp only [neighborLt, decide_eq_true_eq] at h1
  simp only [neighborLt, decide_eq_false_iff_not] at h2 ⊢
  intro h3
  exact h2 (by linarith)

theorem neighborLt_irrefl : ∀ a, neighborLt a a = false := by
  intro a
  simp only [neighborLt, decide_eq_false_iff_not]
  exact lt_irrefl _

/-- The visited-book invariant of claim C6: the ghost log of indices passed to the
distance primitive has no duplicates, the comparison counter equals its length, and
the book marks exactly the logged indices with the current `searchId`. -/
def BookInv (booklen : ℕ) (s : VlKDForestSearcher) : Prop :=
  s.searchIdBook.length = booklen ∧
  0 < s.searchId ∧
  s.comparedLog.Nodup ∧
  s.searchNumComparisons = s.comparedLog.length ∧
  ∀ di : ℕ, (s.searchIdBook.getD di 0 = s.searchId ↔ di ∈ s.comparedLog)

/-- The neighbor-collection invariant of claim C9: the collected list is a max-heap
on distance and never exceeds the requested `numNeighbors`. -/
def NbInv (numNeighbors : ℕ) (nb : List VlKDForestNeighbor) : Prop :=
  IsHeap neighborLt nb ∧ nb.length ≤ numNeighbors

/-- The combined searcher/neighbor invariant threaded through one query. -/
def QueryInv (booklen numNeighbors : ℕ) (s : VlKDForestSearcher)
    (nb : List VlKDForestNeighbor) : Prop :=
  BookInv booklen s ∧ NbInv numNeighbors nb

/-- Marking a fresh index in the book pushes it to the log and keeps the invariant. -/
theorem bookInv_mark (booklen : ℕ) (s : VlKDForestSearcher) (di : ℕ)
    (hinv : BookInv booklen s) (hdi : di < booklen)
    (hmiss : ¬ s.searchIdBook.getD di 0 = s.searchId) :
    BookInv booklen { s with
      searchIdBook := s.searchIdBook.set di s.searchId,
      searchNumComparisons := s.searchNumComparisons + 1,
      comparedLog := s.comparedLog ++ [di] } := by
  obtain ⟨hlen, hsid, hnd, hcnt, hiff⟩ := hinv
  have hnotmem : di ∉ s.comparedLog := fun hm => hmiss ((hiff di).mpr hm)
  refine ⟨by simp [hlen], hsid, ?_, ?_, ?_⟩
  · simp [List.nodup_append, hnd, hnotmem]
  · simp [hcnt]
  · intro dj
    dsimp only
    by_cases hdj : dj = di
    · subst hdj
      rw [getD_set_cases, if_pos ⟨rfl, by omega⟩]
      simp
    · rw [getD_set_cases, if_neg (fun hc => hdj hc.1), List.mem_append]
      constructor
      · intro hh
        exact Or.inl ((hiff dj).mp hh)
      · intro hh
        rcases hh with hh | hh
        · exact (hiff dj).mpr hh
        · rw [List.mem_singleton] at hh
          exact absurd hh hdj

/-- One leaf-loop step preserves the combined invariant. -/
theorem leafStep_queryInv (forest : VlKDForest) (tree : VlKDTree) (query : List ℚ)
    (numNeighbors iter booklen : ℕ) (s : VlKDForestSearcher)
    (neighbors : List VlKDForestNeighbor)
    (hdi : (tree.dataIndex.getD iter default).index < booklen)
    (hinv : QueryInv booklen numNeighbors s neighbors) :
    QueryInv booklen numNeighbors
      (leafStep forest tree query numNeighbors iter s neighbors).1
      (leafStep forest tree query numNeighbors iter s neighbors).2 := by
  obtain ⟨hbook, hnb⟩ := hinv
  unfold leafStep
  dsimp only
  split_ifs with h1 h2 h3
  · exact ⟨hbook, hnb⟩
  · refine ⟨bookInv_mark booklen s _ hbook hdi h1, ?_, ?_⟩
    · exact heapPush_isHeap neighborLt neighborLt_asymm neighborLt_trans neighborLt_trans2
        _ _ hnb.1
    · simp only [length_heapPush]
      omega
  · refine ⟨bookInv_mark booklen s _ hbook hdi h1, ?_, ?_⟩
    · exact heapUpdate_root_isHeap neighborLt neighborLt_asymm neighborLt_trans
        neighborLt_trans2' _ _ hnb.1
    · simp only [length_heapUpdate, List.length_set]
      exact hnb.2
  · exact ⟨bookInv_mark booklen s _ hbook hdi h1, hnb⟩

/-- The leaf loop preserves the combined invariant. -/
theorem leafLoop_queryInv (forest : VlKDForest) (tree : VlKDTree) (query : List ℚ)
    (numNeighbors booklen : ℕ)
    (hdi : ∀ it, (tree.dataIndex.getD it default).index < booklen) :
    ∀ (remaining iter : ℕ) (s : VlKDForestSearcher) (nb : List VlKDForestNeighbor),
      QueryInv booklen numNeighbors s nb →
      QueryInv booklen numNeighbors
        (leafLoop forest tree query numNeighbors remaining iter (s, nb)).1
        (leafLoop forest tree query numNeighbors remaining iter (s, nb)).2 := by
  intro remaining
  induction remaining with
  | zero =>
    intro iter s nb hinv
    rw [leafLoop]
    exact hinv
  | succ r ihr =>
    intro iter s nb hinv
    rw [leafLoop]
    by_cases hc : forest.searchMaxNumComparisons = 0 ∨
        s.searchNumComparisons < forest.searchMaxNumComparisons
    · rw [if_pos hc]
      exact ihr (iter + 1) (leafStep forest tree query numNeighbors iter s nb).1
        (leafStep forest tree query numNeighbors iter s nb).2
        (leafStep_queryInv forest tree query numNeighbors iter booklen s nb (hdi iter) hinv)
    · rw [if_neg hc]
      exact hinv

/-- The query recursion preserves the combined invariant. -/
theorem queryRec_queryInv (forest : VlKDForest) (query : List ℚ)
    (numNeighbors booklen : ℕ)
    (hwf : ∀ ti p : ℕ, ((forest.trees.getD ti default).dataIndex.getD p default).index <
      booklen) :
    ∀ (fuel ti ni : ℕ) (dist : ℚ) (s : VlKDForestSearcher)
      (nb : List VlKDForestNeighbor) (s' : VlKDForestSearcher)
      (nb' : List VlKDForestNeighbor),
      vl_kdforest_query_recursively forest query numNeighbors fuel ti ni dist (s, nb) =
        some (s', nb') →
      QueryInv booklen numNeighbors s nb → QueryInv booklen numNeighbors s' nb' := by
  intro fuel
  induction fuel with
  | zero =>
    intro ti ni dist s nb s' nb' h _
    exact absurd h (by simp [vl_kdforest_query_recursively])
  | succ fuel ih =>
    intro ti ni dist s nb s' nb' h hinv
    rw [vl_kdforest_query_recursively] at h
    dsimp only at h
    by_cases hleaf : ((forest.trees.getD ti default).nodes.getD ni default).lowerChild < 0
    · rw [if_pos hleaf] at h
      simp only [Option.some.injEq] at h
      have h1 := congrArg Prod.fst h
      have h2 := congrArg Prod.snd h
      dsimp only at h1 h2
      rw [← h1, ← h2]
      exact leafLoop_queryInv forest _ query numNeighbors booklen (hwf ti) _ _ _ _ hinv
    · rw [if_neg hleaf] at h
      refine ih _ _ _ _ _ _ _ h ?_
      refine ⟨?_, hinv.2⟩
      split_ifs <;> exact hinv.1

/-- The branch-and-bound loop preserves the combined invariant. -/
theorem queryLoop_queryInv (forest : VlKDForest) (query : List ℚ)
    (numNeighbors recFuel booklen : ℕ)
    (hwf : ∀ ti p : ℕ, ((forest.trees.getD ti default).dataIndex.getD p default).index <
      booklen) :
    ∀ (fuel : ℕ) (s : VlKDForestSearcher) (nb : List VlKDForestNeighbor)
      (s' : VlKDForestSearcher) (nb' : List VlKDForestNeighbor),
      vl_kdforest_query_loop forest query numNeighbors recFuel fuel (s, nb) =
        some (s', nb') →
      QueryInv booklen numNeighbors s nb → QueryInv booklen numNeighbors s' nb' := by
  intro fuel
  induction fuel with
  | zero =>
    intro s nb s' nb' h _
    exact absurd h (by simp [vl_kdforest_query_loop])
  | succ fuel ih =>
    intro s nb s' nb' h hinv
    rw [vl_kdforest_query_loop] at h
    by_cases h1 : ¬ (forest.searchMaxNumComparisons = 0 ∨
        s.searchNumComparisons < forest.searchMaxNumComparisons)
    · rw [if_pos h1] at h
      simp only [Option.some.injEq, Prod.mk.injEq] at h
      obtain ⟨h2, h3⟩ := h
      subst h2
      subst h3
      exact hinv
    · rw [if_neg h1] at h
      by_cases h2 : s.searchHeap.length = 0
      · rw [if_pos h2] at h
        simp only [Option.some.injEq, Prod.mk.injEq] at h
        obtain ⟨h3, h4⟩ := h
        subst h3
        subst h4
        exact hinv
      · rw [if_neg h2] at h
        dsimp only at h
        by_cases h3 : nb.length = numNeighbors ∧
            (nb.getD 0 default).distance < (s.searchHeap.getD 0 default).distanceLowerBound
        · rw [if_pos h3] at h
          simp only [Option.some.injEq, Prod.mk.injEq] at h
          obtain ⟨h4, h5⟩ := h
          subst h5
          rw [← h4]
          exact ⟨hinv.1, hinv.2⟩
        · rw [if_neg h3] at h
          set R := vl_kdforest_query_recursively forest query numNeighbors recFuel
              (s.searchHeap.getD 0 default).treeIndex
              (s.searchHeap.getD 0 default).nodeIndex
              (s.searchHeap.getD 0 default).distanceLowerBound
              ({ s with searchHeap := heapPopRest searchStateLt s.searchHeap }, nb) with hR
          clear_value R
          rcases R with _ | ⟨s1, nb1⟩
          · exact Option.noConfusion h
          · dsimp only at h
            have hinv1 : QueryInv booklen numNeighbors s1 nb1 :=
              queryRec_queryInv forest query numNeighbors booklen hwf recFuel _ _ _ _ _ _ _
                hR.symm ⟨hinv.1, hinv.2⟩
            exact ih s1 nb1 s' nb' h hinv1

/-- C6: within a single `vl_kdforest_query` call, every point index is passed to the
distance primitive (and counted in `searchNumComparisons`) at most once across all
trees of the forest: the ghost log of compared indices ends up duplicate-free and the
returned comparison counter equals its length.  The hypotheses state the searcher
book's well-formedness the C code maintains: the book spans all point indices and no
book entry exceeds the current `searchId`. -/
theorem C6_each_point_compared_at_most_once (forest : VlKDForest) (query : List ℚ)
    (numNeighbors loopFuel recFuel : ℕ) (s s1 : VlKDForestSearcher)
    (neighbors : List VlKDForestNeighbor) (out : List VlKDForestNeighborOut) (ret : ℕ)
    (hwf1 : ∀ tree ∈ forest.trees, ∀ en ∈ tree.dataIndex,
      en.index < s.searchIdBook.length)
    (hwf2 : 0 < s.searchIdBook.length)
    (hbook : ∀ v ∈ s.searchIdBook, v ≤ s.searchId)
    (h : vl_kdforest_query_full forest query numNeighbors loopFuel recFuel s =
      some (s1, neighbors, out, ret)) :
    s1.comparedLog.Nodup ∧ s1.searchNumComparisons = s1.comparedLog.length := by
  have hwfD : ∀ ti p : ℕ,
      ((forest.trees.getD ti default).dataIndex.getD p default).index <
        s.searchIdBook.length := by
    intro ti p
    by_cases hti : ti < forest.trees.length
    · by_cases hp : p < (forest.trees.getD ti default).dataIndex.length
      · exact hwf1 _ (getD_mem_of_lt _ _ hti) _ (getD_mem_of_lt _ _ hp)
      · rw [getD_of_length_le (forest.trees.getD ti default).dataIndex p default (by omega)]
        exact hwf2
    · rw [getD_of_length_le forest.trees ti default (by omega)]
      rw [show (default : VlKDTree).dataIndex = [] from rfl]
      rw [getD_of_length_le ([] : List VlKDTreeDataIndexEntry) p default (by simp)]
      exact hwf2
  have hbookD : ∀ di, s.searchIdBook.getD di 0 ≤ s.searchId := by
    intro di
    by_cases hdi : di < s.searchIdBook.length
    · exact hbook _ (getD_mem_of_lt _ _ hdi)
    · rw [getD_of_length_le _ _ _ (by omega)]
      exact Nat.zero_le _
  rw [vl_kdforest_query_full] at h
  dsimp only at h
  set L := vl_kdforest_query_loop forest query numNeighbors recFuel loopFuel
      ({ s with
          searchId := s.searchId + 1,
          searchNumRecursions := 0,
          searchNumComparisons := 0,
          searchNumSimplifications := 0,
          comparedLog := [],
          searchHeap := seedSearchHeap forest.numTrees }, []) with hL
  clear_value L
  rcases L with _ | ⟨s1', nb1⟩
  · exact Option.noConfusion h
  · dsimp only at h
    simp only [Option.some.injEq, Prod.mk.injEq] at h
    obtain ⟨hs1, hnb, hout, hret⟩ := h
    subst hs1
    have hinv0 : QueryInv s.searchIdBook.length numNeighbors
        { s with
            searchId := s.searchId + 1,
            searchNumRecursions := 0,
            searchNumComparisons := 0,
            searchNumSimplifications := 0,
            comparedLog := [],
            searchHeap := seedSearchHeap forest.numTrees } [] := by
      refine ⟨⟨rfl, by dsimp only; omega, List.nodup_nil, rfl, ?_⟩,
        fun k hk1 hk2 => absurd hk2 (by simp), Nat.zero_le _⟩
      intro di
      dsimp only
      constructor
      · intro hh
        exact absurd hh (by have := hbookD di; omega)
      · intro hh
        exact absurd hh (by simp)
    have hfin := queryLoop_queryInv forest query numNeighbors recFuel
      s.searchIdBook.length hwfD loopFuel _ [] s1' nb1 hL.symm hinv0
    exact ⟨hfin.1.2.2.1, hfin.1.2.2.2.1⟩

/-- The searcher state after the concrete sample query (data `{0, 10}`, query `[4]`,
`k = 1`): one point compared, logged once. -/
def sampleQuerySearcher : VlKDForestSearcher :=
  { searchIdBook := [0, 1]
    searchId := 1
    searchNumComparisons := 1
    searchNumRecursions := 2
    searchNumSimplifications := 1
    searchHeap := []
    comparedLog := [1] }

/-- Witness for `C6_each_point_compared_at_most_once`: on the concrete sample query
the ghost comparison log is duplicate-free and matches the counter. -/
theorem C6_each_point_compared_witness :
    sampleQuerySearcher.comparedLog.Nodup ∧
    sampleQuerySearcher.searchNumComparisons = sampleQuerySearcher.comparedLog.length :=
  C6_each_point_compared_at_most_once sampleForest [4] 1 20 20 sampleSearcher
    sampleQuerySearcher [{ index := 1, distance := 6 }]
    [{ index := 1, distance := some 6 }] 1
    (by decide) (by decide) (by decide) (by with_unfolding_all decide)

/-- C9: `vl_kdforest_query` fills the caller's `numNeighbors`-slot buffer in
ascending distance order, writes the sentinel record (`index = -1`,
`distance = NaN`, modelled as `none`) into every trailing slot beyond the collected
neighbors, and returns the number of full-vector distance comparisons performed
during the query. -/
theorem C9_output_ascending_with_sentinels_and_count (forest : VlKDForest)
    (query : List ℚ) (numNeighbors loopFuel recFuel : ℕ) (s s1 : VlKDForestSearcher)
    (neighbors : List VlKDForestNeighbor) (out : List VlKDForestNeighborOut) (ret : ℕ)
    (hwf1 : ∀ tree ∈ forest.trees, ∀ en ∈ tree.dataIndex,
      en.index < s.searchIdBook.length)
    (hwf2 : 0 < s.searchIdBook.length)
    (hbook : ∀ v ∈ s.searchIdBook, v ≤ s.searchId)
    (h : vl_kdforest_query_full forest query numNeighbors loopFuel recFuel s =
      some (s1, neighbors, out, ret)) :
    neighbors.length ≤ numNeighbors ∧
    out.length = numNeighbors ∧
    List.Pairwise (fun a b => ∀ da db, a.distance = some da → b.distance = some db →
      da ≤ db) out ∧
    (∀ i, neighbors.length ≤ i → i < numNeighbors →
      out.getD i default = { index := -1, distance := none }) ∧
    ret = s1.searchNumComparisons ∧
    s1.searchNumComparisons = s1.comparedLog.length := by
  have hwfD : ∀ ti p : ℕ,
      ((forest.trees.getD ti default).dataIndex.getD p default).index <
        s.searchIdBook.length := by
    intro ti p
    by_cases hti : ti < forest.trees.length
    · by_cases hp : p < (forest.trees.getD ti default).dataIndex.length
      · exact hwf1 _ (getD_mem_of_lt _ _ hti) _ (getD_mem_of_lt _ _ hp)
      · rw [getD_of_length_le (forest.trees.getD ti default).dataIndex p default (by omega)]
        exact hwf2
    · rw [getD_of_length_le forest.trees ti default (by omega)]
      rw [show (default : VlKDTree).dataIndex = [] from rfl]
      rw [getD_of_length_le ([] : List VlKDTreeDataIndexEntry) p default (by simp)]
      exact hwf2
  have hbookD : ∀ di, s.searchIdBook.getD di 0 ≤ s.searchId := by
    intro di
    by_cases hdi : di < s.searchIdBook.length
    · exact hbook _ (getD_mem_of_lt _ _ hdi)
    · rw [getD_of_length_le _ _ _ (by omega)]
      exact Nat.zero_le _
  rw [vl_kdforest_query_full] at h
  dsimp only at h
  set L := vl_kdforest_query_loop forest query numNeighbors recFuel loopFuel
      ({ s with
          searchId := s.searchId + 1,
          searchNumRecursions := 0,
          searchNumComparisons := 0,
          searchNumSimplifications := 0,
          comparedLog := [],
          searchHeap := seedSearchHeap forest.numTrees }, []) with hL
  clear_value L
  rcases L with _ | ⟨s1', nb1⟩
  · exact Option.noConfusion h
  · dsimp only at h
    simp only [Option.some.injEq, Prod.mk.injEq] at h
    obtain ⟨hs1, hnb, hout, hret⟩ := h
    subst hs1
    subst hnb
    subst hout
    subst hret
    have hinv0 : QueryInv s.searchIdBook.length numNeighbors
        { s with
            searchId := s.searchId + 1,
            searchNumRecursions := 0,
            searchNumComparisons := 0,
            searchNumSimplifications := 0,
            comparedLog := [],
            searchHeap := seedSearchHeap forest.numTrees } [] := by
      refine ⟨⟨rfl, by dsimp only; omega, List.nodup_nil, rfl, ?_⟩,
        fun k hk1 hk2 => absurd hk2 (by simp), Nat.zero_le _⟩
      intro di
      dsimp only
      constructor
      · intro hh
        exact absurd hh (by have := hbookD di; omega)
      · intro hh
        exact absurd hh (by simp)
    have hfin := queryLoop_queryInv forest query numNeighbors recFuel
      s.searchIdBook.length hwfD loopFuel _ [] s1' nb1 hL.symm hinv0
    have hheap : IsHeap neighborLt nb1 := hfin.2.1
    have hlen : nb1.length ≤ numNeighbors := hfin.2.2
    have hplen : ((heapDrain neighborLt nb1).map
        (fun nb => ({ index := (nb.index : ℤ), distance := some nb.distance } :
          VlKDForestNeighborOut))).length = nb1.length := by
      simp
    refine ⟨hlen, ?_, ?_, ?_, rfl, hfin.1.2.2.2.1⟩
    · simp only [List.length_append, List.length_map, length_heapDrain,
        List.length_replicate]
      omega
    · -- ascending by distance
      have hpw := heapDrain_pairwise neighborLt neighborLt_asymm neighborLt_trans
        neighborLt_trans2' neighborLt_irrefl nb1 hheap
      apply List.pairwise_append.mpr
      refine ⟨?_, ?_, ?_⟩
      · refine List.Pairwise.map _ ?_ hpw
        intro a b hab da db hda hdb
        dsimp only at hda hdb
        injection hda with hda
        injection hdb with hdb
        simp only [neighborLt, decide_eq_false_iff_not] at hab
        subst hda
        subst hdb
        exact le_of_not_lt hab
      · have hrep : ∀ n : ℕ, List.Pairwise
            (fun (a b : VlKDForestNeighborOut) => ∀ da db, a.distance = some da →
              b.distance = some db → da ≤ db)
            (List.replicate n ({ index := -1, distance := none } :
              VlKDForestNeighborOut)) := by
          intro n
          induction n with
          | zero => exact List.Pairwise.nil
          | succ m ihm =>
            rw [List.replicate_succ]
            refine List.Pairwise.cons ?_ ihm
            intro b hb da db hda hdb
            exact Option.noConfusion hda
        exact hrep _
      · intro a ha b hb da db hda hdb
        have hbs := List.eq_of_mem_replicate hb
        subst hbs
        exact Option.noConfusion hdb
    · -- trailing sentinel slots
      intro i hi1 hi2
      rw [List.getD_eq_getElem?_getD, List.getElem?_append_right (by rw [hplen]; exact hi1)]
      rw [hplen, List.getElem?_replicate, if_pos (by omega)]
      rfl

/-- Witness for `C9_output_ascending_with_sentinels_and_count`: the concrete sample
query's output buffer. -/
theorem C9_output_witness :
    ([{ index := 1, distance := (6 : ℚ) }] : List VlKDForestNeighbor).length ≤ 1 ∧
    ([{ index := 1, distance := some (6 : ℚ) }] : List VlKDForestNeighborOut).length = 1 ∧
    List.Pairwise (fun (a b : VlKDForestNeighborOut) => ∀ da db, a.distance = some da →
      b.distance = some db → da ≤ db)
      ([{ index := 1, distance := some (6 : ℚ) }] : List VlKDForestNeighborOut) ∧
    (∀ i, ([{ index := 1, distance := (6 : ℚ) }] : List VlKDForestNeighbor).length ≤ i →
      i < 1 →
      ([{ index := 1, distance := some (6 : ℚ) }] :
        List VlKDForestNeighborOut).getD i default = { index := -1, distance := none }) ∧
    1 = sampleQuerySearcher.searchNumComparisons ∧
    sampleQuerySearcher.searchNumComparisons = sampleQuerySearcher.comparedLog.length :=
  C9_output_ascending_with_sentinels_and_count sampleForest [4] 1 20 20 sampleSearcher
    sampleQuerySearcher [{ index := 1, distance := 6 }]
    [{ index := 1, distance := some 6 }] 1
    (by decide) (by decide) (by decide) (by with_unfolding_all decide)
